import Mathlib

/-!
Shallow embedding of the `aprimc/hashmap` Go package: a generic hash map
(`map.go`) and hash set (`set.go`) built on one open-addressing, linear-probing
table engine with backward-shift deletion, grow/shrink resizing, and (for the
set) an incrementally maintained XOR aggregate hash.

Modelling conventions:
* `uint64` values are `Nat`; the only 64-bit operations the engine performs on
  hashes are `| fullBit`, `& (capacity-1)`, `^`, and `==`, all of which are
  exact on `Nat` for inputs below `2^64` (no wrapping arithmetic occurs), so no
  further masking is needed beyond the one in `tagHash`.
* The key capability `Comparable[K]` (`Hash() uint64`, `Equals(K) bool`) is
  modelled by a hash function `hashFn : K → Nat` together with decidable
  equality on `K`; this bakes in the contract "equal keys hash equal" that the
  package documents as a caller obligation.
* `map.go` and `set.go` duplicate the same table engine (the package README and
  spec describe it as one reusable engine).  The embedding defines the engine
  once over a slot payload type `V`; the set instantiates `V := Unit`.  The
  set's aggregate-hash field is maintained uniformly by the engine; `map.go`
  has no such field and never observes it, so for the map it is ghost state
  (the map API below never reads it).
* The two engines differ in exactly one control point: after a shrink resize,
  `Map.Remove` returns immediately while `Set.removeHash1Key` falls through to
  the backward-shift repair loop.  The engine takes this as the `earlyReturn`
  flag.
* Go's unbounded probe loops are given fuel equal to the array length: a probe
  visits at most `capacity` consecutive slots before stopping at a match or an
  empty slot; with fuel `capacity` it behaves exactly like the Go loop wherever
  the Go loop terminates (a probe that exhausts its fuel corresponds to a Go
  loop spinning on a full table with no match, which is unreachable).
  Likewise the `addHash1Key`/`resize` mutual recursion carries fuel `FUEL = 4`;
  nesting deeper than two resizes is impossible, so the fuel is never
  exhausted on states the public API can reach.
* `emptySetHash` in Go is `Int(0).Hash()`, the seeded `maphash` of the integer
  0, a process-wide value independent of the key type in use; it is modelled
  as a parameter `emptyHash`.  The map instantiation passes 0 for it (ghost).
-/

namespace Hashmap

/-- Constant from map.go: `const fullBit = 1 << 63`. -/
def fullBit : Nat := 2 ^ 63

/-- Constant from map.go: `const initialCapacity = 16`. -/
def initialCapacity : Nat := 16

/-- One slot of the backing array: `mapEntry[K,V]{hash1, key, value}` from
map.go (`setEntry[K]{hash1, key}` from set.go is the `V = Unit` instance, the
value component being ghost).  A slot with `hash1 = 0` is EMPTY; Go's zero
values for the key/value fields are modelled as `none`. -/
structure Slot (K V : Type) where
  hash1 : Nat
  key : Option K
  value : Option V
deriving DecidableEq

/-- Go's zero-valued slot `mapEntry[K, V]{}` / `setEntry[K]{}`. -/
def emptySlot (K V : Type) : Slot K V := ⟨0, none, none⟩

/-- The table state shared by `Map[K,V]` and `Set[K]`: backing slice, live
count, and (for the set) the aggregate hash.  map.go's `Map` has no `hash`
field; here it is ghost state the map API never reads. -/
structure Table (K V : Type) where
  entries : List (Slot K V)
  size : Nat
  hash : Nat
deriving DecidableEq

/-- Go's zero value of `Map[K,V]` / `Set[K]`: nil slice, size 0, hash 0. -/
def Table.zero (K V : Type) : Table K V := ⟨[], 0, 0⟩

/-- Tagged hash: `key.Hash() | fullBit` on `uint64` values. -/
def tagHash (h : Nat) : Nat := (h % 2 ^ 64) ||| fullBit

variable {K V E : Type} [DecidableEq K]

/-- First probe index: `hash1 & uint64(len(entries)-1)`. -/
def startIndex (entries : List (Slot K V)) (hash1 : Nat) : Nat :=
  hash1 &&& (entries.length - 1)

/-- The linear-probing loop shared by `Get`, `putHash1`, `containsHash1Key`,
`addHash1Key`, `Remove` and `removeHash1Key`: starting at `index`, walk forward
with wraparound until an EMPTY slot (result `some (false, i)`) or a slot with
matching tagged hash and equal key (result `some (true, i)`).  `fuel` bounds
the walk; call sites pass the array length, which covers every slot once. -/
def probe (entries : List (Slot K V)) (hash1 : Nat) (key : K) :
    Nat → Nat → Option (Bool × Nat)
  | _, 0 => none
  | index, fuel+1 =>
    let entry := entries.getD index (emptySlot K V)
    if entry.hash1 = 0 then some (false, index)
    else if entry.hash1 = hash1 ∧ entry.key = some key then some (true, index)
    else probe entries hash1 key ((index + 1) &&& (entries.length - 1)) fuel

/-- Live slots of the backing array, in array order, with their stored tagged
hash, key and value; the iteration order used by `resize`, `ForEach` and the
set-algebra scans. -/
def liveEntries (entries : List (Slot K V)) : List (Nat × K × V) :=
  entries.filterMap fun e =>
    if e.hash1 ≠ 0 then e.key.bind fun k => e.value.map fun v => (e.hash1, k, v)
    else none

/-- Resize from map.go / set.go: allocate a fresh array of `cap` slots, reset
count and aggregate hash, then reinsert every live entry of the old array via
the insert routine `ins`. -/
def resizeWith (ins : Table K V → Nat → K → V → Table K V)
    (emptyHash cap : Nat) (t : Table K V) : Table K V :=
  (liveEntries t.entries).foldl (fun acc e => ins acc e.1 e.2.1 e.2.2)
    ⟨List.replicate cap (emptySlot K V), 0, emptyHash⟩

/-- Engine insert: `Set.addHash1Key` from set.go, and simultaneously
`Map.putHash1` from map.go.  Lazy-initializes a nil table, probes, and on an
empty slot writes the entry, bumps the count, XORs the tagged hash into the
aggregate, and grows (doubling) past the 3/4 threshold.  On a matching live
slot set.go returns unchanged; map.go's `entry.value = value` assigns to a
local copy of the slot (`entry := m.entries[index]` copies the struct), so the
backing array is unchanged there too — the in-place value update documented on
`Map.Put` is silently lost, and both engines really do return the table
unchanged on a match.  `fuel` bounds the resize recursion depth. -/
def insertH (emptyHash : Nat) : Nat → Table K V → Nat → K → V → Table K V
  | 0, t, _, _, _ => t
  | fuel+1, t, hash1, key, value =>
    let t := if t.entries.isEmpty then
      ⟨List.replicate initialCapacity (emptySlot K V), t.size, emptyHash⟩ else t
    match probe t.entries hash1 key (startIndex t.entries hash1) t.entries.length with
    | some (true, _) => t
    | some (false, index) =>
      let t' : Table K V :=
        ⟨t.entries.set index ⟨hash1, some key, some value⟩, t.size + 1, t.hash ^^^ hash1⟩
      if 3 * t'.entries.length / 4 < t'.size then
        resizeWith (insertH emptyHash fuel) emptyHash (t'.entries.length * 2) t'
      else t'
    | none => t

/-- Backward-shift repair loop of `Map.Remove` / `Set.removeHash1Key`: walk
forward from the slot after the freed one; clear each contiguous live slot,
decrement the count, XOR its tagged hash out of the aggregate, and reinsert it
through the normal insert path; stop at the first EMPTY slot.  The first fuel
argument bounds the walk (call sites pass the array length). -/
def repairWith (ins : Table K V → Nat → K → V → Table K V) :
    Nat → Table K V → Nat → Table K V
  | 0, t, _ => t
  | fuel+1, t, index =>
    let entry := t.entries.getD index (emptySlot K V)
    if entry.hash1 = 0 then t
    else
      match entry.key, entry.value with
      | some k, some v =>
        let t1 : Table K V :=
          ⟨t.entries.set index (emptySlot K V), t.size - 1, t.hash ^^^ entry.hash1⟩
        let t2 := ins t1 entry.hash1 k v
        repairWith ins fuel t2 ((index + 1) &&& (t2.entries.length - 1))
      | _, _ => t

/-- Engine remove: the body of `Map.Remove` (with `earlyReturn = true`) and
`Set.removeHash1Key` (with `earlyReturn = false`).  Probe for the key; if
absent, no-op.  If found: clear the slot, decrement the count, XOR the tagged
hash out of the aggregate, shrink (halving, never below `initialCapacity`)
when the count falls below the 1/4 threshold, then run the backward-shift
repair loop — except that map.go returns immediately after a shrink while
set.go falls through to the repair loop on the freshly rebuilt array. -/
def removeH (emptyHash : Nat) (earlyReturn : Bool) (fuel : Nat)
    (t : Table K V) (hash1 : Nat) (key : K) : Table K V :=
  match probe t.entries hash1 key (startIndex t.entries hash1) t.entries.length with
  | some (true, index) =>
    let t1 : Table K V :=
      ⟨t.entries.set index (emptySlot K V), t.size - 1, t.hash ^^^ hash1⟩
    if initialCapacity < t1.entries.length ∧ t1.size < t1.entries.length / 4 then
      let t2 := resizeWith (insertH emptyHash fuel) emptyHash (t1.entries.length / 2) t1
      if earlyReturn then t2
      else repairWith (insertH emptyHash fuel) t2.entries.length t2
        ((index + 1) &&& (t2.entries.length - 1))
    else
      repairWith (insertH emptyHash fuel) t1.entries.length t1
        ((index + 1) &&& (t1.entries.length - 1))
  | _ => t

/-- Resize-recursion fuel for the public operations.  A growing rebuild can
never trigger a further grow (it doubles the capacity while reinserting at
most the old capacity's worth of entries), and a shrinking rebuild can trigger
at most one compensating grow, so a nesting depth of 4 is never exhausted. -/
def FUEL : Nat := 4

/-- ForEach loop over the backing array from map.go / set.go: call the visitor
on each live slot in array order and return its first error (a visitor result
of `some e` models a non-nil `error`). -/
def forEachGo (f : K → V → Option E) : List (Slot K V) → Option E
  | [] => none
  | e :: rest =>
    if e.hash1 ≠ 0 then
      match e.key, e.value with
      | some k, some v =>
        match f k v with
        | some err => some err
        | none => forEachGo f rest
      | _, _ => forEachGo f rest
    else forEachGo f rest

/-- Instrumented variant of the ForEach loop recording, in order, the live
entries on which the visitor was actually invoked, together with the returned
error.  Its second component coincides with `forEachGo` (proved below). -/
def forEachTrace (f : K → V → Option E) : List (Slot K V) → List (K × V) × Option E
  | [] => ([], none)
  | e :: rest =>
    if e.hash1 ≠ 0 then
      match e.key, e.value with
      | some k, some v =>
        match f k v with
        | some err => ([(k, v)], some err)
        | none =>
          let r := forEachTrace f rest
          ((k, v) :: r.1, r.2)
      | _, _ => forEachTrace f rest
    else forEachTrace f rest

/-- Size from map.go / set.go: the live count, O(1). -/
def Table.Size (t : Table K V) : Nat := t.size

/-- Copy from map.go / set.go: an empty container copies to a fresh zero
value; otherwise the backing array, count (and aggregate hash) are duplicated.
In this pure embedding structural duplication is the identity. -/
def Table.Copy (t : Table K V) : Table K V :=
  if t.size = 0 then Table.zero K V else t

/-- Get from map.go: `(zero, false)` if the table is empty or the key absent,
else the stored value; `none` models `(zero, false)` and `some v` models
`(v, true)`. -/
def Map.Get (hashFn : K → Nat) (m : Table K V) (key : K) : Option V :=
  if m.size = 0 then none
  else
    let hash1 := tagHash (hashFn key)
    match probe m.entries hash1 key (startIndex m.entries hash1) m.entries.length with
    | some (true, index) => (m.entries.getD index (emptySlot K V)).value
    | _ => none

/-- Put from map.go: lazy-init on first call, then `putHash1`. -/
def Map.Put (hashFn : K → Nat) (m : Table K V) (key : K) (value : V) : Table K V :=
  insertH 0 FUEL m (tagHash (hashFn key)) key value

/-- Remove from map.go: no-op on an empty map; otherwise engine removal with
the early return after a shrink. -/
def Map.Remove (hashFn : K → Nat) (m : Table K V) (key : K) : Table K V :=
  if m.size = 0 then m else removeH 0 true FUEL m (tagHash (hashFn key)) key

/-- ForEach from map.go. -/
def Map.ForEach (m : Table K V) (f : K → V → Option E) : Option E :=
  forEachGo f m.entries

/-- Membership probe `Set.containsHash1Key` from set.go (no emptiness guard;
callers guarantee a non-nil backing array). -/
def containsHash1Key (s : Table K Unit) (hash1 : Nat) (key : K) : Bool :=
  match probe s.entries hash1 key (startIndex s.entries hash1) s.entries.length with
  | some (true, _) => true
  | _ => false

/-- Contains from set.go. -/
def HSet.Contains (hashFn : K → Nat) (s : Table K Unit) (key : K) : Bool :=
  if s.size = 0 then false else containsHash1Key s (tagHash (hashFn key)) key

/-- Add from set.go (the Go type `Set` is rendered `HSet` here to avoid the
name of Mathlib's `Set`). -/
def HSet.Add (hashFn : K → Nat) (emptyHash : Nat) (s : Table K Unit) (key : K) :
    Table K Unit :=
  insertH emptyHash FUEL s (tagHash (hashFn key)) key ()

/-- Remove from set.go: no-op on an empty set; otherwise engine removal
without the early return (the repair loop also runs after a shrink). -/
def HSet.Remove (hashFn : K → Nat) (emptyHash : Nat) (s : Table K Unit) (key : K) :
    Table K Unit :=
  if s.size = 0 then s else removeH emptyHash false FUEL s (tagHash (hashFn key)) key

/-- Hash from set.go: the aggregate hash, or `emptySetHash` when empty. -/
def HSet.Hash (emptyHash : Nat) (s : Table K Unit) : Nat :=
  if s.size = 0 then emptyHash else s.hash

/-- ForEach from set.go. -/
def HSet.ForEach (s : Table K Unit) (f : K → Option E) : Option E :=
  forEachGo (fun k _ => f k) s.entries

/-- Equals from set.go: size check, empty fast path, aggregate-hash rejection,
then containment scan of the operand with the shorter backing array. -/
def HSet.Equals (emptyHash : Nat) (s t : Table K Unit) : Bool :=
  if s.size ≠ t.size then false
  else if s.size = 0 then true
  else if HSet.Hash emptyHash s ≠ HSet.Hash emptyHash t then false
  else
    let p := if t.entries.length < s.entries.length then (t, s) else (s, t)
    (liveEntries p.1.entries).all fun e => containsHash1Key p.2 e.1 e.2.1

/-- IsSubset from set.go (no operand swap: always scans the receiver). -/
def HSet.IsSubset (s t : Table K Unit) : Bool :=
  if t.size < s.size then false
  else if s.size = 0 then true
  else (liveEntries s.entries).all fun e => containsHash1Key t e.1 e.2.1

/-- IsDisjoint from set.go: trivial when either side is empty, else a
non-membership scan of the operand with the shorter backing array. -/
def HSet.IsDisjoint (s t : Table K Unit) : Bool :=
  if s.size = 0 ∨ t.size = 0 then true
  else
    let p := if t.entries.length < s.entries.length then (t, s) else (s, t)
    (liveEntries p.1.entries).all fun e => !(containsHash1Key p.2 e.1 e.2.1)

/-- Union from set.go: copy the operand with the longer backing array, insert
every live entry of the other (reusing its stored tagged hash). -/
def HSet.Union (emptyHash : Nat) (s t : Table K Unit) : Table K Unit :=
  if s.size = 0 then Table.Copy t
  else if t.size = 0 then Table.Copy s
  else
    let p := if t.entries.length < s.entries.length then (t, s) else (s, t)
    (liveEntries p.1.entries).foldl
      (fun r e => insertH emptyHash FUEL r e.1 e.2.1 e.2.2) (Table.Copy p.2)

/-- Intersection from set.go: scan the operand with the shorter backing array,
keeping the entries found in the other. -/
def HSet.Intersection (emptyHash : Nat) (s t : Table K Unit) : Table K Unit :=
  if s.size = 0 ∨ t.size = 0 then Table.zero K Unit
  else
    let p := if t.entries.length < s.entries.length then (t, s) else (s, t)
    (liveEntries p.1.entries).foldl
      (fun r e => if containsHash1Key p.2 e.1 e.2.1 then
        insertH emptyHash FUEL r e.1 e.2.1 e.2.2 else r)
      (Table.zero K Unit)

/-- Difference from set.go: copy the receiver, remove every live entry of the
other found within it (always scans the second operand). -/
def HSet.Difference (emptyHash : Nat) (s t : Table K Unit) : Table K Unit :=
  if s.size = 0 ∨ t.size = 0 then Table.Copy s
  else
    (liveEntries t.entries).foldl
      (fun r e => removeH emptyHash false FUEL r e.1 e.2.1) (Table.Copy s)

/-- Instrumented variant of the backward-shift repair loop: additionally
counts how many clear-and-reinsert iterations the loop executes.  Its first
component coincides with `repairWith` (proved below). -/
def repairCountWith (ins : Table K V → Nat → K → V → Table K V) :
    Nat → Table K V → Nat → Table K V × Nat
  | 0, t, _ => (t, 0)
  | fuel+1, t, index =>
    let entry := t.entries.getD index (emptySlot K V)
    if entry.hash1 = 0 then (t, 0)
    else
      match entry.key, entry.value with
      | some k, some v =>
        let t1 : Table K V :=
          ⟨t.entries.set index (emptySlot K V), t.size - 1, t.hash ^^^ entry.hash1⟩
        let t2 := ins t1 entry.hash1 k v
        let r := repairCountWith ins fuel t2 ((index + 1) &&& (t2.entries.length - 1))
        (r.1, r.2 + 1)
      | _, _ => (t, 0)

/-- Instrumented engine remove: besides the resulting table it reports whether
the shrink resize fired and how many backward-shift repair iterations ran
after that shrink (always 0 when `earlyReturn` is set, as in map.go).  Its
first component coincides with `removeH` (proved below). -/
def removeInstr (emptyHash : Nat) (earlyReturn : Bool) (fuel : Nat)
    (t : Table K V) (hash1 : Nat) (key : K) : Table K V × Bool × Nat :=
  match probe t.entries hash1 key (startIndex t.entries hash1) t.entries.length with
  | some (true, index) =>
    let t1 : Table K V :=
      ⟨t.entries.set index (emptySlot K V), t.size - 1, t.hash ^^^ hash1⟩
    if initialCapacity < t1.entries.length ∧ t1.size < t1.entries.length / 4 then
      let t2 := resizeWith (insertH emptyHash fuel) emptyHash (t1.entries.length / 2) t1
      if earlyReturn then (t2, true, 0)
      else
        let r := repairCountWith (insertH emptyHash fuel) t2.entries.length t2
          ((index + 1) &&& (t2.entries.length - 1))
        (r.1, true, r.2)
    else
      let r := repairCountWith (insertH emptyHash fuel) t1.entries.length t1
        ((index + 1) &&& (t1.entries.length - 1))
      (r.1, false, 0)
  | _ => (t, false, 0)

/-- Short-circuiting conjunction scan that counts how many list elements were
tested before the scan stopped; models the set-algebra loops over live entries
that break out on the first failing check. -/
def scanCountAll (p : Nat × K × V → Bool) : List (Nat × K × V) → Bool × Nat
  | [] => (true, 0)
  | e :: rest =>
    if p e then
      let r := scanCountAll p rest
      (r.1, r.2 + 1)
    else (false, 1)

/-- Instrumented Equals: additionally counts how many live entries of the
scanned operand were tested for containment.  Its first component coincides
with `HSet.Equals` (proved below). -/
def HSet.EqualsCount (emptyHash : Nat) (s t : Table K Unit) : Bool × Nat :=
  if s.size ≠ t.size then (false, 0)
  else if s.size = 0 then (true, 0)
  else if HSet.Hash emptyHash s ≠ HSet.Hash emptyHash t then (false, 0)
  else
    let p := if t.entries.length < s.entries.length then (t, s) else (s, t)
    scanCountAll (fun e => containsHash1Key p.2 e.1 e.2.1) (liveEntries p.1.entries)

/-- Instrumented IsDisjoint: additionally counts how many live entries of the
scanned operand were tested for membership.  Its first component coincides
with `HSet.IsDisjoint` (proved below). -/
def HSet.IsDisjointCount (s t : Table K Unit) : Bool × Nat :=
  if s.size = 0 ∨ t.size = 0 then (true, 0)
  else
    let p := if t.entries.length < s.entries.length then (t, s) else (s, t)
    scanCountAll (fun e => !(containsHash1Key p.2 e.1 e.2.1)) (liveEntries p.1.entries)

/-- Folding scan that counts the live entries visited; models the set-algebra
loops that visit every live entry of the scanned operand. -/
def foldCountAll (g : Table K Unit → Nat × K × Unit → Table K Unit) :
    List (Nat × K × Unit) → Table K Unit → Table K Unit × Nat
  | [], r => (r, 0)
  | e :: rest, r =>
    let q := foldCountAll g rest (g r e)
    (q.1, q.2 + 1)

/-- Instrumented Union: additionally counts the live entries of the scanned
operand.  Its first component coincides with `HSet.Union` (proved below). -/
def HSet.UnionCount (emptyHash : Nat) (s t : Table K Unit) : Table K Unit × Nat :=
  if s.size = 0 then (Table.Copy t, 0)
  else if t.size = 0 then (Table.Copy s, 0)
  else
    let p := if t.entries.length < s.entries.length then (t, s) else (s, t)
    foldCountAll (fun r e => insertH emptyHash FUEL r e.1 e.2.1 e.2.2)
      (liveEntries p.1.entries) (Table.Copy p.2)

/-- Instrumented Intersection: additionally counts the live entries of the
scanned operand.  Its first component coincides with `HSet.Intersection`
(proved below). -/
def HSet.IntersectionCount (emptyHash : Nat) (s t : Table K Unit) : Table K Unit × Nat :=
  if s.size = 0 ∨ t.size = 0 then (Table.zero K Unit, 0)
  else
    let p := if t.entries.length < s.entries.length then (t, s) else (s, t)
    foldCountAll
      (fun r e => if containsHash1Key p.2 e.1 e.2.1 then
        insertH emptyHash FUEL r e.1 e.2.1 e.2.2 else r)
      (liveEntries p.1.entries) (Table.zero K Unit)

/-- Instrumented Difference: additionally counts the live entries of the
scanned operand (always the second one).  Its first component coincides with
`HSet.Difference` (proved below). -/
def HSet.DifferenceCount (emptyHash : Nat) (s t : Table K Unit) : Table K Unit × Nat :=
  if s.size = 0 ∨ t.size = 0 then (Table.Copy s, 0)
  else
    foldCountAll (fun r e => removeH emptyHash false FUEL r e.1 e.2.1)
      (liveEntries t.entries) (Table.Copy s)

/-- Number of live slots of the backing array. -/
def liveCount (entries : List (Slot K V)) : Nat :=
  (entries.filter fun e => e.hash1 ≠ 0).length

/-- Number of live entries of the operand with the shorter backing array,
chosen with the same tie-breaking as the operand swap in set.go's binary
operations. -/
def shorterArrayLive (s t : Table K Unit) : Nat :=
  if t.entries.length < s.entries.length then (liveEntries t.entries).length
  else (liveEntries s.entries).length

/-- Key/value pairs of the live slots, in backing-array order; the visit order
of ForEach. -/
def livePairs (entries : List (Slot K V)) : List (K × V) :=
  (liveEntries entries).map fun e => e.2

/-- XOR of the `hash1` fields of all slots; EMPTY slots contribute 0, so this
is the XOR of all live tagged hashes. -/
def xorAll (entries : List (Slot K V)) : Nat :=
  entries.foldr (fun e a => e.hash1 ^^^ a) 0

/-- Cyclic forward distance from position a to position b in a table of the
given length. -/
def cycDist (len a b : Nat) : Nat := (b + len - a) % len

/-- Home position of a tagged hash: its first probe index. -/
def homeOf (len hash1 : Nat) : Nat := hash1 % len

/-- Well-formed slot: either the empty slot or a live slot storing the tagged
hash of its key together with the key and a value. -/
def SlotWF (hashFn : K → Nat) (e : Slot K V) : Prop :=
  e = emptySlot K V ∨ ∃ k v, e = ⟨tagHash (hashFn k), some k, some v⟩

/-- No key occupies two distinct live slots. -/
def KeysDistinct (entries : List (Slot K V)) : Prop :=
  ∀ i j, i < entries.length → j < entries.length → i ≠ j →
    (entries.getD i (emptySlot K V)).hash1 ≠ 0 →
    (entries.getD j (emptySlot K V)).hash1 ≠ 0 →
    (entries.getD i (emptySlot K V)).key ≠ (entries.getD j (emptySlot K V)).key

/-- Probe-chain invariant of linear probing: every slot on the cyclic walk
from a live entry's home position to its actual position is live, so a probe
for its key never meets an empty slot before reaching it. -/
def ChainInv (entries : List (Slot K V)) : Prop :=
  ∀ i, i < entries.length → (entries.getD i (emptySlot K V)).hash1 ≠ 0 →
    ∀ d, d < cycDist entries.length
        (homeOf entries.length (entries.getD i (emptySlot K V)).hash1) i →
      (entries.getD
        ((homeOf entries.length (entries.getD i (emptySlot K V)).hash1 + d)
          % entries.length) (emptySlot K V)).hash1 ≠ 0

/-- The slot at position i is EMPTY (zero tagged hash). -/
def slotEmptyAt (entries : List (Slot K V)) (i : Nat) : Prop :=
  (entries.getD i (emptySlot K V)).hash1 = 0

/-- The slot at position i matches the probe: equal tagged hash and equal
key. -/
def slotMatchAt (entries : List (Slot K V)) (h1 : Nat) (k : K) (i : Nat) : Prop :=
  (entries.getD i (emptySlot K V)).hash1 = h1 ∧
  (entries.getD i (emptySlot K V)).key = some k

instance (entries : List (Slot K V)) (i : Nat) : Decidable (slotEmptyAt entries i) := by
  unfold slotEmptyAt
  infer_instance

instance (entries : List (Slot K V)) (h1 : Nat) (k : K) (i : Nat) :
    Decidable (slotMatchAt entries h1 k i) := by
  unfold slotMatchAt
  exact instDecidableAnd

/-- Probe-chain invariant weakened at one hole: every live entry's probe
chain is live except possibly at the single position H (the slot just freed
by a removal, before the backward-shift repair has run). -/
def ChainInvExcept (entries : List (Slot K V)) (H : Nat) : Prop :=
  ∀ i, i < entries.length → (entries.getD i (emptySlot K V)).hash1 ≠ 0 →
    ∀ d, d < cycDist entries.length
        (homeOf entries.length (entries.getD i (emptySlot K V)).hash1) i →
      ((homeOf entries.length (entries.getD i (emptySlot K V)).hash1 + d)
          % entries.length = H ∨
        (entries.getD
          ((homeOf entries.length (entries.getD i (emptySlot K V)).hash1 + d)
            % entries.length) (emptySlot K V)).hash1 ≠ 0)

/-- The key k occupies some live slot. -/
def hasKey (entries : List (Slot K V)) (k : K) : Prop :=
  ∃ i, i < entries.length ∧ (entries.getD i (emptySlot K V)).hash1 ≠ 0 ∧
    (entries.getD i (emptySlot K V)).key = some k

/-- Keys of the live slots in array order. -/
def liveKeys (entries : List (Slot K V)) : List K :=
  (liveEntries entries).map fun e => e.2.1

/-- The finite set of keys stored in the table. -/
def keysFinset (entries : List (Slot K V)) : Finset K :=
  (liveKeys entries).toFinset

/-- Structural well-formedness of an allocated table, without the grow/shrink
threshold bounds: used as the intermediate invariant while a mutation is in
flight (for example during a resize rebuild). -/
def EntriesWF (hashFn : K → Nat) (emptyHash : Nat) (t : Table K V) : Prop :=
  (∃ j, t.entries.length = 2 ^ j) ∧
  0 < t.entries.length ∧
  t.size = liveCount t.entries ∧
  (∀ e ∈ t.entries, SlotWF hashFn e) ∧
  KeysDistinct t.entries ∧
  ChainInv t.entries ∧
  t.hash = emptyHash ^^^ xorAll t.entries

/-- Master well-formedness invariant of a table state: it is the zero value,
or an allocated table whose capacity is a power of two at least the initial
capacity, whose size counts the live slots and sits between the shrink and
grow thresholds, whose slots are well formed with pairwise distinct keys and
unbroken probe chains, and whose aggregate hash is emptySetHash XORed with
all live tagged hashes. -/
def TableWF (hashFn : K → Nat) (emptyHash : Nat) (t : Table K V) : Prop :=
  t = Table.zero K V ∨
  ((∃ m, t.entries.length = initialCapacity * 2 ^ m) ∧
   t.size = liveCount t.entries ∧
   t.size ≤ 3 * t.entries.length / 4 ∧
   (t.entries.length = initialCapacity ∨ t.entries.length / 4 ≤ t.size) ∧
   (∀ e ∈ t.entries, SlotWF hashFn e) ∧
   KeysDistinct t.entries ∧
   ChainInv t.entries ∧
   t.hash = emptyHash ^^^ xorAll t.entries)

/-- States reachable through the public map mutations. -/
inductive MapReach (hashFn : K → Nat) : Table K V → Prop
  | zero : MapReach hashFn (Table.zero K V)
  | put (k : K) (v : V) {m : Table K V} :
      MapReach hashFn m → MapReach hashFn (Map.Put hashFn m k v)
  | remove (k : K) {m : Table K V} :
      MapReach hashFn m → MapReach hashFn (Map.Remove hashFn m k)

/-- States reachable through the public set mutations. -/
inductive SetReach (hashFn : K → Nat) (emptyHash : Nat) : Table K Unit → Prop
  | zero : SetReach hashFn emptyHash (Table.zero K Unit)
  | add (k : K) {s : Table K Unit} :
      SetReach hashFn emptyHash s → SetReach hashFn emptyHash (HSet.Add hashFn emptyHash s k)
  | remove (k : K) {s : Table K Unit} :
      SetReach hashFn emptyHash s → SetReach hashFn emptyHash (HSet.Remove hashFn emptyHash s k)

/-- A set built by adding the listed keys, in order, to the zero value. -/
def buildSet (hashFn : K → Nat) (emptyHash : Nat) (l : List K) : Table K Unit :=
  l.foldl (HSet.Add hashFn emptyHash) (Table.zero K Unit)

end Hashmap

namespace Hashmap

/-! Helper lemmas: the instrumented variants compute the same table / result
as the plain translations. -/

variable {K V E : Type} [DecidableEq K]

theorem repairCountWith_fst (ins : Table K V → Nat → K → V → Table K V) :
    ∀ (fuel : Nat) (t : Table K V) (index : Nat),
      (repairCountWith ins fuel t index).1 = repairWith ins fuel t index
  | 0, _, _ => rfl
  | fuel+1, t, index => by
    simp only [repairCountWith, repairWith]
    split
    · rfl
    · cases hk : (t.entries.getD index (emptySlot K V)).key with
      | none => rfl
      | some k =>
        cases hv : (t.entries.getD index (emptySlot K V)).value with
        | none => rfl
        | some v => simpa using repairCountWith_fst ins fuel _ _

theorem removeInstr_fst (emptyHash : Nat) (earlyReturn : Bool) (fuel : Nat)
    (t : Table K V) (hash1 : Nat) (key : K) :
    (removeInstr emptyHash earlyReturn fuel t hash1 key).1 =
      removeH emptyHash earlyReturn fuel t hash1 key := by
  simp only [removeInstr, removeH]
  split
  · split
    · split
      · rfl
      · simp [repairCountWith_fst]
    · simp [repairCountWith_fst]
  · rfl

theorem scanCountAll_fst (p : Nat × K × V → Bool) :
    ∀ l : List (Nat × K × V), (scanCountAll p l).1 = l.all p
  | [] => rfl
  | e :: rest => by
    simp only [scanCountAll, List.all_cons]
    split
    · simpa [*] using scanCountAll_fst p rest
    · simp [*]

theorem equalsCount_fst (emptyHash : Nat) (s t : Table K Unit) :
    (HSet.EqualsCount emptyHash s t).1 = HSet.Equals emptyHash s t := by
  simp only [HSet.EqualsCount, HSet.Equals]
  split
  · rfl
  · split
    · rfl
    · split
      · rfl
      · simp [scanCountAll_fst]

theorem isDisjointCount_fst (s t : Table K Unit) :
    (HSet.IsDisjointCount s t).1 = HSet.IsDisjoint s t := by
  simp only [HSet.IsDisjointCount, HSet.IsDisjoint]
  split
  · rfl
  · simp [scanCountAll_fst]

theorem forEachTrace_snd (f : K → V → Option E) :
    ∀ l : List (Slot K V), (forEachTrace f l).2 = forEachGo f l
  | [] => rfl
  | e :: rest => by
    simp only [forEachTrace, forEachGo]
    split
    · rcases hk : e.key with _ | k
      · simp [hk, forEachTrace_snd f rest]
      · rcases hv : e.value with _ | v
        · simp [hk, hv, forEachTrace_snd f rest]
        · rcases hf : f k v with _ | err <;>
            simp [hk, hv, hf, forEachTrace_snd f rest]
    · exact forEachTrace_snd f rest

/-! Small evaluation lemmas about all-empty tables. -/

theorem getD_replicate {α : Type} (a : α) : ∀ n i : Nat, (List.replicate n a).getD i a = a
  | 0, _ => rfl
  | _+1, 0 => rfl
  | n+1, i+1 => getD_replicate a n i

theorem probe_replicate (n h i fuel : Nat) (k : K) :
    probe (List.replicate n (emptySlot K V)) h k i (fuel + 1) = some (false, i) := by
  simp [probe, getD_replicate, emptySlot]

theorem insertH_zero_alloc (emptyHash fuel h1 : Nat) (k : K) (v : V) :
    (insertH emptyHash (fuel + 1) (Table.zero K V) h1 k v).entries.length = initialCapacity := by
  simp only [insertH, Table.zero, List.isEmpty_nil, if_true]
  rcases hpr : probe (List.replicate initialCapacity (emptySlot K V)) h1 k
      (startIndex (List.replicate initialCapacity (emptySlot K V)) h1)
      (List.replicate initialCapacity (emptySlot K V)).length with _ | ⟨b, i⟩
  · simp [hpr]
  · cases b <;> simp [hpr, initialCapacity]

/-! ForEach semantics: visit order, fail-fast error propagation. -/

theorem forEachGo_none_trace (f : K → V → Option E) :
    ∀ l : List (Slot K V), forEachGo f l = none →
      (∀ p ∈ livePairs l, f p.1 p.2 = none) ∧ (forEachTrace f l).1 = livePairs l
  | [], _ => by simp [livePairs, liveEntries, forEachTrace]
  | e :: rest, h => by
    by_cases h0 : e.hash1 = 0
    · have hr : forEachGo f rest = none := by simpa [forEachGo, h0] using h
      have ih := forEachGo_none_trace f rest hr
      simpa [livePairs, liveEntries, List.filterMap_cons, h0, forEachTrace] using ih
    · rcases hk : e.key with _ | k
      · have hr : forEachGo f rest = none := by simpa [forEachGo, h0, hk] using h
        have ih := forEachGo_none_trace f rest hr
        simpa [livePairs, liveEntries, List.filterMap_cons, h0, hk, forEachTrace] using ih
      · rcases hv : e.value with _ | v
        · have hr : forEachGo f rest = none := by simpa [forEachGo, h0, hk, hv] using h
          have ih := forEachGo_none_trace f rest hr
          simpa [livePairs, liveEntries, List.filterMap_cons, h0, hk, hv, forEachTrace] using ih
        · rcases hf : f k v with _ | err
          · have hr : forEachGo f rest = none := by
              simpa [forEachGo, h0, hk, hv, hf] using h
            have ih := forEachGo_none_trace f rest hr
            constructor
            · intro p hp
              rcases (by simpa [livePairs, liveEntries, List.filterMap_cons, h0, hk, hv]
                  using hp : p = (k, v) ∨ p ∈ livePairs rest) with h1 | h1
              · rw [h1]; exact hf
              · exact ih.1 p h1
            · simp [livePairs, liveEntries, List.filterMap_cons, h0, hk, hv, forEachTrace,
                hf, ih.2]
          · exfalso
            simp [forEachGo, h0, hk, hv, hf] at h

theorem forEachGo_some_trace (f : K → V → Option E) :
    ∀ (l : List (Slot K V)) (err : E), forEachGo f l = some err →
      ∃ pre kv post, livePairs l = pre ++ kv :: post ∧
        (∀ p ∈ pre, f p.1 p.2 = none) ∧ f kv.1 kv.2 = some err ∧
        (forEachTrace f l).1 = pre ++ [kv]
  | [], err, h => by simp [forEachGo] at h
  | e :: rest, err, h => by
    by_cases h0 : e.hash1 = 0
    · have hr : forEachGo f rest = some err := by simpa [forEachGo, h0] using h
      obtain ⟨pre, kv, post, h1, h2, h3, h4⟩ := forEachGo_some_trace f rest err hr
      exact ⟨pre, kv, post,
        by simpa [livePairs, liveEntries, List.filterMap_cons, h0] using h1, h2, h3,
        by simpa [forEachTrace, h0] using h4⟩
    · rcases hk : e.key with _ | k
      · have hr : forEachGo f rest = some err := by simpa [forEachGo, h0, hk] using h
        obtain ⟨pre, kv, post, h1, h2, h3, h4⟩ := forEachGo_some_trace f rest err hr
        exact ⟨pre, kv, post,
          by simpa [livePairs, liveEntries, List.filterMap_cons, h0, hk] using h1, h2, h3,
          by simpa [forEachTrace, h0, hk] using h4⟩
      · rcases hv : e.value with _ | v
        · have hr : forEachGo f rest = some err := by simpa [forEachGo, h0, hk, hv] using h
          obtain ⟨pre, kv, post, h1, h2, h3, h4⟩ := forEachGo_some_trace f rest err hr
          exact ⟨pre, kv, post,
            by simpa [livePairs, liveEntries, List.filterMap_cons, h0, hk, hv] using h1,
            h2, h3, by simpa [forEachTrace, h0, hk, hv] using h4⟩
        · rcases hf : f k v with _ | err'
          · have hr : forEachGo f rest = some err := by
              simpa [forEachGo, h0, hk, hv, hf] using h
            obtain ⟨pre, kv, post, h1, h2, h3, h4⟩ := forEachGo_some_trace f rest err hr
            refine ⟨(k, v) :: pre, kv, post, ?_, ?_, h3, ?_⟩
            · simpa [livePairs, liveEntries, List.filterMap_cons, h0, hk, hv] using h1
            · intro p hp
              rcases List.mem_cons.1 hp with h5 | h5
              · rw [h5]; exact hf
              · exact h2 p h5
            · simp [forEachTrace, h0, hk, hv, hf, h4]
          · have herr : err' = err := by
              simpa [forEachGo, h0, hk, hv, hf] using h
            refine ⟨[], (k, v), livePairs rest, ?_, by simp, by rw [hf, herr], ?_⟩
            · simp [livePairs, liveEntries, List.filterMap_cons, h0, hk, hv]
            · simp [forEachTrace, h0, hk, hv, hf]

/-- C8: ForEach invokes the caller-supplied visitor on the live entries in
backing-array order; if some invocation returns a non-nil error, iteration
stops immediately (the trace of visited entries is exactly the error-free
prefix of the live entries plus the erring entry, so no later live entry is
visited) and that same error is returned unchanged; if no invocation errs,
every live entry is visited in order and nil is returned.  Set ForEach runs
the same engine loop. -/
theorem c8_forEach_fail_fast (K V E : Type) [DecidableEq K]
    (m : Table K V) (f : K → V → Option E) :
    (Map.ForEach m f = none →
      (∀ p ∈ livePairs m.entries, f p.1 p.2 = none) ∧
      (forEachTrace f m.entries).1 = livePairs m.entries) ∧
    (∀ err, Map.ForEach m f = some err →
      ∃ pre kv post, livePairs m.entries = pre ++ kv :: post ∧
        (∀ p ∈ pre, f p.1 p.2 = none) ∧ f kv.1 kv.2 = some err ∧
        (forEachTrace f m.entries).1 = pre ++ [kv]) ∧
    (forEachTrace f m.entries).2 = Map.ForEach m f ∧
    (∀ (s : Table K Unit) (g : K → Option E),
      HSet.ForEach s g = forEachGo (fun k _ => g k) s.entries) :=
  ⟨forEachGo_none_trace f m.entries,
   fun err => forEachGo_some_trace f m.entries err,
   forEachTrace_snd f m.entries,
   fun _ _ => rfl⟩

/-- Witness for C8 at a concrete map and erring visitor. -/
theorem c8_forEach_fail_fast_witness :
    ∃ pre kv post,
      livePairs (Map.Put (fun n => n)
          (Map.Put (fun n => n) (Table.zero Nat Nat) 1 10) 2 20).entries
        = pre ++ kv :: post ∧
      (∀ p ∈ pre, (fun (k : Nat) (_ : Nat) =>
        if k = 2 then some 99 else none) p.1 p.2 = none) ∧
      (fun (k : Nat) (_ : Nat) => if k = 2 then some 99 else none) kv.1 kv.2 = some 99 ∧
      (forEachTrace (fun (k : Nat) (_ : Nat) => if k = 2 then some 99 else none)
        (Map.Put (fun n => n)
          (Map.Put (fun n => n) (Table.zero Nat Nat) 1 10) 2 20).entries).1
        = pre ++ [kv] :=
  (c8_forEach_fail_fast Nat Nat Nat
    (Map.Put (fun n => n) (Map.Put (fun n => n) (Table.zero Nat Nat) 1 10) 2 20)
    (fun k _ => if k = 2 then some 99 else none)).2.1 99 (by decide)

/-- C1: For every map, every key k already present in it, and every value v,
the claim says Put(k, v) updates the stored value in place so that a
subsequent Get(k) returns (v, true) with the size unchanged.  The code loses
the update: map.go's putHash1 assigns the new value to a local copy of the
slot, so after Put(1, 10); Put(1, 20) the map still stores 10 — Get(1)
returns (10, true), not (20, true), contradicting the documentation comment
on Map.Put ("If the key already exists, the value is updated").  The size is
indeed unchanged. -/
theorem c1_put_on_present_key_loses_update :
    Map.Get (fun n => n)
        (Map.Put (fun n => n) (Map.Put (fun n => n) (Table.zero Nat Nat) 1 10) 1 20) 1
      = some 10 ∧
    Map.Get (fun n => n)
        (Map.Put (fun n => n) (Map.Put (fun n => n) (Table.zero Nat Nat) 1 10) 1 20) 1
      ≠ some 20 ∧
    Table.Size (Map.Put (fun n => n) (Map.Put (fun n => n) (Table.zero Nat Nat) 1 10) 1 20)
      = 1 := by
  refine ⟨by decide, by decide, by decide⟩

/-- C2: the claim says Get(k) returns the value of the last Put(k, _) still in
effect.  Because of the lost in-place update (see C1), after Put(2, 5);
Put(2, 7) on an initially empty map, Get(2) returns the FIRST value 5 with
found = true, not the last value 7 the claim requires. -/
theorem c2_get_returns_first_put_value :
    Map.Get (fun n => n)
        (Map.Put (fun n => n) (Map.Put (fun n => n) (Table.zero Nat Nat) 2 5) 2 7) 2
      = some 5 ∧
    Map.Get (fun n => n)
        (Map.Put (fun n => n) (Map.Put (fun n => n) (Table.zero Nat Nat) 2 5) 2 7) 2
      ≠ some 7 := by
  refine ⟨by decide, by decide⟩

/-- C4 counterexample: a reachable set state (13 adds growing the table to
capacity 32, then removals down to 8 live entries) where removing the present
key 1 crosses the shrink threshold.  The instrumented remove reports that the
shrink resize fired AND that 7 backward-shift repair iterations ran after it:
Set.removeHash1Key has no early return after the shrink, contradicting the
claim that in both Map.Remove and Set.Remove the cluster repair is not
performed after a shrink.  The second conjunct checks the instrumented run is
the real Set.Remove. -/
theorem c4_set_repair_runs_after_shrink :
    (removeInstr 5 false FUEL
        ([13, 12, 11, 10, 9].foldl (HSet.Remove (fun n => n) 5)
          (buildSet (fun n => n) 5 (List.range' 1 13)))
        (tagHash 1) 1).2 = (true, 7) ∧
    HSet.Remove (fun n => n) 5
        ([13, 12, 11, 10, 9].foldl (HSet.Remove (fun n => n) 5)
          (buildSet (fun n => n) 5 (List.range' 1 13))) 1
      = (removeInstr 5 false FUEL
          ([13, 12, 11, 10, 9].foldl (HSet.Remove (fun n => n) 5)
            (buildSet (fun n => n) 5 (List.range' 1 13)))
          (tagHash 1) 1).1 :=
  ⟨by decide, by decide⟩

/-- C4 amended: in Map.Remove, when removing a present key crosses the shrink
threshold, the table is rebuilt at half capacity and the backward-shift
cluster repair is not performed afterwards (the function returns right after
the rebuild, so the instrumented count of post-shrink repair iterations is
always 0); in Set.Remove there is no early return, and the repair loop still
executes after the shrink rebuild — on the concrete reachable state below it
runs 7 iterations — although it leaves the freshly rebuilt half-capacity
table unchanged (the result is exactly the set of the 7 remaining keys). -/
theorem c4_amended_shrink_priority :
    (∀ (K V : Type) [DecidableEq K] (emptyHash fuel : Nat) (t : Table K V)
        (hash1 : Nat) (key : K),
      (removeInstr emptyHash true fuel t hash1 key).2.1 = true →
      (removeInstr emptyHash true fuel t hash1 key).2.2 = 0) ∧
    (∀ (K V : Type) [DecidableEq K] (hashFn : K → Nat) (t : Table K V) (key : K),
      t.size ≠ 0 →
      Map.Remove hashFn t key = (removeInstr 0 true FUEL t (tagHash (hashFn key)) key).1) ∧
    ((removeInstr 5 false FUEL
        ([13, 12, 11, 10, 9].foldl (HSet.Remove (fun n => n) 5)
          (buildSet (fun n => n) 5 (List.range' 1 13)))
        (tagHash 1) 1).2 = (true, 7) ∧
      (removeInstr 5 false FUEL
          ([13, 12, 11, 10, 9].foldl (HSet.Remove (fun n => n) 5)
            (buildSet (fun n => n) 5 (List.range' 1 13)))
          (tagHash 1) 1).1
        = buildSet (fun n => n) 5 (List.range' 2 7)) := by
  refine ⟨?_, ?_, by decide, by decide⟩
  · intro K V _ emptyHash fuel t hash1 key h
    revert h
    simp only [removeInstr]
    split
    · split
      · intro _; rfl
      · intro h; exact absurd h (by simp)
    · intro h; exact absurd h (by simp)
  · intro K V _ hashFn t key h
    simp [Map.Remove, h, removeInstr_fst]

/-- Witness for the universally quantified parts of the amended C4 at a
concrete reachable map state whose removal crosses the shrink threshold. -/
theorem c4_amended_shrink_priority_witness :
    (removeInstr 0 true FUEL
        ([13, 12, 11, 10, 9].foldl (Map.Remove (fun n => n))
          ((List.range' 1 13).foldl (fun m k => Map.Put (fun n => n) m k (2 * k))
            (Table.zero Nat Nat)))
        (tagHash 1) 1).2.2 = 0 ∧
    Map.Remove (fun n => n)
        ([13, 12, 11, 10, 9].foldl (Map.Remove (fun n => n))
          ((List.range' 1 13).foldl (fun m k => Map.Put (fun n => n) m k (2 * k))
            (Table.zero Nat Nat))) 1
      = (removeInstr 0 true FUEL
          ([13, 12, 11, 10, 9].foldl (Map.Remove (fun n => n))
            ((List.range' 1 13).foldl (fun m k => Map.Put (fun n => n) m k (2 * k))
              (Table.zero Nat Nat)))
          (tagHash 1) 1).1 :=
  ⟨c4_amended_shrink_priority.1 Nat Nat 0 FUEL
      ([13, 12, 11, 10, 9].foldl (Map.Remove (fun n => n))
        ((List.range' 1 13).foldl (fun m k => Map.Put (fun n => n) m k (2 * k))
          (Table.zero Nat Nat)))
      (tagHash 1) 1 (by decide),
   c4_amended_shrink_priority.2.1 Nat Nat (fun n => n)
      ([13, 12, 11, 10, 9].foldl (Map.Remove (fun n => n))
        ((List.range' 1 13).foldl (fun m k => Map.Put (fun n => n) m k (2 * k))
          (Table.zero Nat Nat))) 1 (by decide)⟩

/-! Scan-count lemmas for the set-algebra operations. -/

theorem foldCountAll_fst (g : Table K Unit → Nat × K × Unit → Table K Unit) :
    ∀ (l : List (Nat × K × Unit)) (r : Table K Unit),
      (foldCountAll g l r).1 = l.foldl g r
  | [], _ => rfl
  | e :: rest, r => by simp [foldCountAll, foldCountAll_fst g rest]

theorem foldCountAll_snd (g : Table K Unit → Nat × K × Unit → Table K Unit) :
    ∀ (l : List (Nat × K × Unit)) (r : Table K Unit),
      (foldCountAll g l r).2 = l.length
  | [], _ => rfl
  | e :: rest, r => by simp [foldCountAll, foldCountAll_snd g rest]

theorem scanCountAll_le (p : Nat × K × Unit → Bool) :
    ∀ l : List (Nat × K × Unit), (scanCountAll p l).2 ≤ l.length
  | [] => Nat.le_refl _
  | e :: rest => by
    simp only [scanCountAll, List.length_cons]
    split
    · simpa using scanCountAll_le p rest
    · simp

theorem unionCount_fst (emptyHash : Nat) (s t : Table K Unit) :
    (HSet.UnionCount emptyHash s t).1 = HSet.Union emptyHash s t := by
  simp only [HSet.UnionCount, HSet.Union]
  split
  · rfl
  · split
    · rfl
    · simp [foldCountAll_fst]

theorem intersectionCount_fst (emptyHash : Nat) (s t : Table K Unit) :
    (HSet.IntersectionCount emptyHash s t).1 = HSet.Intersection emptyHash s t := by
  simp only [HSet.IntersectionCount, HSet.Intersection]
  split
  · rfl
  · simp [foldCountAll_fst]

theorem differenceCount_fst (emptyHash : Nat) (s t : Table K Unit) :
    (HSet.DifferenceCount emptyHash s t).1 = HSet.Difference emptyHash s t := by
  simp only [HSet.DifferenceCount, HSet.Difference]
  split
  · rfl
  · simp [foldCountAll_fst]

/-- C9 counterexample: after a concrete reachable history, set a has 12 live
entries in a capacity-16 array and set b has 9 live entries in a capacity-32
array.  IsDisjoint swaps operands by backing-array length, so it scans a —
the operand with MORE live entries — performing 12 membership checks where
min(|a|, |b|) = 9, contradicting the claim that every scanning binary set
operation scans the operand with fewer live entries. -/
theorem c9_disjoint_scans_larger_operand :
    (let a := buildSet (fun n => n) 5 (List.range' 1 12)
     let b := [110, 111, 112, 113].foldl (HSet.Remove (fun n => n) 5)
       (buildSet (fun n => n) 5 (List.range' 101 13))
     (HSet.IsDisjointCount a b).2 = 12 ∧ a.size = 12 ∧ b.size = 9 ∧
       (liveEntries b.entries).length = 9 ∧ a.entries.length = 16 ∧
       b.entries.length = 32 ∧ HSet.IsDisjoint a b = true ∧
       min a.size b.size < (HSet.IsDisjointCount a b).2) := by decide

/-- C9 amended: set.go's binary operations Equals, IsDisjoint, Union and
Intersection scan the operand with the shorter BACKING ARRAY — the swap
compares capacities, not live-entry counts — and Difference always scans its
second operand.  The scanned work is bounded by (short-circuiting scans) or
equal to (folding scans) the live-entry count of that scanned operand, which
need not be min(|A|, |B|).  The final conjuncts check each instrumented count
is faithful to the uninstrumented operation. -/
theorem c9_amended_scans_shorter_array (emptyHash : Nat) (s t : Table K Unit) :
    (HSet.EqualsCount emptyHash s t).2 ≤ shorterArrayLive s t ∧
    (HSet.IsDisjointCount s t).2 ≤ shorterArrayLive s t ∧
    (s.size ≠ 0 → t.size ≠ 0 →
      (HSet.UnionCount emptyHash s t).2 = shorterArrayLive s t) ∧
    (s.size ≠ 0 → t.size ≠ 0 →
      (HSet.IntersectionCount emptyHash s t).2 = shorterArrayLive s t) ∧
    (s.size ≠ 0 → t.size ≠ 0 →
      (HSet.DifferenceCount emptyHash s t).2 = (liveEntries t.entries).length) ∧
    (HSet.EqualsCount emptyHash s t).1 = HSet.Equals emptyHash s t ∧
    (HSet.IsDisjointCount s t).1 = HSet.IsDisjoint s t ∧
    (HSet.UnionCount emptyHash s t).1 = HSet.Union emptyHash s t ∧
    (HSet.IntersectionCount emptyHash s t).1 = HSet.Intersection emptyHash s t ∧
    (HSet.DifferenceCount emptyHash s t).1 = HSet.Difference emptyHash s t := by
  refine ⟨?_, ?_, ?_, ?_, ?_, equalsCount_fst emptyHash s t, isDisjointCount_fst s t,
    unionCount_fst emptyHash s t, intersectionCount_fst emptyHash s t,
    differenceCount_fst emptyHash s t⟩
  · simp only [HSet.EqualsCount, shorterArrayLive]
    by_cases hc : t.entries.length < s.entries.length <;>
      split_ifs <;> simp [hc, scanCountAll_le]
  · simp only [HSet.IsDisjointCount, shorterArrayLive]
    by_cases hc : t.entries.length < s.entries.length <;>
      split_ifs <;> simp [hc, scanCountAll_le]
  · intro hs ht
    by_cases hc : t.entries.length < s.entries.length <;>
      simp [HSet.UnionCount, shorterArrayLive, hs, ht, hc, foldCountAll_snd]
  · intro hs ht
    by_cases hc : t.entries.length < s.entries.length <;>
      simp [HSet.IntersectionCount, shorterArrayLive, hs, ht, hc, foldCountAll_snd]
  · intro hs ht
    simp [HSet.DifferenceCount, hs, ht, foldCountAll_snd]

/-- Witness for the conditional parts of the amended C9 at concrete sets. -/
theorem c9_amended_scans_shorter_array_witness :
    (HSet.UnionCount 5 (buildSet (fun n => n) 5 [1, 2, 3])
        (buildSet (fun n => n) 5 [2, 3, 4])).2
      = shorterArrayLive (buildSet (fun n => n) 5 [1, 2, 3])
          (buildSet (fun n => n) 5 [2, 3, 4]) ∧
    (HSet.DifferenceCount 5 (buildSet (fun n => n) 5 [1, 2, 3])
        (buildSet (fun n => n) 5 [2, 3, 4])).2
      = (liveEntries (buildSet (fun n => n) 5 [2, 3, 4]).entries).length :=
  ⟨(c9_amended_scans_shorter_array 5 (buildSet (fun n => n) 5 [1, 2, 3])
      (buildSet (fun n => n) 5 [2, 3, 4])).2.2.1 (by decide) (by decide),
   (c9_amended_scans_shorter_array 5 (buildSet (fun n => n) 5 [1, 2, 3])
      (buildSet (fun n => n) 5 [2, 3, 4])).2.2.2.2.1 (by decide) (by decide)⟩

/-- C7: a zero-initialized Map or Set is a valid empty container: Size 0, Get
not-found, Contains false, Remove a no-op, ForEach visits nothing and returns
nil; its backing array is empty (nil), and the backing array is allocated (at
the initial capacity 16) only on the first Put/Add. -/
theorem c7_zero_value_valid (K V E : Type) [DecidableEq K] (hashFn : K → Nat)
    (emptyHash : Nat) (k : K) (v : V) (f : K → V → Option E) (g : K → Option E) :
    Table.Size (Table.zero K V) = 0 ∧
    Map.Get hashFn (Table.zero K V) k = none ∧
    HSet.Contains hashFn (Table.zero K Unit) k = false ∧
    Map.Remove hashFn (Table.zero K V) k = Table.zero K V ∧
    HSet.Remove hashFn emptyHash (Table.zero K Unit) k = Table.zero K Unit ∧
    Map.ForEach (Table.zero K V) f = none ∧
    (forEachTrace f (Table.zero K V).entries).1 = [] ∧
    HSet.ForEach (Table.zero K Unit) g = none ∧
    (Table.zero K V).entries = [] ∧
    (Map.Put hashFn (Table.zero K V) k v).entries.length = initialCapacity ∧
    (HSet.Add hashFn emptyHash (Table.zero K Unit) k).entries.length = initialCapacity := by
  refine ⟨rfl, rfl, rfl, rfl, rfl, rfl, rfl, rfl, rfl, ?_, ?_⟩
  · exact insertH_zero_alloc (K := K) (V := V) 0 3 (tagHash (hashFn k)) k v
  · exact insertH_zero_alloc (K := K) (V := Unit) emptyHash 3 (tagHash (hashFn k)) k ()

/-! Basic facts about list indexing, counting, XOR folding, and cyclic
distances, used throughout the invariant proofs. -/

theorem getD_set_self {α : Type} (l : List α) (i : Nat) (x d : α) (h : i < l.length) :
    (l.set i x).getD i d = x := by
  simp [List.getD, List.getElem?_set, h]

theorem getD_set_ne {α : Type} (l : List α) (i j : Nat) (x d : α) (h : i ≠ j) :
    (l.set i x).getD j d = l.getD j d := by
  simp [List.getD, List.getElem?_set, h]

theorem getD_eq_getElem {α : Type} (l : List α) (n : Nat) (d : α) (h : n < l.length) :
    l.getD n d = l[n] := by
  simp [List.getD, List.getElem?_eq_getElem h]

theorem set_getD_self {α : Type} (l : List α) (i : Nat) (d : α) (h : i < l.length) :
    l.set i (l.getD i d) = l := by
  rw [getD_eq_getElem l i d h]
  apply List.ext_getElem?
  intro n
  rw [List.getElem?_set]
  split
  · simp_all
  · rfl

theorem getD_mem {α : Type} (l : List α) (i : Nat) (d : α) (h : i < l.length) :
    l.getD i d ∈ l := by
  rw [getD_eq_getElem l i d h]
  exact List.getElem_mem h

theorem liveCount_le_length (entries : List (Slot K V)) :
    liveCount entries ≤ entries.length :=
  List.length_filter_le _ _

theorem liveCount_cons (e : Slot K V) (rest : List (Slot K V)) :
    liveCount (e :: rest) = (if e.hash1 = 0 then 0 else 1) + liveCount rest := by
  by_cases h : e.hash1 = 0 <;> simp [liveCount, List.filter_cons, h, Nat.add_comm]

theorem liveCount_set_live (x : Slot K V) :
    ∀ (entries : List (Slot K V)) (i : Nat), i < entries.length →
      (entries.getD i (emptySlot K V)).hash1 = 0 → x.hash1 ≠ 0 →
      liveCount (entries.set i x) = liveCount entries + 1
  | [], i, h, _, _ => by simp at h
  | e :: rest, 0, _, he, hx => by
    rw [List.getD_cons_zero] at he
    simp only [List.set_cons_zero, liveCount_cons]
    simp [he, hx, Nat.add_comm]
  | e :: rest, i+1, h, he, hx => by
    rw [List.getD_cons_succ] at he
    simp only [List.set_cons_succ, liveCount_cons]
    have := liveCount_set_live x rest i (by simpa using h) he hx
    omega

theorem liveCount_set_empty :
    ∀ (entries : List (Slot K V)) (i : Nat), i < entries.length →
      (entries.getD i (emptySlot K V)).hash1 ≠ 0 →
      liveCount (entries.set i (emptySlot K V)) + 1 = liveCount entries
  | [], i, h, _ => by simp at h
  | e :: rest, 0, _, he => by
    rw [List.getD_cons_zero] at he
    simp only [List.set_cons_zero, liveCount_cons]
    simp [he, emptySlot]
    omega
  | e :: rest, i+1, h, he => by
    rw [List.getD_cons_succ] at he
    simp only [List.set_cons_succ, liveCount_cons]
    have := liveCount_set_empty rest i (by simpa using h) he
    omega

theorem xorAll_cons (e : Slot K V) (rest : List (Slot K V)) :
    xorAll (e :: rest) = e.hash1 ^^^ xorAll rest := rfl

theorem xorAll_set :
    ∀ (entries : List (Slot K V)) (i : Nat) (x : Slot K V), i < entries.length →
      xorAll (entries.set i x)
        = xorAll entries ^^^ (entries.getD i (emptySlot K V)).hash1 ^^^ x.hash1
  | [], i, _, h => by simp at h
  | e :: rest, 0, x, _ => by
    rw [List.set_cons_zero, xorAll_cons, xorAll_cons, List.getD_cons_zero]
    have : e.hash1 ^^^ xorAll rest ^^^ e.hash1 ^^^ x.hash1
        = (e.hash1 ^^^ e.hash1) ^^^ (xorAll rest ^^^ x.hash1) := by ac_rfl
    rw [this, Nat.xor_self, Nat.zero_xor]
    ac_rfl
  | e :: rest, i+1, x, h => by
    rw [List.set_cons_succ, xorAll_cons, xorAll_cons, List.getD_cons_succ]
    rw [xorAll_set rest i x (by simpa using h)]
    ac_rfl

theorem liveCount_full :
    ∀ entries : List (Slot K V),
      (∀ i, i < entries.length → (entries.getD i (emptySlot K V)).hash1 ≠ 0) →
      liveCount entries = entries.length
  | [], _ => rfl
  | e :: rest, h => by
    have h0 := h 0 (by simp)
    rw [List.getD_cons_zero] at h0
    rw [liveCount_cons, liveCount_full rest (fun i hi => by
      have := h (i+1) (by simpa using hi)
      rwa [List.getD_cons_succ] at this)]
    simp [h0]
    omega

theorem liveCount_almost :
    ∀ (entries : List (Slot K V)) (H0 : Nat),
      (∀ i, i < entries.length → i ≠ H0 →
        (entries.getD i (emptySlot K V)).hash1 ≠ 0) →
      entries.length - 1 ≤ liveCount entries
  | [], _, _ => by simp
  | e :: rest, 0, h => by
    have : liveCount rest = rest.length :=
      liveCount_full rest (fun i hi => by
        have := h (i+1) (by simpa using hi) (by omega)
        rwa [List.getD_cons_succ] at this)
    rw [liveCount_cons, this]
    simp only [List.length_cons]
    by_cases h0 : e.hash1 = 0 <;> simp [h0] <;> omega
  | e :: rest, H+1, h => by
    have h0 := h 0 (by simp) (by omega)
    rw [List.getD_cons_zero] at h0
    have := liveCount_almost rest H (fun i hi hne => by
      have := h (i+1) (by simpa using hi) (by omega)
      rwa [List.getD_cons_succ] at this)
    rw [liveCount_cons, if_neg h0]
    simp only [List.length_cons]
    omega

theorem exists_empty_slot (entries : List (Slot K V))
    (h : liveCount entries < entries.length) :
    ∃ z, z < entries.length ∧ (entries.getD z (emptySlot K V)).hash1 = 0 := by
  by_contra hc
  push_neg at hc
  have := liveCount_full entries hc
  omega

theorem exists_second_empty (entries : List (Slot K V)) (H0 : Nat)
    (h : liveCount entries + 1 < entries.length) :
    ∃ z, z < entries.length ∧ z ≠ H0 ∧ (entries.getD z (emptySlot K V)).hash1 = 0 := by
  by_contra hc
  push_neg at hc
  have := liveCount_almost entries H0 (fun i hi hne => by
    specialize hc i hi
    tauto)
  omega

theorem cycDist_eq (len a b : Nat) (ha : a < len) (hb : b < len) :
    cycDist len a b = if a ≤ b then b - a else b + len - a := by
  unfold cycDist
  rcases le_or_lt a b with h | h
  · have h1 : b + len - a = (b - a) + len := by omega
    rw [h1, Nat.add_mod_right, Nat.mod_eq_of_lt (by omega)]
    simp [h]
  · have h2 : b + len - a < len := by omega
    rw [Nat.mod_eq_of_lt h2]
    simp [Nat.not_le.2 h]

theorem cycDist_lt (len a b : Nat) (h : 0 < len) : cycDist len a b < len :=
  Nat.mod_lt _ h

theorem cycDist_eq_zero_iff (len a b : Nat) (ha : a < len) (hb : b < len) :
    cycDist len a b = 0 ↔ a = b := by
  rw [cycDist_eq len a b ha hb]
  split <;> omega

theorem cycDist_walk (len a b : Nat) (ha : a < len) (hb : b < len) :
    (a + cycDist len a b) % len = b := by
  rw [cycDist_eq len a b ha hb]
  rcases le_or_lt a b with h | h
  · rw [if_pos h, Nat.add_sub_cancel' h, Nat.mod_eq_of_lt hb]
  · rw [if_neg (Nat.not_le.2 h)]
    have h1 : a + (b + len - a) = b + len := by omega
    rw [h1, Nat.add_mod_right, Nat.mod_eq_of_lt hb]

theorem mod_step (len x : Nat) : (x % len + 1) % len = (x + 1) % len := by
  rw [Nat.mod_add_mod]

theorem pow_len_initial (m : Nat) :
    ∃ j, initialCapacity * 2 ^ m = 2 ^ j :=
  ⟨m + 4, by rw [initialCapacity, Nat.pow_add, Nat.pow_succ]; ring⟩

theorem startIndex_mod (entries : List (Slot K V)) (h1 : Nat)
    (hl : ∃ j, entries.length = 2 ^ j) :
    startIndex entries h1 = h1 % entries.length := by
  obtain ⟨j, hj⟩ := hl
  rw [startIndex, hj, Nat.and_pow_two_sub_one_eq_mod]

theorem step_mod (len i : Nat) (hl : ∃ j, len = 2 ^ j) :
    (i + 1) &&& (len - 1) = (i + 1) % len := by
  obtain ⟨j, hj⟩ := hl
  rw [hj, Nat.and_pow_two_sub_one_eq_mod]

theorem tagHash_ne_zero (h : Nat) : tagHash h ≠ 0 := by
  intro h0
  have h1 : (tagHash h).testBit 63 = true := by
    rw [tagHash, fullBit, Nat.testBit_lor, Nat.testBit_two_pow_self]
    simp
  rw [h0] at h1
  simp [Nat.zero_testBit] at h1

/-! Glue lemmas between index-based and list-based views of a table, and
facts about freshly allocated arrays. -/

theorem hasKey_cons (e : Slot K V) (rest : List (Slot K V)) (k : K) :
    hasKey (e :: rest) k ↔ ((e.hash1 ≠ 0 ∧ e.key = some k) ∨ hasKey rest k) := by
  constructor
  · rintro ⟨i, hi, hlive, hkey⟩
    cases i with
    | zero =>
      rw [List.getD_cons_zero] at hlive hkey
      exact Or.inl ⟨hlive, hkey⟩
    | succ i' =>
      rw [List.getD_cons_succ] at hlive hkey
      exact Or.inr ⟨i', by simpa using hi, hlive, hkey⟩
  · rintro (⟨hlive, hkey⟩ | ⟨i, hi, hlive, hkey⟩)
    · exact ⟨0, by simp, by simpa using hlive, by simpa using hkey⟩
    · exact ⟨i + 1, by simpa using hi, by simpa using hlive, by simpa using hkey⟩

theorem keysDistinct_cons (e : Slot K V) (rest : List (Slot K V))
    (h : KeysDistinct (e :: rest)) :
    KeysDistinct rest ∧
    (e.hash1 ≠ 0 → ∀ k, e.key = some k → ¬hasKey rest k) := by
  constructor
  · intro i j hi hj hne hli hlj
    have := h (i+1) (j+1) (by simpa using hi) (by simpa using hj) (by omega)
      (by simpa using hli) (by simpa using hlj)
    simpa using this
  · intro hlive k hkey ⟨i, hi, hli, hki⟩
    have := h 0 (i+1) (by simp) (by simpa using hi) (by omega)
      (by simpa using hlive) (by simpa using hli)
    rw [List.getD_cons_zero, List.getD_cons_succ] at this
    rw [hkey, hki] at this
    exact this rfl

theorem liveEntries_cons_empty (rest : List (Slot K V)) :
    liveEntries ((emptySlot K V) :: rest) = liveEntries rest := by
  simp [liveEntries, List.filterMap_cons, emptySlot]

theorem liveEntries_cons_live (h1 : Nat) (k0 : K) (v0 : V) (rest : List (Slot K V))
    (hne : h1 ≠ 0) :
    liveEntries ((⟨h1, some k0, some v0⟩ : Slot K V) :: rest)
      = (h1, k0, v0) :: liveEntries rest := by
  simp [liveEntries, List.filterMap_cons, hne]

theorem liveEntries_mem_tag (hashFn : K → Nat) :
    ∀ entries : List (Slot K V), (∀ e ∈ entries, SlotWF hashFn e) →
      ∀ p ∈ liveEntries entries, p.1 = tagHash (hashFn p.2.1)
  | [], _, p, hp => by simp [liveEntries] at hp
  | e :: rest, hwf, p, hp => by
    have hrest := liveEntries_mem_tag hashFn rest (fun x hx => hwf x (by simp [hx]))
    rcases hwf e (by simp) with hempty | ⟨k0, v0, hshape⟩
    · rw [hempty, liveEntries_cons_empty] at hp
      exact hrest p hp
    · rw [hshape, liveEntries_cons_live _ _ _ _ (tagHash_ne_zero _)] at hp
      rcases List.mem_cons.1 hp with hp | hp
      · rw [hp]
      · exact hrest p hp

theorem liveEntries_length (hashFn : K → Nat) :
    ∀ entries : List (Slot K V), (∀ e ∈ entries, SlotWF hashFn e) →
      (liveEntries entries).length = liveCount entries
  | [], _ => rfl
  | e :: rest, hwf => by
    have hrest := liveEntries_length hashFn rest (fun x hx => hwf x (by simp [hx]))
    rw [liveCount_cons]
    rcases hwf e (by simp) with hempty | ⟨k0, v0, hshape⟩
    · rw [hempty, liveEntries_cons_empty, hrest]
      simp [emptySlot]
    · rw [hshape, liveEntries_cons_live _ _ _ _ (tagHash_ne_zero _), List.length_cons,
        hrest]
      simp [tagHash_ne_zero]
      omega

theorem liveKeys_mem (hashFn : K → Nat) :
    ∀ entries : List (Slot K V), (∀ e ∈ entries, SlotWF hashFn e) → ∀ k : K,
      (k ∈ liveKeys entries ↔ hasKey entries k)
  | [], _, k => by
    simp [liveKeys, liveEntries, hasKey]
  | e :: rest, hwf, k => by
    have hrest := liveKeys_mem hashFn rest (fun x hx => hwf x (by simp [hx])) k
    rw [hasKey_cons]
    rcases hwf e (by simp) with hempty | ⟨k0, v0, hshape⟩
    · rw [hempty, liveKeys, liveEntries_cons_empty, ← liveKeys, hrest]
      simp [emptySlot]
    · rw [hshape, liveKeys, liveEntries_cons_live _ _ _ _ (tagHash_ne_zero _),
        List.map_cons, ← liveKeys]
      rw [List.mem_cons, hrest]
      constructor
      · rintro (h | h)
        · exact Or.inl ⟨tagHash_ne_zero _, by rw [h]⟩
        · exact Or.inr h
      · rintro (⟨_, h⟩ | h)
        · exact Or.inl (Option.some_injective _ h).symm
        · exact Or.inr h

theorem liveKeys_nodup (hashFn : K → Nat) :
    ∀ entries : List (Slot K V), (∀ e ∈ entries, SlotWF hashFn e) →
      KeysDistinct entries → (liveKeys entries).Nodup
  | [], _, _ => by simp [liveKeys, liveEntries]
  | e :: rest, hwf, hdist => by
    obtain ⟨hdrest, hhead⟩ := keysDistinct_cons e rest hdist
    have hwfrest : ∀ x ∈ rest, SlotWF hashFn x := fun x hx => hwf x (by simp [hx])
    have hrest := liveKeys_nodup hashFn rest hwfrest hdrest
    rcases hwf e (by simp) with hempty | ⟨k0, v0, hshape⟩
    · rw [hempty, liveKeys, liveEntries_cons_empty, ← liveKeys]
      exact hrest
    · rw [hshape, liveKeys, liveEntries_cons_live _ _ _ _ (tagHash_ne_zero _),
        List.map_cons, ← liveKeys, List.nodup_cons]
      refine ⟨?_, hrest⟩
      intro hmem
      have hk0 := (liveKeys_mem hashFn rest hwfrest k0).1 hmem
      exact hhead (by rw [hshape]; exact tagHash_ne_zero _) k0 (by rw [hshape]) hk0

theorem liveCount_replicate (n : Nat) :
    liveCount (List.replicate n (emptySlot K V)) = 0 := by
  induction n with
  | zero => rfl
  | succ n ih => rw [List.replicate_succ, liveCount_cons, ih]; simp [emptySlot]

theorem xorAll_replicate (n : Nat) :
    xorAll (List.replicate n (emptySlot K V)) = 0 := by
  induction n with
  | zero => rfl
  | succ n ih => rw [List.replicate_succ, xorAll_cons, ih]; simp [emptySlot]

theorem hasKey_replicate (n : Nat) (k : K) :
    ¬hasKey (List.replicate n (emptySlot K V)) k := by
  rintro ⟨i, hi, hlive, _⟩
  rw [getD_replicate] at hlive
  exact hlive rfl

theorem freshTable_EntriesWF (hashFn : K → Nat) (emptyHash cap : Nat)
    (hcap : ∃ j, cap = 2 ^ j) (hpos : 0 < cap) :
    EntriesWF hashFn emptyHash
      (⟨List.replicate cap (emptySlot K V), 0, emptyHash⟩ : Table K V) := by
  refine ⟨by simpa using hcap, by simpa using hpos, ?_, ?_, ?_, ?_, ?_⟩
  · rw [liveCount_replicate]
  · intro e he
    rw [List.eq_of_mem_replicate he]
    exact Or.inl rfl
  · intro i j hi hj hne hli
    rw [getD_replicate] at hli
    exact absurd rfl hli
  · intro i hi hlive
    rw [getD_replicate] at hlive
    exact absurd rfl hlive
  · rw [xorAll_replicate, Nat.xor_zero]

/-! Characterization of the probe loop. -/

theorem probe_succ_mod (entries : List (Slot K V)) (h1 : Nat) (k : K) (i fuel : Nat)
    (hpow : ∃ j, entries.length = 2 ^ j) :
    probe entries h1 k i (fuel + 1) =
      (if slotEmptyAt entries i then some (false, i)
       else if slotMatchAt entries h1 k i then some (true, i)
       else probe entries h1 k ((i + 1) % entries.length) fuel) := by
  simp only [probe, step_mod _ _ hpow, slotEmptyAt, slotMatchAt]

theorem probe_complete (entries : List (Slot K V)) (h1 : Nat) (k : K)
    (hpow : ∃ j, entries.length = 2 ^ j) (hlen : 0 < entries.length)
    (hh1 : h1 ≠ 0) (b : Bool) :
    ∀ (d start fuel : Nat), start < entries.length → d < fuel →
      (∀ e, e < d → ¬slotEmptyAt entries ((start + e) % entries.length) ∧
        ¬slotMatchAt entries h1 k ((start + e) % entries.length)) →
      ((b = false ∧ slotEmptyAt entries ((start + d) % entries.length)) ∨
       (b = true ∧ slotMatchAt entries h1 k ((start + d) % entries.length))) →
      probe entries h1 k start fuel = some (b, (start + d) % entries.length)
  | 0, start, fuel+1, hstart, _, _, hstop => by
    rw [probe_succ_mod entries h1 k start fuel hpow]
    have ht : (start + 0) % entries.length = start := by
      rw [Nat.add_zero, Nat.mod_eq_of_lt hstart]
    rw [ht] at hstop
    rcases hstop with ⟨hb, he⟩ | ⟨hb, hm⟩
    · rw [if_pos he, hb, ht]
    · have hne : ¬slotEmptyAt entries start := by
        intro h0
        rw [slotEmptyAt] at h0
        rw [slotMatchAt, h0] at hm
        exact hh1 hm.1.symm
      rw [if_neg hne, if_pos hm, hb, ht]
  | d+1, start, fuel+1, hstart, hd, hmid, hstop => by
    rw [probe_succ_mod entries h1 k start fuel hpow]
    have h0 := hmid 0 (Nat.succ_pos d)
    have ht : (start + 0) % entries.length = start := by
      rw [Nat.add_zero, Nat.mod_eq_of_lt hstart]
    rw [ht] at h0
    rw [if_neg h0.1, if_neg h0.2]
    have hstep : ∀ e : Nat, ((start + 1) % entries.length + e) % entries.length
        = (start + (e + 1)) % entries.length := by
      intro e
      rw [Nat.mod_add_mod]
      congr 1
      omega
    have := probe_complete entries h1 k hpow hlen hh1 b d
      ((start + 1) % entries.length) fuel (Nat.mod_lt _ hlen) (by omega)
      (fun e he => by
        rw [hstep e]
        exact hmid (e + 1) (by omega))
      (by rw [hstep d]; exact hstop)
    rw [this, hstep d]

theorem probe_sound (entries : List (Slot K V)) (h1 : Nat) (k : K)
    (hpow : ∃ j, entries.length = 2 ^ j) (hlen : 0 < entries.length) :
    ∀ (fuel start : Nat) (b : Bool) (i : Nat), start < entries.length →
      probe entries h1 k start fuel = some (b, i) →
      ∃ d, d < fuel ∧ i = (start + d) % entries.length ∧
        (∀ e, e < d → ¬slotEmptyAt entries ((start + e) % entries.length) ∧
          ¬slotMatchAt entries h1 k ((start + e) % entries.length)) ∧
        ((b = false ∧ slotEmptyAt entries i) ∨ (b = true ∧ slotMatchAt entries h1 k i))
  | 0, start, b, i, _, hp => by simp [probe] at hp
  | fuel+1, start, b, i, hstart, hp => by
    rw [probe_succ_mod entries h1 k start fuel hpow] at hp
    by_cases he : slotEmptyAt entries start
    · rw [if_pos he] at hp
      obtain ⟨hb, hi⟩ : b = false ∧ i = start := by
        cases hp
        exact ⟨rfl, rfl⟩
      refine ⟨0, by omega, ?_, by omega, ?_⟩
      · rw [Nat.add_zero, Nat.mod_eq_of_lt hstart, hi]
      · left
        rw [hb, hi]
        exact ⟨rfl, he⟩
    · rw [if_neg he] at hp
      by_cases hm : slotMatchAt entries h1 k start
      · rw [if_pos hm] at hp
        obtain ⟨hb, hi⟩ : b = true ∧ i = start := by
          cases hp
          exact ⟨rfl, rfl⟩
        refine ⟨0, by omega, ?_, by omega, ?_⟩
        · rw [Nat.add_zero, Nat.mod_eq_of_lt hstart, hi]
        · right
          rw [hb, hi]
          exact ⟨rfl, hm⟩
      · rw [if_neg hm] at hp
        obtain ⟨d, hd, hi, hmid, hstop⟩ := probe_sound entries h1 k hpow hlen fuel
          ((start + 1) % entries.length) b i (Nat.mod_lt _ hlen) hp
        have hstep : ∀ e : Nat, ((start + 1) % entries.length + e) % entries.length
            = (start + (e + 1)) % entries.length := by
          intro e
          rw [Nat.mod_add_mod]
          congr 1
          omega
        refine ⟨d + 1, by omega, by rw [hi, hstep d], ?_, hstop⟩
        intro e helt
        cases e with
        | zero =>
          rw [Nat.add_zero, Nat.mod_eq_of_lt hstart]
          exact ⟨he, hm⟩
        | succ e' =>
          rw [← hstep e']
          exact hmid e' (by omega)

theorem cycDist_add (len a e : Nat) (ha : a < len) (he : e < len) :
    cycDist len a ((a + e) % len) = e := by
  unfold cycDist
  rcases Nat.lt_or_ge (a + e) len with h | h
  · rw [Nat.mod_eq_of_lt h]
    have h1 : a + e + len - a = e + len := by omega
    rw [h1, Nat.add_mod_right, Nat.mod_eq_of_lt he]
  · have h1 : (a + e) % len = a + e - len := by
      rw [Nat.mod_eq_sub_mod h, Nat.mod_eq_of_lt (by omega)]
    rw [h1]
    have h2 : a + e - len + len - a = e := by omega
    rw [h2, Nat.mod_eq_of_lt he]

theorem walk_inj (len a e d : Nat) (ha : a < len) (he : e < len) (hd : d < len)
    (h : (a + e) % len = (a + d) % len) : e = d := by
  have h1 := cycDist_add len a e ha he
  have h2 := cycDist_add len a d ha hd
  rw [h] at h1
  omega

theorem slotWF_at (hashFn : K → Nat) (entries : List (Slot K V))
    (hwf : ∀ e ∈ entries, SlotWF hashFn e) (i : Nat) (hi : i < entries.length) :
    SlotWF hashFn (entries.getD i (emptySlot K V)) :=
  hwf _ (getD_mem entries i (emptySlot K V) hi)

theorem live_slot_shape (hashFn : K → Nat) (e : Slot K V) (hwf : SlotWF hashFn e)
    (hl : e.hash1 ≠ 0) : ∃ k v, e = ⟨tagHash (hashFn k), some k, some v⟩ := by
  rcases hwf with h | h
  · rw [h] at hl
    exact absurd rfl hl
  · exact h

theorem probe_finds_key (hashFn : K → Nat) (entries : List (Slot K V)) (k : K)
    (hpow : ∃ j, entries.length = 2 ^ j) (hlen : 0 < entries.length)
    (hchain : ChainInv entries)
    (hdist : KeysDistinct entries) (i : Nat) (hi : i < entries.length) (h1 : Nat)
    (hq : (entries.getD i (emptySlot K V)).hash1 = h1)
    (hlive : h1 ≠ 0)
    (hkey : (entries.getD i (emptySlot K V)).key = some k)
    (fuel : Nat) (hfuel : entries.length ≤ fuel) :
    probe entries h1 k (h1 % entries.length) fuel = some (true, i) := by
  have hhomelt : h1 % entries.length < entries.length := Nat.mod_lt _ hlen
  have hdlt : cycDist entries.length (h1 % entries.length) i < entries.length :=
    cycDist_lt _ _ _ hlen
  have hwalk := cycDist_walk entries.length (h1 % entries.length) i hhomelt hi
  have hchain' : ∀ d, d < cycDist entries.length (h1 % entries.length) i →
      (entries.getD ((h1 % entries.length + d) % entries.length)
        (emptySlot K V)).hash1 ≠ 0 := by
    intro d hdd
    have := hchain i hi (by rw [hq]; exact hlive) d
      (by rw [homeOf, hq]; exact hdd)
    rwa [homeOf, hq] at this
  have hres := probe_complete entries h1 k hpow hlen hlive true
    (cycDist entries.length (h1 % entries.length) i) (h1 % entries.length) fuel
    hhomelt (by omega)
    (fun e he => by
      refine ⟨fun h0 => hchain' e he h0, ?_⟩
      intro hm
      have hne : (h1 % entries.length + e) % entries.length ≠ i := by
        intro heq
        rw [← hwalk] at heq
        exact absurd (walk_inj _ _ _ _ hhomelt (by omega) hdlt heq) (by omega)
      have hd2 := hdist ((h1 % entries.length + e) % entries.length) i
        (Nat.mod_lt _ hlen) hi hne (by rw [hm.1]; exact hlive)
        (by rw [hq]; exact hlive)
      rw [hm.2, hkey] at hd2
      exact hd2 rfl)
    (Or.inr ⟨rfl, by
      rw [hwalk]
      exact ⟨hq, hkey⟩⟩)
  rw [hwalk] at hres
  exact hres

theorem hasKey_probe_true (hashFn : K → Nat) (entries : List (Slot K V)) (k : K)
    (hpow : ∃ j, entries.length = 2 ^ j) (hlen : 0 < entries.length)
    (hwf : ∀ e ∈ entries, SlotWF hashFn e) (hchain : ChainInv entries)
    (hdist : KeysDistinct entries) (hk : hasKey entries k)
    (fuel : Nat) (hfuel : entries.length ≤ fuel) :
    ∃ i, i < entries.length ∧
      (entries.getD i (emptySlot K V)).hash1 ≠ 0 ∧
      (entries.getD i (emptySlot K V)).key = some k ∧
      probe entries (tagHash (hashFn k)) k
        (tagHash (hashFn k) % entries.length) fuel = some (true, i) := by
  obtain ⟨i, hi, hlive, hkey⟩ := hk
  have hshape := live_slot_shape hashFn _ (slotWF_at hashFn entries hwf i hi) hlive
  obtain ⟨k', v', hsh⟩ := hshape
  have hk' : k' = k := by
    rw [hsh] at hkey
    exact Option.some_injective _ hkey
  have hhash : (entries.getD i (emptySlot K V)).hash1 = tagHash (hashFn k) := by
    rw [hsh, hk']
  have := probe_finds_key hashFn entries k hpow hlen hchain hdist i hi
    (tagHash (hashFn k)) hhash (tagHash_ne_zero _) hkey fuel hfuel
  exact ⟨i, hi, hlive, hkey, this⟩

theorem probe_false_not_hasKey (hashFn : K → Nat) (entries : List (Slot K V)) (k : K)
    (hpow : ∃ j, entries.length = 2 ^ j) (hlen : 0 < entries.length)
    (hwf : ∀ e ∈ entries, SlotWF hashFn e) (hchain : ChainInv entries)
    (hdist : KeysDistinct entries) (fuel i : Nat) (hfuel : entries.length ≤ fuel)
    (hp : probe entries (tagHash (hashFn k)) k
      (tagHash (hashFn k) % entries.length) fuel = some (false, i)) :
    ¬hasKey entries k := by
  intro hk
  obtain ⟨j, _, _, _, hp'⟩ := hasKey_probe_true hashFn entries k hpow hlen hwf hchain
    hdist hk fuel hfuel
  rw [hp] at hp'
  simp at hp'

theorem write_fresh_WF (hashFn : K → Nat) (emptyHash : Nat) (t : Table K V)
    (k : K) (v : V) (hwf : EntriesWF hashFn emptyHash t)
    (hnk : ¬hasKey t.entries k) (i : Nat)
    (hp : probe t.entries (tagHash (hashFn k)) k
      (tagHash (hashFn k) % t.entries.length) t.entries.length = some (false, i)) :
    EntriesWF hashFn emptyHash
      (⟨t.entries.set i ⟨tagHash (hashFn k), some k, some v⟩, t.size + 1,
        t.hash ^^^ tagHash (hashFn k)⟩ : Table K V) ∧
    i < t.entries.length ∧
    (t.entries.getD i (emptySlot K V)).hash1 = 0 ∧
    (∀ k', hasKey (t.entries.set i ⟨tagHash (hashFn k), some k, some v⟩) k'
      ↔ hasKey t.entries k' ∨ k' = k) := by
  obtain ⟨hpow, hlen, hsize, hslotwf, hdist, hchain, hhash⟩ := hwf
  obtain ⟨d, hdfuel, hieq, hmid, hstop⟩ := probe_sound t.entries (tagHash (hashFn k)) k
    hpow hlen t.entries.length (tagHash (hashFn k) % t.entries.length) false i
    (Nat.mod_lt _ hlen) hp
  rcases hstop with ⟨_, hempty⟩ | ⟨hfalse, _⟩
  swap
  · exact absurd hfalse (by simp)
  rw [slotEmptyAt] at hempty
  have hi : i < t.entries.length := by
    rw [hieq]
    exact Nat.mod_lt _ hlen
  have hstartlt : tagHash (hashFn k) % t.entries.length < t.entries.length :=
    Nat.mod_lt _ hlen
  have hkeyiff : ∀ k', hasKey (t.entries.set i ⟨tagHash (hashFn k), some k, some v⟩) k'
      ↔ hasKey t.entries k' ∨ k' = k := by
    intro k'
    constructor
    · rintro ⟨i', hi', hlive', hkey'⟩
      rw [List.length_set] at hi'
      by_cases hii : i' = i
      · rw [hii, getD_set_self _ _ _ _ hi] at hkey'
        right
        exact (Option.some_injective _ hkey').symm
      · rw [getD_set_ne _ _ _ _ _ (fun h => hii h.symm)] at hlive' hkey'
        exact Or.inl ⟨i', hi', hlive', hkey'⟩
    · rintro (⟨i', hi', hlive', hkey'⟩ | hkk)
      · have hii : i' ≠ i := by
          intro h
          rw [h, hempty] at hlive'
          exact hlive' rfl
        exact ⟨i', by rwa [List.length_set],
          by rwa [getD_set_ne _ _ _ _ _ (fun h => hii h.symm)],
          by rwa [getD_set_ne _ _ _ _ _ (fun h => hii h.symm)]⟩
      · refine ⟨i, by rwa [List.length_set], ?_, ?_⟩
        · rw [getD_set_self _ _ _ _ hi]
          exact tagHash_ne_zero _
        · rw [getD_set_self _ _ _ _ hi, hkk]
  refine ⟨⟨by rwa [List.length_set], by rwa [List.length_set], ?_, ?_, ?_, ?_, ?_⟩,
    hi, hempty, hkeyiff⟩
  · rw [liveCount_set_live _ _ _ hi hempty (tagHash_ne_zero _), hsize]
  · intro e he
    rcases List.mem_or_eq_of_mem_set he with he' | he'
    · exact hslotwf e he'
    · rw [he']
      exact Or.inr ⟨k, v, rfl⟩
  · intro i1 i2 h1 h2 hne hl1 hl2
    rw [List.length_set] at h1 h2
    by_cases hi1 : i1 = i
    · by_cases hi2 : i2 = i
      · exact absurd (hi1.trans hi2.symm) hne
      · rw [hi1, getD_set_self _ _ _ _ hi]
        rw [getD_set_ne _ _ _ _ _ (fun h => hi2 h.symm)] at hl2 ⊢
        intro hkeq
        exact hnk ⟨i2, h2, hl2, by rw [← hkeq]⟩
    · by_cases hi2 : i2 = i
      · rw [hi2, getD_set_self _ _ _ _ hi]
        rw [getD_set_ne _ _ _ _ _ (fun h => hi1 h.symm)] at hl1 ⊢
        intro hkeq
        exact hnk ⟨i1, h1, hl1, by rw [hkeq]⟩
      · rw [getD_set_ne _ _ _ _ _ (fun h => hi1 h.symm)] at hl1 ⊢
        rw [getD_set_ne _ _ _ _ _ (fun h => hi2 h.symm)] at hl2 ⊢
        exact hdist i1 i2 h1 h2 hne hl1 hl2
  · intro j hj hlive e he
    rw [List.length_set] at hj
    by_cases hji : j = i
    · rw [hji, getD_set_self _ _ _ _ hi] at he ⊢
      have hdj : cycDist (t.entries.set i ⟨tagHash (hashFn k), some k, some v⟩).length
          (homeOf (t.entries.set i ⟨tagHash (hashFn k), some k, some v⟩).length
            (tagHash (hashFn k))) i = d := by
        rw [List.length_set, homeOf, hieq]
        exact cycDist_add _ _ _ hstartlt (by omega)
      rw [List.length_set] at he ⊢
      rw [homeOf] at he ⊢
      have he' : e < d := by
        rw [← hdj, List.length_set, homeOf]
        exact he
      have hmide := hmid e (by omega)
      have hpne : (tagHash (hashFn k) % t.entries.length + e) % t.entries.length ≠ i := by
        intro hpe
        rw [hieq] at hpe
        have := walk_inj _ _ _ _ hstartlt (by omega) (by omega) hpe
        omega
      rw [getD_set_ne _ _ _ _ _ (fun h => hpne h.symm)]
      rw [slotEmptyAt] at hmide
      exact hmide.1
    · rw [getD_set_ne _ _ _ _ _ (fun h => hji h.symm)] at hlive he ⊢
      rw [List.length_set] at he ⊢
      have hq := hchain j hj hlive e he
      have hqne : (homeOf t.entries.length
          (t.entries.getD j (emptySlot K V)).hash1 + e) % t.entries.length ≠ i := by
        intro hpe
        rw [hpe, hempty] at hq
        exact hq rfl
      rw [getD_set_ne _ _ _ _ _ (fun h => hqne h.symm)]
      exact hq
  · show t.hash ^^^ tagHash (hashFn k) = emptyHash ^^^ xorAll _
    rw [xorAll_set _ _ _ hi, hempty, Nat.xor_zero, hhash, Nat.xor_assoc]

theorem probe_total (entries : List (Slot K V)) (h1 : Nat) (k : K)
    (hpow : ∃ j, entries.length = 2 ^ j) (hlen : 0 < entries.length)
    (hh1 : h1 ≠ 0) (start fuel : Nat) (hstart : start < entries.length)
    (hfuel : entries.length ≤ fuel)
    (hempty : ∃ z, z < entries.length ∧ slotEmptyAt entries z) :
    ∃ b i, probe entries h1 k start fuel = some (b, i) := by
  classical
  obtain ⟨z, hz, hez⟩ := hempty
  have hstop : ∃ d, slotEmptyAt entries ((start + d) % entries.length) ∨
      slotMatchAt entries h1 k ((start + d) % entries.length) := by
    refine ⟨cycDist entries.length start z, Or.inl ?_⟩
    rw [cycDist_walk entries.length start z hstart hz]
    exact hez
  let d0 := Nat.find hstop
  have hd0 := Nat.find_spec hstop
  have hmin := fun e (he : e < d0) => Nat.find_min hstop he
  have hd0le : d0 ≤ cycDist entries.length start z := by
    apply Nat.find_min'
    refine Or.inl ?_
    rw [cycDist_walk entries.length start z hstart hz]
    exact hez
  have hd0lt : d0 < fuel := by
    have := cycDist_lt entries.length start z hlen
    omega
  rcases hd0 with he | hm
  · exact ⟨false, (start + d0) % entries.length,
      probe_complete entries h1 k hpow hlen hh1 false d0 start fuel hstart hd0lt
        (fun e he' => by
          have := hmin e he'
          push_neg at this
          exact this)
        (Or.inl ⟨rfl, he⟩)⟩
  · exact ⟨true, (start + d0) % entries.length,
      probe_complete entries h1 k hpow hlen hh1 true d0 start fuel hstart hd0lt
        (fun e he' => by
          have := hmin e he'
          push_neg at this
          exact this)
        (Or.inr ⟨rfl, hm⟩)⟩


/-! Behavior of the engine insert on allocated tables, and preservation of
well-formedness through writes and rebuilds. -/

theorem isEmpty_false_of_ne (l : List (Slot K V)) (h : l ≠ []) : l.isEmpty = false := by
  cases l with
  | nil => exact absurd rfl h
  | cons a l => rfl

theorem insertH_init_eq (emptyHash fuel : Nat) (t : Table K V) (h1 : Nat) (k : K)
    (v : V) (hz : t.entries = []) :
    insertH emptyHash (fuel+1) t h1 k v =
      insertH emptyHash (fuel+1)
        (⟨List.replicate initialCapacity (emptySlot K V), t.size, emptyHash⟩ : Table K V)
        h1 k v := by
  conv_lhs => rw [insertH]
  conv_rhs => rw [insertH]
  rw [hz]
  rfl

theorem insertH_alloc_found (emptyHash fuel : Nat) (t : Table K V) (h1 : Nat) (k : K)
    (v : V) (hne : t.entries ≠ []) (j : Nat)
    (hp : probe t.entries h1 k (startIndex t.entries h1) t.entries.length
      = some (true, j)) :
    insertH emptyHash (fuel+1) t h1 k v = t := by
  rw [insertH, isEmpty_false_of_ne _ hne]
  simp only [Bool.false_eq_true, if_false, hp]

theorem insertH_alloc_write (emptyHash fuel : Nat) (t : Table K V) (h1 : Nat) (k : K)
    (v : V) (hne : t.entries ≠ []) (i : Nat)
    (hp : probe t.entries h1 k (startIndex t.entries h1) t.entries.length
      = some (false, i))
    (hthr : ¬(3 * t.entries.length / 4 < t.size + 1)) :
    insertH emptyHash (fuel+1) t h1 k v =
      ⟨t.entries.set i ⟨h1, some k, some v⟩, t.size + 1, t.hash ^^^ h1⟩ := by
  rw [insertH, isEmpty_false_of_ne _ hne]
  simp only [Bool.false_eq_true, if_false, hp]
  rw [if_neg (by simpa using hthr)]

theorem insertH_alloc_grow (emptyHash fuel : Nat) (t : Table K V) (h1 : Nat) (k : K)
    (v : V) (hne : t.entries ≠ []) (i : Nat)
    (hp : probe t.entries h1 k (startIndex t.entries h1) t.entries.length
      = some (false, i))
    (hthr : 3 * t.entries.length / 4 < t.size + 1) :
    insertH emptyHash (fuel+1) t h1 k v =
      resizeWith (insertH emptyHash fuel) emptyHash (t.entries.length * 2)
        (⟨t.entries.set i ⟨h1, some k, some v⟩, t.size + 1, t.hash ^^^ h1⟩ : Table K V) := by
  rw [insertH, isEmpty_false_of_ne _ hne]
  simp only [Bool.false_eq_true, if_false, hp]
  rw [if_pos (by simpa using hthr)]
  rw [List.length_set]

theorem div34_le_len (len : Nat) : 3 * len / 4 ≤ len :=
  Nat.div_le_of_le_mul (by omega)

theorem rebuild_go (hashFn : K → Nat) (emptyHash fuel : Nat) :
    ∀ (L : List (Nat × K × V)) (acc : Table K V),
      (∀ p ∈ L, p.1 = tagHash (hashFn p.2.1)) →
      (L.map fun p => p.2.1).Nodup →
      EntriesWF hashFn emptyHash acc →
      (∀ p ∈ L, ¬hasKey acc.entries p.2.1) →
      liveCount acc.entries + L.length ≤ 3 * acc.entries.length / 4 →
      EntriesWF hashFn emptyHash
          (L.foldl (fun a p => insertH emptyHash (fuel+1) a p.1 p.2.1 p.2.2) acc) ∧
        (L.foldl (fun a p => insertH emptyHash (fuel+1) a p.1 p.2.1 p.2.2)
          acc).entries.length = acc.entries.length ∧
        (L.foldl (fun a p => insertH emptyHash (fuel+1) a p.1 p.2.1 p.2.2) acc).size
          = acc.size + L.length ∧
        (∀ k', hasKey (L.foldl (fun a p =>
            insertH emptyHash (fuel+1) a p.1 p.2.1 p.2.2) acc).entries k' ↔
          hasKey acc.entries k' ∨ k' ∈ L.map fun p => p.2.1)
  | [], acc, _, _, hacc, _, _ => by
    refine ⟨hacc, rfl, rfl, ?_⟩
    intro k'
    simp
  | ⟨h1, k, v⟩ :: rest, acc, hL, hnd, hacc, hnew, hroom => by
    have hh1 : h1 = tagHash (hashFn k) := hL ⟨h1, k, v⟩ (List.mem_cons_self _ _)
    subst hh1
    obtain ⟨hpow, hlen, hsize, hslotwf, hdist, hchain, hhash⟩ := hacc
    have hne : acc.entries ≠ [] := by
      intro h
      rw [h] at hlen
      simp at hlen
    have hroom' : liveCount acc.entries < acc.entries.length := by
      have h1 := div34_le_len acc.entries.length
      have h2 : 0 < (⟨tagHash (hashFn k), k, v⟩ : Nat × K × V).1 := by
        have := tagHash_ne_zero (hashFn k)
        omega
      simp only [List.length_cons] at hroom
      omega
    obtain ⟨b, i, hp⟩ := probe_total acc.entries (tagHash (hashFn k)) k hpow hlen
      (tagHash_ne_zero _) (startIndex acc.entries (tagHash (hashFn k)))
      acc.entries.length
      (by rw [startIndex_mod _ _ hpow]; exact Nat.mod_lt _ hlen) (Nat.le_refl _)
      (by
        obtain ⟨z, hz, hez⟩ := exists_empty_slot acc.entries hroom'
        exact ⟨z, hz, hez⟩)
    have hb : b = false := by
      by_contra hb
      rw [Bool.not_eq_false] at hb
      rw [hb] at hp
      obtain ⟨d, _, hieq, _, hstop⟩ := probe_sound acc.entries (tagHash (hashFn k)) k
        hpow hlen acc.entries.length (startIndex acc.entries (tagHash (hashFn k))) true i
        (by rw [startIndex_mod _ _ hpow]; exact Nat.mod_lt _ hlen) hp
      rcases hstop with ⟨hfalse, _⟩ | ⟨_, hm⟩
      · simp at hfalse
      · refine hnew ⟨tagHash (hashFn k), k, v⟩ (by simp) ⟨i, ?_, ?_, hm.2⟩
        · rw [hieq]
          exact Nat.mod_lt _ hlen
        · rw [hm.1]
          exact tagHash_ne_zero _
    rw [hb] at hp
    have hp' : probe acc.entries (tagHash (hashFn k)) k
        (tagHash (hashFn k) % acc.entries.length) acc.entries.length
        = some (false, i) := by
      rwa [startIndex_mod _ _ hpow] at hp
    have hwr := write_fresh_WF hashFn emptyHash acc k v
      ⟨hpow, hlen, hsize, hslotwf, hdist, hchain, hhash⟩
      (hnew ⟨tagHash (hashFn k), k, v⟩ (by simp)) i hp'
    obtain ⟨hwf1, hi, hempty, hkeys1⟩ := hwr
    have hthr : ¬(3 * acc.entries.length / 4 < acc.size + 1) := by
      simp only [List.length_cons] at hroom
      omega
    have hstep := insertH_alloc_write emptyHash fuel acc (tagHash (hashFn k)) k v hne i
      hp hthr
    simp only [List.foldl_cons]
    rw [hstep]
    have hndc : k ∉ rest.map (fun p => p.2.1) ∧ (rest.map fun p => p.2.1).Nodup := by
      rw [List.map_cons, List.nodup_cons] at hnd
      exact hnd
    have hnd' := hndc.2
    have hknotin := hndc.1
    have hrec := rebuild_go hashFn emptyHash fuel rest
      (⟨acc.entries.set i ⟨tagHash (hashFn k), some k, some v⟩, acc.size + 1,
        acc.hash ^^^ tagHash (hashFn k)⟩ : Table K V)
      (fun p hp0 => hL p (by simp [hp0]))
      hnd'
      hwf1
      (fun p hp0 => by
        rw [hkeys1]
        rintro (hk | hk)
        · exact hnew p (by simp [hp0]) hk
        · exact hknotin (hk ▸ List.mem_map_of_mem _ hp0))
      (by
        rw [liveCount_set_live _ _ _ hi hempty (tagHash_ne_zero _), List.length_set]
        simp only [List.length_cons] at hroom
        omega)
    obtain ⟨hrwf, hrlen, hrsize, hrkeys⟩ := hrec
    refine ⟨hrwf, by rw [hrlen, List.length_set], by rw [hrsize]; simp; omega, ?_⟩
    intro k'
    rw [hrkeys k']
    simp only
    rw [hkeys1 k']
    simp only [List.map_cons, List.mem_cons]
    tauto

theorem resizeWith_WF (hashFn : K → Nat) (emptyHash fuel cap : Nat) (t : Table K V)
    (hcap : ∃ j, cap = 2 ^ j) (hcappos : 0 < cap)
    (hwfslots : ∀ e ∈ t.entries, SlotWF hashFn e) (hdist : KeysDistinct t.entries)
    (hroom : liveCount t.entries ≤ 3 * cap / 4) :
    EntriesWF hashFn emptyHash (resizeWith (insertH emptyHash (fuel+1)) emptyHash cap t) ∧
    (resizeWith (insertH emptyHash (fuel+1)) emptyHash cap t).entries.length = cap ∧
    (resizeWith (insertH emptyHash (fuel+1)) emptyHash cap t).size
      = liveCount t.entries ∧
    (∀ k', hasKey (resizeWith (insertH emptyHash (fuel+1)) emptyHash cap t).entries k'
      ↔ hasKey t.entries k') := by
  have hfresh := freshTable_EntriesWF (K := K) (V := V) hashFn emptyHash cap hcap hcappos
  have hgo := rebuild_go hashFn emptyHash fuel (liveEntries t.entries)
    (⟨List.replicate cap (emptySlot K V), 0, emptyHash⟩ : Table K V)
    (fun p hp => liveEntries_mem_tag hashFn t.entries hwfslots p hp)
    (by
      have : (liveEntries t.entries).map (fun p => p.2.1) = liveKeys t.entries := rfl
      rw [this]
      exact liveKeys_nodup hashFn t.entries hwfslots hdist)
    hfresh
    (fun p _ => by
      simp only
      exact hasKey_replicate cap p.2.1)
    (by
      simp only [liveCount_replicate, List.length_replicate, Nat.zero_add]
      rw [liveEntries_length hashFn t.entries hwfslots]
      exact hroom)
  obtain ⟨hwf, hlen, hsize, hkeys⟩ := hgo
  simp only [resizeWith]
  refine ⟨hwf, by rw [hlen]; simp, by
    rw [hsize, liveEntries_length hashFn t.entries hwfslots]
    simp, ?_⟩
  intro k'
  rw [hkeys k']
  constructor
  · rintro (hk | hk)
    · exact absurd hk (hasKey_replicate cap k')
    · exact (liveKeys_mem hashFn t.entries hwfslots k').1 hk
  · intro hk
    exact Or.inr ((liveKeys_mem hashFn t.entries hwfslots k').2 hk)


theorem cap_divs (m : Nat) :
    3 * (initialCapacity * 2 ^ m) / 4 = 12 * 2 ^ m ∧
    (initialCapacity * 2 ^ m) / 4 = 4 * 2 ^ m ∧
    (initialCapacity * 2 ^ m) / 2 = 8 * 2 ^ m := by
  rw [initialCapacity]
  refine ⟨?_, ?_, ?_⟩
  · rw [show 3 * (16 * 2 ^ m) = 4 * (12 * 2 ^ m) by ring]
    exact Nat.mul_div_cancel_left _ (by norm_num)
  · rw [show (16 * 2 ^ m) = 4 * (4 * 2 ^ m) by ring]
    exact Nat.mul_div_cancel_left _ (by norm_num)
  · rw [show (16 * 2 ^ m) = 2 * (8 * 2 ^ m) by ring]
    exact Nat.mul_div_cancel_left _ (by norm_num)

theorem insertH_WF_alloc (hashFn : K → Nat) (emptyHash fuel : Nat) (t : Table K V)
    (k : K) (v : V) (hent : EntriesWF hashFn emptyHash t)
    (hcapf : ∃ m, t.entries.length = initialCapacity * 2 ^ m)
    (hup : t.size ≤ 3 * t.entries.length / 4)
    (hlow : t.entries.length = initialCapacity ∨ t.entries.length / 4 ≤ t.size) :
    TableWF hashFn emptyHash (insertH emptyHash (fuel+2) t (tagHash (hashFn k)) k v) ∧
    (hasKey t.entries k →
      insertH emptyHash (fuel+2) t (tagHash (hashFn k)) k v = t) ∧
    (¬hasKey t.entries k →
      (insertH emptyHash (fuel+2) t (tagHash (hashFn k)) k v).size = t.size + 1 ∧
      (∀ k', hasKey (insertH emptyHash (fuel+2) t (tagHash (hashFn k)) k v).entries k'
        ↔ hasKey t.entries k' ∨ k' = k)) := by
  obtain ⟨m, hm⟩ := hcapf
  obtain ⟨hd34, hd4, hd2⟩ := cap_divs m
  obtain ⟨hpow, hlen, hsize, hslotwf, hdist, hchain, hhash⟩ := hent
  have hne : t.entries ≠ [] := by
    intro h
    rw [h] at hlen
    simp at hlen
  have hroom : liveCount t.entries < t.entries.length := by
    rw [← hsize, hm]
    rw [hm, hd34] at hup
    have : (0:Nat) < 2 ^ m := Nat.pos_pow_of_pos m (by norm_num)
    rw [initialCapacity]
    omega
  obtain ⟨b, i, hp⟩ := probe_total t.entries (tagHash (hashFn k)) k hpow hlen
    (tagHash_ne_zero _) (startIndex t.entries (tagHash (hashFn k))) t.entries.length
    (by rw [startIndex_mod _ _ hpow]; exact Nat.mod_lt _ hlen) (Nat.le_refl _)
    (exists_empty_slot t.entries hroom)
  cases b with
  | true =>
    have heq := insertH_alloc_found emptyHash (fuel+1) t (tagHash (hashFn k)) k v hne i hp
    have hk : hasKey t.entries k := by
      obtain ⟨d, _, hieq, _, hstop⟩ := probe_sound t.entries (tagHash (hashFn k)) k
        hpow hlen t.entries.length (startIndex t.entries (tagHash (hashFn k))) true i
        (by rw [startIndex_mod _ _ hpow]; exact Nat.mod_lt _ hlen) hp
      rcases hstop with ⟨hfalse, _⟩ | ⟨_, hmm⟩
      · simp at hfalse
      · exact ⟨i, by rw [hieq]; exact Nat.mod_lt _ hlen,
          by rw [hmm.1]; exact tagHash_ne_zero _, hmm.2⟩
    rw [heq]
    refine ⟨Or.inr ⟨⟨m, hm⟩, hsize, hup, hlow, hslotwf, hdist, hchain, hhash⟩,
      fun _ => rfl, fun hnk => absurd hk hnk⟩
  | false =>
    have hp' : probe t.entries (tagHash (hashFn k)) k
        (tagHash (hashFn k) % t.entries.length) t.entries.length = some (false, i) := by
      rwa [startIndex_mod _ _ hpow] at hp
    have hnk : ¬hasKey t.entries k :=
      probe_false_not_hasKey hashFn t.entries k hpow hlen hslotwf hchain hdist
        t.entries.length i (Nat.le_refl _) hp'
    have hwr := write_fresh_WF hashFn emptyHash t k v
      ⟨hpow, hlen, hsize, hslotwf, hdist, hchain, hhash⟩ hnk i hp'
    obtain ⟨hwf1, hi, hempty, hkeys1⟩ := hwr
    by_cases hthr : 3 * t.entries.length / 4 < t.size + 1
    · have heq := insertH_alloc_grow emptyHash (fuel+1) t (tagHash (hashFn k)) k v hne
        i hp hthr
      have hrw := resizeWith_WF hashFn emptyHash fuel (t.entries.length * 2)
        (⟨t.entries.set i ⟨tagHash (hashFn k), some k, some v⟩, t.size + 1,
          t.hash ^^^ tagHash (hashFn k)⟩ : Table K V)
        (by
          obtain ⟨j, hj⟩ := hpow
          exact ⟨j + 1, by rw [hj, Nat.pow_succ]⟩)
        (by omega)
        hwf1.2.2.2.1
        hwf1.2.2.2.2.1
        (by
          show liveCount (t.entries.set i ⟨tagHash (hashFn k), some k, some v⟩)
            ≤ 3 * (t.entries.length * 2) / 4
          rw [liveCount_set_live _ _ _ hi hempty (tagHash_ne_zero _), ← hsize]
          rw [hm, show initialCapacity * 2 ^ m * 2 = initialCapacity * 2 ^ (m+1) by ring]
          obtain ⟨h34', _, _⟩ := cap_divs (m + 1)
          rw [h34', Nat.pow_succ]
          rw [hm, hd34] at hthr hup
          have hp2 : 0 < 2 ^ m := Nat.two_pow_pos m
          omega)
      rw [heq]
      obtain ⟨hrwf, hrlen, hrsize, hrkeys⟩ := hrw
      have hsize1 : liveCount
          ((⟨t.entries.set i ⟨tagHash (hashFn k), some k, some v⟩, t.size + 1,
            t.hash ^^^ tagHash (hashFn k)⟩ : Table K V)).entries = t.size + 1 := by
        show liveCount (t.entries.set i ⟨tagHash (hashFn k), some k, some v⟩)
          = t.size + 1
        rw [liveCount_set_live _ _ _ hi hempty (tagHash_ne_zero _), ← hsize]
      refine ⟨Or.inr ⟨?_, hrwf.2.2.1, ?_, ?_, hrwf.2.2.2.1, hrwf.2.2.2.2.1,
        hrwf.2.2.2.2.2.1, hrwf.2.2.2.2.2.2⟩, fun hk => absurd hk hnk, fun _ => ?_⟩
      · refine ⟨m + 1, ?_⟩
        rw [hrlen, hm]
        ring
      · rw [hrsize, hsize1, hrlen]
        rw [hm, show initialCapacity * 2 ^ m * 2 = initialCapacity * 2 ^ (m+1) by ring]
        obtain ⟨h34', _, _⟩ := cap_divs (m + 1)
        rw [h34', Nat.pow_succ]
        rw [hm, hd34] at hup
        have hp2 : 0 < 2 ^ m := Nat.two_pow_pos m
        omega
      · right
        rw [hrsize, hsize1, hrlen]
        rw [hm, show initialCapacity * 2 ^ m * 2 = initialCapacity * 2 ^ (m+1) by ring]
        obtain ⟨_, h4', _⟩ := cap_divs (m + 1)
        rw [h4', Nat.pow_succ]
        rw [hm, hd34] at hthr
        have hp2 : 0 < 2 ^ m := Nat.two_pow_pos m
        omega
      · refine ⟨by rw [hrsize, hsize1], ?_⟩
        intro k'
        rw [hrkeys k']
        simp only
        exact hkeys1 k'
    · have heq := insertH_alloc_write emptyHash (fuel+1) t (tagHash (hashFn k)) k v hne
        i hp hthr
      rw [heq]
      refine ⟨Or.inr ⟨⟨m, by simp only [List.length_set]; exact hm⟩, hwf1.2.2.1,
        by simp only [List.length_set]; omega, ?_, hwf1.2.2.2.1, hwf1.2.2.2.2.1,
        hwf1.2.2.2.2.2.1, hwf1.2.2.2.2.2.2⟩, fun hk => absurd hk hnk,
        fun _ => ⟨rfl, fun k' => hkeys1 k'⟩⟩
      simp only [List.length_set]
      rcases hlow with h | h
      · exact Or.inl h
      · exact Or.inr (by omega)

theorem insertH_WF (hashFn : K → Nat) (emptyHash fuel : Nat) (t : Table K V)
    (k : K) (v : V) (hwf : TableWF hashFn emptyHash t) :
    TableWF hashFn emptyHash (insertH emptyHash (fuel+2) t (tagHash (hashFn k)) k v) ∧
    (hasKey t.entries k →
      insertH emptyHash (fuel+2) t (tagHash (hashFn k)) k v = t) ∧
    (¬hasKey t.entries k →
      (insertH emptyHash (fuel+2) t (tagHash (hashFn k)) k v).size = t.size + 1 ∧
      (∀ k', hasKey (insertH emptyHash (fuel+2) t (tagHash (hashFn k)) k v).entries k'
        ↔ hasKey t.entries k' ∨ k' = k)) := by
  rcases hwf with hz | halloc
  · subst hz
    have hinit := insertH_init_eq emptyHash (fuel+1) (Table.zero K V)
      (tagHash (hashFn k)) k v rfl
    rw [hinit]
    have hcore := insertH_WF_alloc hashFn emptyHash fuel
      (⟨List.replicate initialCapacity (emptySlot K V), (Table.zero K V).size,
        emptyHash⟩ : Table K V) k v
      (by
        have := freshTable_EntriesWF (K := K) (V := V) hashFn emptyHash initialCapacity
          ⟨4, by rw [initialCapacity]; norm_num⟩ (by rw [initialCapacity]; norm_num)
        exact this)
      ⟨0, by simp [initialCapacity]⟩
      (by simp [Table.zero])
      (Or.inl (by simp))
    obtain ⟨h1, _, h3⟩ := hcore
    have hzk : ¬hasKey (Table.zero K V).entries k := by
      rintro ⟨i, hi, _, _⟩
      simp [Table.zero] at hi
    have hfk : ¬hasKey (⟨List.replicate initialCapacity (emptySlot K V),
        (Table.zero K V).size, emptyHash⟩ : Table K V).entries k :=
      hasKey_replicate _ k
    obtain ⟨hs, hkk⟩ := h3 hfk
    refine ⟨h1, fun hk => absurd hk hzk, fun _ => ⟨by rw [hs], ?_⟩⟩
    intro k'
    rw [hkk k']
    constructor
    · rintro (hk | hk)
      · exact absurd hk (hasKey_replicate _ k')
      · exact Or.inr hk
    · rintro (hk | hk)
      · rcases hk with ⟨i, hi, _, _⟩
        simp [Table.zero] at hi
      · exact Or.inr hk
  · obtain ⟨hcapf, hsze, hup, hlow, hslotwf, hdist, hchain, hhash⟩ := halloc
    obtain ⟨m, hm⟩ := hcapf
    have hpow : ∃ j, t.entries.length = 2 ^ j := by
      refine ⟨m + 4, ?_⟩
      rw [hm, initialCapacity, Nat.pow_add]
      norm_num
      ring
    have hlen : 0 < t.entries.length := by
      rw [hm, initialCapacity]
      positivity
    exact insertH_WF_alloc hashFn emptyHash fuel t k v
      ⟨hpow, hlen, hsze, hslotwf, hdist, hchain, hhash⟩ ⟨m, hm⟩ hup hlow

/-! Removal: clearing a slot, the weakened chain invariant, and correctness
of the backward-shift repair loop. -/

theorem cycDist_step (len a b : Nat) (hlen : 0 < len) (ha : a < len) (hb : b < len)
    (hne : a ≠ b) : cycDist len ((a + 1) % len) b + 1 = cycDist len a b := by
  have hd : 0 < cycDist len a b := by
    rcases Nat.eq_zero_or_pos (cycDist len a b) with h | h
    · exact absurd ((cycDist_eq_zero_iff len a b ha hb).1 h) hne
    · exact h
  have hwalk := cycDist_walk len a b ha hb
  have hb' : b = ((a + 1) % len + (cycDist len a b - 1)) % len := by
    rw [Nat.mod_add_mod]
    rw [show a + 1 + (cycDist len a b - 1) = a + cycDist len a b by omega]
    exact hwalk.symm
  have := cycDist_add len ((a + 1) % len) (cycDist len a b - 1) (Nat.mod_lt _ hlen)
    (by have := cycDist_lt len a b hlen; omega)
  rw [← hb'] at this
  omega

theorem cycDist_total (len a b : Nat) (ha : a < len) (hb : b < len) (hne : a ≠ b) :
    cycDist len a b + cycDist len b a = len := by
  rw [cycDist_eq len a b ha hb, cycDist_eq len b a hb ha]
  rcases Nat.lt_or_ge a b with h | h
  · rw [if_pos (by omega), if_neg (by omega)]
    omega
  · rw [if_neg (by omega), if_pos (by omega)]
    omega

theorem cycDist_max_eq (len a b : Nat) (hlen : 0 < len) (ha : a < len) (hb : b < len)
    (h : cycDist len a b = len - 1) : b = (a + (len - 1)) % len := by
  have := cycDist_walk len a b ha hb
  rw [h] at this
  exact this.symm

theorem slotwf_clear (hashFn : K → Nat) (entries : List (Slot K V)) (i : Nat)
    (hwf : ∀ e ∈ entries, SlotWF hashFn e) :
    ∀ e ∈ entries.set i (emptySlot K V), SlotWF hashFn e := by
  intro e he
  rcases List.mem_or_eq_of_mem_set he with h | h
  · exact hwf e h
  · rw [h]
    exact Or.inl rfl

theorem dist_clear (entries : List (Slot K V)) (i : Nat)
    (hdist : KeysDistinct entries) :
    KeysDistinct (entries.set i (emptySlot K V)) := by
  intro i1 i2 h1 h2 hne hl1 hl2
  rw [List.length_set] at h1 h2
  by_cases hi1 : i1 = i
  · rw [hi1, getD_set_self _ _ _ _ (by omega)] at hl1
    exact absurd rfl hl1
  · by_cases hi2 : i2 = i
    · rw [hi2, getD_set_self _ _ _ _ (by omega)] at hl2
      exact absurd rfl hl2
    · rw [getD_set_ne _ _ _ _ _ (fun h => hi1 h.symm)] at hl1 ⊢
      rw [getD_set_ne _ _ _ _ _ (fun h => hi2 h.symm)] at hl2 ⊢
      exact hdist i1 i2 h1 h2 hne hl1 hl2

theorem chainExcept_clear (entries : List (Slot K V)) (i : Nat)
    (hchain : ChainInv entries) :
    ChainInvExcept (entries.set i (emptySlot K V)) i := by
  intro j hj hlive d hd
  rw [List.length_set] at hj hd ⊢
  by_cases hji : j = i
  · rw [hji, getD_set_self _ _ _ _ (by omega)] at hlive
    exact absurd rfl hlive
  · rw [getD_set_ne _ _ _ _ _ (fun h => hji h.symm)] at hlive hd ⊢
    by_cases hpi : (homeOf entries.length
        (entries.getD j (emptySlot K V)).hash1 + d) % entries.length = i
    · exact Or.inl hpi
    · right
      rw [getD_set_ne _ _ _ _ _ (fun h => hpi h.symm)]
      exact hchain j hj hlive d hd

theorem clear_hasKey (entries : List (Slot K V)) (i : Nat) (k : K)
    (hi : i < entries.length) (hdist : KeysDistinct entries)
    (hlive : (entries.getD i (emptySlot K V)).hash1 ≠ 0)
    (hkey : (entries.getD i (emptySlot K V)).key = some k) :
    ∀ k', hasKey (entries.set i (emptySlot K V)) k'
      ↔ (hasKey entries k' ∧ k' ≠ k) := by
  intro k'
  constructor
  · rintro ⟨j, hj, hl, hk⟩
    rw [List.length_set] at hj
    have hji : j ≠ i := by
      intro h
      rw [h, getD_set_self _ _ _ _ hi] at hl
      exact hl rfl
    rw [getD_set_ne _ _ _ _ _ (fun h => hji h.symm)] at hl hk
    refine ⟨⟨j, hj, hl, hk⟩, ?_⟩
    intro hkk
    have := hdist j i hj hi hji hl hlive
    rw [hk, hkey, hkk] at this
    exact this rfl
  · rintro ⟨⟨j, hj, hl, hk⟩, hkk⟩
    have hji : j ≠ i := by
      intro h
      rw [h, hkey] at hk
      exact hkk (Option.some_injective _ hk).symm
    exact ⟨j, by rwa [List.length_set],
      by rwa [getD_set_ne _ _ _ _ _ (fun h => hji h.symm)],
      by rwa [getD_set_ne _ _ _ _ _ (fun h => hji h.symm)]⟩

theorem chain_restore (entries : List (Slot K V)) (H q : Nat)
    (hlen : 0 < entries.length) (hH : H < entries.length) (hq : q < entries.length)
    (hqe : slotEmptyAt entries q) (hHq : H ≠ q)
    (hchainE : ChainInvExcept entries H)
    (hproc : ∀ i, i < entries.length →
      (entries.getD i (emptySlot K V)).hash1 ≠ 0 →
      cycDist entries.length H i < cycDist entries.length H q →
      ∀ d, d < cycDist entries.length
          (homeOf entries.length (entries.getD i (emptySlot K V)).hash1) i →
        (homeOf entries.length (entries.getD i (emptySlot K V)).hash1 + d)
          % entries.length ≠ H) :
    ChainInv entries := by
  intro i hi hlive d hd
  by_cases hbreak : ∀ e, e < cycDist entries.length
      (homeOf entries.length (entries.getD i (emptySlot K V)).hash1) i →
      (homeOf entries.length (entries.getD i (emptySlot K V)).hash1 + e)
        % entries.length ≠ H
  · rcases hchainE i hi hlive d hd with hdH | hlv
    · exact absurd hdH (hbreak d hd)
    · exact hlv
  · push_neg at hbreak
    obtain ⟨e, he, heH⟩ := hbreak
    exfalso
    have hhome : homeOf entries.length (entries.getD i (emptySlot K V)).hash1
        < entries.length := Nat.mod_lt _ hlen
    set home := homeOf entries.length (entries.getD i (emptySlot K V)).hash1 with hhdef
    set D := cycDist entries.length home i with hDdef
    have hDlt : D < entries.length := cycDist_lt _ _ _ hlen
    have hiw : (home + D) % entries.length = i := cycDist_walk _ _ _ hhome hi
    have hHi : cycDist entries.length H i = D - e := by
      have h1 : i = (H + (D - e)) % entries.length := by
        rw [← heH, Nat.mod_add_mod, show home + e + (D - e) = home + D by omega, hiw]
      rw [h1]
      exact cycDist_add _ _ _ hH (by omega)
    by_cases hreg : cycDist entries.length H i < cycDist entries.length H q
    · exact hproc i hi hlive hreg e he heH
    · have hqi : i ≠ q := by
        intro h
        rw [h] at hlive
        exact hlive hqe
      have hQlt : cycDist entries.length H q < cycDist entries.length H i := by
        rcases Nat.lt_or_ge (cycDist entries.length H q)
            (cycDist entries.length H i) with h | h
        · exact h
        · exfalso
          have heq : cycDist entries.length H q = cycDist entries.length H i := by
            omega
          have := cycDist_walk _ _ _ hH hq
          rw [heq] at this
          rw [cycDist_walk _ _ _ hH hi] at this
          exact hqi this
      have heq : q = (home + (e + cycDist entries.length H q))
          % entries.length := by
        have hw := cycDist_walk _ _ _ hH hq
        have h2 : (home + (e + cycDist entries.length H q)) % entries.length
            = ((home + e) % entries.length + cycDist entries.length H q)
              % entries.length := by
          rw [Nat.mod_add_mod]
          congr 1
          omega
        rw [h2, heH, hw]
      have heq2 : e + cycDist entries.length H q < D := by
        rw [hHi] at hQlt
        omega
      rcases hchainE i hi hlive (e + cycDist entries.length H q) (by
          rw [← hDdef]
          exact heq2) with hh | hh
      · rw [← heq] at hh
        exact hHq hh.symm
      · rw [← heq] at hh
        exact hh hqe

theorem repair_probe_lands (hashFn : K → Nat) (u : Table K V) (q H : Nat)
    (ke : K) (ve : V)
    (hpow : ∃ j, u.entries.length = 2 ^ j) (hlen : 0 < u.entries.length)
    (hdist : KeysDistinct u.entries) (hchainE : ChainInvExcept u.entries H)
    (hH : H < u.entries.length)
    (hHe : (u.entries.getD H (emptySlot K V)).hash1 = 0)
    (hq : q < u.entries.length) (hHq : H ≠ q)
    (hsh : u.entries.getD q (emptySlot K V)
      = ⟨tagHash (hashFn ke), some ke, some ve⟩) :
    probe (u.entries.set q (emptySlot K V)) (tagHash (hashFn ke)) ke
        (tagHash (hashFn ke) % u.entries.length) u.entries.length
      = some (false, H) ∨
    (probe (u.entries.set q (emptySlot K V)) (tagHash (hashFn ke)) ke
        (tagHash (hashFn ke) % u.entries.length) u.entries.length
      = some (false, q) ∧
      ∀ d, d < cycDist u.entries.length
          (tagHash (hashFn ke) % u.entries.length) q →
        (tagHash (hashFn ke) % u.entries.length + d) % u.entries.length ≠ H) := by
  classical
  have hlen1 : (u.entries.set q (emptySlot K V)).length = u.entries.length :=
    List.length_set _ _ _
  have hpow1 : ∃ j, (u.entries.set q (emptySlot K V)).length = 2 ^ j := by
    rwa [hlen1]
  have hlenpos1 : 0 < (u.entries.set q (emptySlot K V)).length := by
    rwa [hlen1]
  have hhomelt : tagHash (hashFn ke) % u.entries.length < u.entries.length :=
    Nat.mod_lt _ hlen
  have hqlive : (u.entries.getD q (emptySlot K V)).hash1 ≠ 0 := by
    rw [hsh]
    exact tagHash_ne_zero _
  have hDdef : (tagHash (hashFn ke) % u.entries.length
      + cycDist u.entries.length (tagHash (hashFn ke) % u.entries.length) q)
      % u.entries.length = q := cycDist_walk _ _ _ hhomelt hq
  have hDlt : cycDist u.entries.length (tagHash (hashFn ke) % u.entries.length) q
      < u.entries.length := cycDist_lt _ _ _ hlen
  -- the chain of the entry at q, phrased with its home
  have hchainq : ∀ d, d < cycDist u.entries.length
      (tagHash (hashFn ke) % u.entries.length) q →
      ((tagHash (hashFn ke) % u.entries.length + d) % u.entries.length = H ∨
        (u.entries.getD ((tagHash (hashFn ke) % u.entries.length + d)
          % u.entries.length) (emptySlot K V)).hash1 ≠ 0) := by
    intro d hd
    have := hchainE q hq hqlive d (by rw [homeOf, hsh]; exact hd)
    rwa [homeOf, hsh] at this
  -- a chain position before q is never q itself
  have hmidne : ∀ d, d < cycDist u.entries.length
      (tagHash (hashFn ke) % u.entries.length) q →
      (tagHash (hashFn ke) % u.entries.length + d) % u.entries.length ≠ q := by
    intro d hd heq
    rw [← hDdef] at heq
    exact absurd (walk_inj _ _ _ _ hhomelt (by omega) hDlt heq) (by omega)
  -- a live chain position carries a key different from ke
  have hmidnomatch : ∀ p, p < u.entries.length → p ≠ q →
      ¬slotMatchAt (u.entries.set q (emptySlot K V)) (tagHash (hashFn ke)) ke p := by
    intro p hp hpq hm
    rw [slotMatchAt, getD_set_ne _ _ _ _ _ (fun h => hpq h.symm)] at hm
    have := hdist p q hp hq hpq (by rw [hm.1]; exact tagHash_ne_zero _) hqlive
    rw [hm.2, hsh] at this
    exact this rfl
  by_cases hcross : ∃ d, d < cycDist u.entries.length
      (tagHash (hashFn ke) % u.entries.length) q ∧
      (tagHash (hashFn ke) % u.entries.length + d) % u.entries.length = H
  · left
    have hex : ∃ d, (tagHash (hashFn ke) % u.entries.length + d)
        % u.entries.length = H ∧ d < cycDist u.entries.length
        (tagHash (hashFn ke) % u.entries.length) q := by
      obtain ⟨d, h1, h2⟩ := hcross
      exact ⟨d, h2, h1⟩
    classical
    obtain ⟨d0, hd0H, hd0lt⟩ := hex
    -- take the least crossing offset
    have hfind : ∃ d, (tagHash (hashFn ke) % u.entries.length + d)
        % u.entries.length = H := ⟨d0, hd0H⟩
    have hspec := Nat.find_spec hfind
    have hmin := fun e (he : e < Nat.find hfind) => Nat.find_min hfind he
    have hfindlt : Nat.find hfind < cycDist u.entries.length
        (tagHash (hashFn ke) % u.entries.length) q := by
      have := Nat.find_min' hfind hd0H
      omega
    have hres := probe_complete (u.entries.set q (emptySlot K V))
      (tagHash (hashFn ke)) ke hpow1 hlenpos1 (tagHash_ne_zero _) false
      (Nat.find hfind) (tagHash (hashFn ke) % u.entries.length) u.entries.length
      (by rwa [hlen1]) (by omega)
      (fun e he => by
        rw [hlen1]
        have heH := hmin e he
        rcases hchainq e (by omega) with h | h
        · exact absurd h heH
        · have hne := hmidne e (by omega)
          constructor
          · rw [slotEmptyAt, getD_set_ne _ _ _ _ _ (fun hh => hne hh.symm)]
            exact h
          · exact hmidnomatch _ (Nat.mod_lt _ hlen) hne)
      (Or.inl ⟨rfl, by
        rw [hlen1, hspec, slotEmptyAt,
          getD_set_ne _ _ _ _ _ (fun hh => hHq hh.symm)]
        exact hHe⟩)
    rw [hlen1] at hres
    rw [hres, hspec]
  · right
    push_neg at hcross
    have hres := probe_complete (u.entries.set q (emptySlot K V))
      (tagHash (hashFn ke)) ke hpow1 hlenpos1 (tagHash_ne_zero _) false
      (cycDist u.entries.length (tagHash (hashFn ke) % u.entries.length) q)
      (tagHash (hashFn ke) % u.entries.length) u.entries.length
      (by rwa [hlen1]) (by omega)
      (fun e he => by
        rw [hlen1]
        rcases hchainq e he with h | h
        · exact absurd h (hcross e he)
        · have hne := hmidne e he
          constructor
          · rw [slotEmptyAt, getD_set_ne _ _ _ _ _ (fun hh => hne hh.symm)]
            exact h
          · exact hmidnomatch _ (Nat.mod_lt _ hlen) hne)
      (Or.inl ⟨rfl, by
        rw [hlen1, hDdef, slotEmptyAt, getD_set_self _ _ _ _ hq]
        rfl⟩)
    rw [hlen1] at hres
    rw [hres, hDdef]
    exact ⟨rfl, hcross⟩

theorem table_eq_of_parts (a b : Table K V) (h1 : a.entries = b.entries)
    (h2 : a.size = b.size) (h3 : a.hash = b.hash) : a = b := by
  cases a
  cases b
  simp_all

theorem repairWith_unfold_empty (ins : Table K V → Nat → K → V → Table K V)
    (lf : Nat) (t : Table K V) (q : Nat)
    (hqe : (t.entries.getD q (emptySlot K V)).hash1 = 0) :
    repairWith ins (lf+1) t q = t := by
  rw [repairWith]
  split
  · rfl
  · rename_i h
    exact absurd hqe h

theorem repairWith_unfold_live (ins : Table K V → Nat → K → V → Table K V)
    (lf : Nat) (t : Table K V) (q : Nat) (h1e : Nat) (ke : K) (ve : V)
    (hsh : t.entries.getD q (emptySlot K V) = ⟨h1e, some ke, some ve⟩)
    (hne : h1e ≠ 0) :
    repairWith ins (lf+1) t q =
      repairWith ins lf
        (ins ⟨t.entries.set q (emptySlot K V), t.size - 1, t.hash ^^^ h1e⟩ h1e ke ve)
        ((q + 1) &&&
          ((ins ⟨t.entries.set q (emptySlot K V), t.size - 1, t.hash ^^^ h1e⟩
              h1e ke ve).entries.length - 1)) := by
  rw [repairWith]
  simp only [hsh]
  rw [if_neg hne]

theorem move_entry (hashFn : K → Nat) (E : List (Slot K V)) (q H : Nat)
    (h1e : Nat) (ke : K) (ve : V)
    (hlen : 0 < E.length) (hH : H < E.length) (hq : q < E.length) (hHq : H ≠ q)
    (hHe : (E.getD H (emptySlot K V)).hash1 = 0)
    (hsh : E.getD q (emptySlot K V) = ⟨h1e, some ke, some ve⟩)
    (hne0 : h1e ≠ 0)
    (hwf : ∀ e ∈ E, SlotWF hashFn e) (hdist : KeysDistinct E)
    (hchainE : ChainInvExcept E H)
    (hmids : ∀ e, e < cycDist E.length (h1e % E.length) H →
      ((E.set q (emptySlot K V)).getD ((h1e % E.length + e) % E.length)
        (emptySlot K V)).hash1 ≠ 0)
    (E2 : List (Slot K V))
    (hE2 : E2 = (E.set q (emptySlot K V)).set H ⟨h1e, some ke, some ve⟩) :
    E2.length = E.length ∧
    liveCount E2 = liveCount E ∧
    xorAll E2 = xorAll E ∧
    (∀ e ∈ E2, SlotWF hashFn e) ∧
    KeysDistinct E2 ∧
    ChainInvExcept E2 q ∧
    (E2.getD q (emptySlot K V)).hash1 = 0 ∧
    (∀ k', hasKey E2 k' ↔ hasKey E k') := by
  have hlen2 : E2.length = E.length := by
    rw [hE2, List.length_set, List.length_set]
  have hqlive : (E.getD q (emptySlot K V)).hash1 ≠ 0 := by
    rw [hsh]
    exact hne0
  have hE2q : E2.getD q (emptySlot K V) = emptySlot K V := by
    rw [hE2, getD_set_ne _ _ _ _ _ hHq, getD_set_self _ _ _ _ hq]
  have hE2H : E2.getD H (emptySlot K V) = ⟨h1e, some ke, some ve⟩ := by
    rw [hE2, getD_set_self]
    rw [List.length_set]
    exact hH
  have hE2other : ∀ p, p ≠ q → p ≠ H →
      E2.getD p (emptySlot K V) = E.getD p (emptySlot K V) := by
    intro p hpq hpH
    rw [hE2, getD_set_ne _ _ _ _ _ (fun h => hpH h.symm),
      getD_set_ne _ _ _ _ _ (fun h => hpq h.symm)]
  have hcnt : liveCount E2 = liveCount E := by
    have h1 := liveCount_set_empty E q hq hqlive
    have h2 := liveCount_set_live (⟨h1e, some ke, some ve⟩ : Slot K V)
      (E.set q (emptySlot K V)) H (by rw [List.length_set]; exact hH)
      (by rw [getD_set_ne _ _ _ _ _ (fun h => hHq h.symm)]; exact hHe) hne0
    rw [hE2, h2]
    omega
  have hxor : xorAll E2 = xorAll E := by
    have h1 := xorAll_set E q (emptySlot K V) hq
    have h2 := xorAll_set (E.set q (emptySlot K V)) H
      (⟨h1e, some ke, some ve⟩ : Slot K V) (by rw [List.length_set]; exact hH)
    rw [hE2, h2, h1, hsh, getD_set_ne _ _ _ _ _ (fun h => hHq h.symm), hHe]
    show xorAll E ^^^ h1e ^^^ (emptySlot K V).hash1 ^^^ 0 ^^^ h1e = xorAll E
    show xorAll E ^^^ h1e ^^^ 0 ^^^ 0 ^^^ h1e = xorAll E
    have : xorAll E ^^^ h1e ^^^ 0 ^^^ 0 ^^^ h1e
        = xorAll E ^^^ (h1e ^^^ h1e) := by ac_rfl
    rw [this, Nat.xor_self, Nat.xor_zero]
  have hwf2 : ∀ e ∈ E2, SlotWF hashFn e := by
    intro e he
    rw [hE2] at he
    rcases List.mem_or_eq_of_mem_set he with h | h
    · rcases List.mem_or_eq_of_mem_set h with h' | h'
      · exact hwf e h'
      · rw [h']
        exact Or.inl rfl
    · rw [h, ← hsh]
      exact hwf _ (getD_mem E q (emptySlot K V) hq)
  have hdist2 : KeysDistinct E2 := by
    intro i1 i2 h1 h2 hne hl1 hl2
    rw [hlen2] at h1 h2
    have hne1q : i1 ≠ q := by
      intro h
      rw [h, hE2q] at hl1
      exact hl1 rfl
    have hne2q : i2 ≠ q := by
      intro h
      rw [h, hE2q] at hl2
      exact hl2 rfl
    by_cases h1H : i1 = H
    · by_cases h2H : i2 = H
      · exact absurd (h1H.trans h2H.symm) hne
      · rw [h1H, hE2H]
        rw [hE2other i2 hne2q h2H] at hl2 ⊢
        have := hdist q i2 hq h2 (fun h => hne2q h.symm) hqlive hl2
        rw [hsh] at this
        exact this
    · by_cases h2H : i2 = H
      · rw [h2H, hE2H]
        rw [hE2other i1 hne1q h1H] at hl1 ⊢
        have := hdist i1 q h1 hq hne1q hl1 hqlive
        rw [hsh] at this
        exact this
      · rw [hE2other i1 hne1q h1H] at hl1 ⊢
        rw [hE2other i2 hne2q h2H] at hl2 ⊢
        exact hdist i1 i2 h1 h2 hne hl1 hl2
  have hchain2 : ChainInvExcept E2 q := by
    intro i hi hlive d hd
    rw [hlen2] at hi hd ⊢
    have hne_iq : i ≠ q := by
      intro h
      rw [h, hE2q] at hlive
      exact hlive rfl
    by_cases hiH : i = H
    · rw [hiH, hE2H] at hlive hd ⊢
      dsimp only at hlive hd ⊢
      simp only [homeOf] at hd ⊢
      have hmid := hmids d hd
      by_cases hpq : (h1e % E.length + d) % E.length = q
      · exact Or.inl hpq
      · right
        by_cases hpH : (h1e % E.length + d) % E.length = H
        · rw [hpH, hE2H]
          exact hne0
        · rw [hE2other _ hpq hpH]
          intro hz0
          exact hmid (by
            rw [getD_set_ne _ _ _ _ _ (fun h => hpq h.symm)]
            exact hz0)
    · rw [hE2other i hne_iq hiH] at hlive hd ⊢
      rcases hchainE i hi hlive d hd with h | h
      · right
        rw [h, hE2H]
        exact hne0
      · set p := (homeOf E.length (E.getD i (emptySlot K V)).hash1 + d)
          % E.length with hpdef
        by_cases hpq : p = q
        · exact Or.inl hpq
        · right
          have hpH : p ≠ H := by
            intro hh
            rw [hh] at h
            exact h hHe
          rw [hE2other p hpq hpH]
          exact h
  have hkeys : ∀ k', hasKey E2 k' ↔ hasKey E k' := by
    intro k'
    constructor
    · rintro ⟨j, hj, hl, hk⟩
      rw [hlen2] at hj
      have hjq : j ≠ q := by
        intro h
        rw [h, hE2q] at hl
        exact hl rfl
      by_cases hjH : j = H
      · rw [hjH, hE2H] at hk
        refine ⟨q, hq, hqlive, ?_⟩
        rw [hsh]
        exact hk
      · rw [hE2other j hjq hjH] at hl hk
        exact ⟨j, hj, hl, hk⟩
    · rintro ⟨j, hj, hl, hk⟩
      have hjH : j ≠ H := by
        intro h
        rw [h, hHe] at hl
        exact hl rfl
      by_cases hjq : j = q
      · refine ⟨H, by rw [hlen2]; exact hH, ?_, ?_⟩
        · rw [hE2H]
          exact hne0
        · rw [hE2H]
          rw [hjq, hsh] at hk
          exact hk
      · refine ⟨j, by rw [hlen2]; exact hj, ?_, ?_⟩
        · rw [hE2other j hjq hjH]
          exact hl
        · rw [hE2other j hjq hjH]
          exact hk
  exact ⟨hlen2, hcnt, hxor, hwf2, hdist2, hchain2,
    by rw [hE2q]; rfl, hkeys⟩

theorem repairWith_restore (hashFn : K → Nat) (emptyHash fuel : Nat) :
    ∀ (lf : Nat) (u : Table K V) (H q z : Nat),
      (∃ j, u.entries.length = 2 ^ j) →
      1 < u.entries.length →
      u.size = liveCount u.entries →
      (∀ e ∈ u.entries, SlotWF hashFn e) →
      KeysDistinct u.entries →
      u.hash = emptyHash ^^^ xorAll u.entries →
      liveCount u.entries < 3 * u.entries.length / 4 →
      H < u.entries.length →
      (u.entries.getD H (emptySlot K V)).hash1 = 0 →
      q < u.entries.length →
      ChainInvExcept u.entries H →
      (∀ i, i < u.entries.length →
        (u.entries.getD i (emptySlot K V)).hash1 ≠ 0 →
        cycDist u.entries.length H i < cycDist u.entries.length H q →
        ∀ d, d < cycDist u.entries.length
            (homeOf u.entries.length (u.entries.getD i (emptySlot K V)).hash1) i →
          (homeOf u.entries.length (u.entries.getD i (emptySlot K V)).hash1 + d)
            % u.entries.length ≠ H) →
      z < u.entries.length →
      (u.entries.getD z (emptySlot K V)).hash1 = 0 →
      cycDist u.entries.length q z < cycDist u.entries.length q H →
      cycDist u.entries.length q z < lf →
      EntriesWF hashFn emptyHash (repairWith (insertH emptyHash (fuel+1)) lf u q) ∧
      (repairWith (insertH emptyHash (fuel+1)) lf u q).entries.length
        = u.entries.length ∧
      (repairWith (insertH emptyHash (fuel+1)) lf u q).size = u.size ∧
      (repairWith (insertH emptyHash (fuel+1)) lf u q).hash = u.hash ∧
      (∀ k', hasKey (repairWith (insertH emptyHash (fuel+1)) lf u q).entries k'
        ↔ hasKey u.entries k')
  | 0, u, H, q, z => by
    intro _ _ _ _ _ _ _ _ _ _ _ _ _ _ _ hlf
    omega
  | lf+1, u, H, q, z => by
    intro hpow hlen1 hsize hslotwf hdist hhash hup hH hHe hq hchainE hproc hz hze hzq hlf
    have hlen : 0 < u.entries.length := by omega
    have hcqH0 : 0 < cycDist u.entries.length q H := by omega
    have hHq : H ≠ q := by
      intro h
      rw [h, (cycDist_eq_zero_iff _ q q hq hq).2 rfl] at hcqH0
      exact absurd hcqH0 (lt_irrefl 0)
    by_cases hqe0 : (u.entries.getD q (emptySlot K V)).hash1 = 0
    · rw [repairWith_unfold_empty _ _ _ _ hqe0]
      exact ⟨⟨hpow, hlen, hsize, hslotwf, hdist,
        chain_restore u.entries H q hlen hH hq hqe0 hHq hchainE hproc, hhash⟩,
        rfl, rfl, rfl, fun _ => Iff.rfl⟩
    · obtain ⟨ke, ve, hsh⟩ := live_slot_shape hashFn _
        (slotWF_at hashFn u.entries hslotwf q hq) hqe0
      have hne0 : tagHash (hashFn ke) ≠ 0 := tagHash_ne_zero _
      have hzq' : z ≠ q := by
        intro h
        rw [h] at hze
        exact hqe0 hze
      have hz1 : 0 < cycDist u.entries.length q z :=
        Nat.pos_of_ne_zero (fun h0 =>
          hzq' ((cycDist_eq_zero_iff _ q z hq hz).1 h0).symm)
      have hcle := liveCount_set_empty u.entries q hq (by rw [hsh]; exact hne0)
      have hne : u.entries.set q (emptySlot K V) ≠ [] := by
        intro h
        have := List.length_set u.entries q (emptySlot K V)
        rw [h] at this
        simp at this
        omega
      have hst : startIndex (u.entries.set q (emptySlot K V)) (tagHash (hashFn ke))
          = tagHash (hashFn ke) % u.entries.length := by
        rw [startIndex_mod _ _ (by rw [List.length_set]; exact hpow), List.length_set]
      have hthr : ¬(3 * (u.entries.set q (emptySlot K V)).length / 4
          < (u.size - 1) + 1) := by
        rw [List.length_set]
        omega
      rw [repairWith_unfold_live _ lf u q (tagHash (hashFn ke)) ke ve hsh hne0]
      rcases repair_probe_lands hashFn u q H ke ve hpow hlen hdist hchainE
        hH hHe hq hHq hsh with hpr | ⟨hpr, havoid⟩
      · -- the reinserted entry lands in the hole H; it moves and the hole
        -- advances to the freed slot q
        have hp : probe (u.entries.set q (emptySlot K V)) (tagHash (hashFn ke)) ke
            (startIndex (u.entries.set q (emptySlot K V)) (tagHash (hashFn ke)))
            (u.entries.set q (emptySlot K V)).length = some (false, H) := by
          rw [hst, List.length_set]
          exact hpr
        have hw := insertH_alloc_write emptyHash fuel
          (⟨u.entries.set q (emptySlot K V), u.size - 1,
            u.hash ^^^ tagHash (hashFn ke)⟩ : Table K V)
          (tagHash (hashFn ke)) ke ve hne H hp hthr
        rw [hw]
        dsimp only
        -- minimal-offset structure of the probe that found H
        obtain ⟨d, hdfuel, hdH, hmids0, hstop⟩ := probe_sound
          (u.entries.set q (emptySlot K V)) (tagHash (hashFn ke)) ke
          (by rw [List.length_set]; exact hpow)
          (by rw [List.length_set]; exact hlen)
          u.entries.length (tagHash (hashFn ke) % u.entries.length) false H
          (by rw [List.length_set]; exact Nat.mod_lt _ hlen) hpr
        simp only [List.length_set] at hdH hmids0
        have hdist_H : cycDist u.entries.length
            (tagHash (hashFn ke) % u.entries.length) H = d := by
          rw [hdH]
          exact cycDist_add _ _ _ (Nat.mod_lt _ hlen) hdfuel
        have hmids : ∀ e, e < cycDist u.entries.length
            (tagHash (hashFn ke) % u.entries.length) H →
            ((u.entries.set q (emptySlot K V)).getD
              ((tagHash (hashFn ke) % u.entries.length + e) % u.entries.length)
              (emptySlot K V)).hash1 ≠ 0 := by
          intro e he
          rw [hdist_H] at he
          exact (hmids0 e he).1
        obtain ⟨hlen2, hcnt2, hxor2, hwf2, hdist2, hchain2, hq2e, hkeys2⟩ :=
          move_entry hashFn u.entries q H (tagHash (hashFn ke)) ke ve hlen hH hq
            hHq hHe hsh hne0 hslotwf hdist hchainE hmids
            ((u.entries.set q (emptySlot K V)).set H
              ⟨tagHash (hashFn ke), some ke, some ve⟩) rfl
        have hzH : z ≠ H := by
          intro h
          rw [h] at hzq
          exact lt_irrefl _ hzq
        have hq'eq : (q + 1) &&&
            (((u.entries.set q (emptySlot K V)).set H
              ⟨tagHash (hashFn ke), some ke, some ve⟩).length - 1)
            = (q + 1) % u.entries.length := by
          rw [step_mod _ _ (by rw [hlen2]; exact hpow), hlen2]
        rw [hq'eq]
        have hqq' : q ≠ (q + 1) % u.entries.length := by
          intro h
          have h1 : cycDist u.entries.length q ((q + 1) % u.entries.length) = 1 :=
            cycDist_add _ q 1 hq (by omega)
          have h2 := (cycDist_eq_zero_iff _ q q hq hq).2 rfl
          rw [← h] at h1
          omega
        have h1cyc : cycDist u.entries.length q ((q + 1) % u.entries.length) = 1 :=
          cycDist_add _ q 1 hq (by omega)
        have hrec := repairWith_restore hashFn emptyHash fuel lf
          (⟨(u.entries.set q (emptySlot K V)).set H
              ⟨tagHash (hashFn ke), some ke, some ve⟩,
            u.size - 1 + 1, u.hash ^^^ tagHash (hashFn ke) ^^^ tagHash (hashFn ke)⟩
            : Table K V)
          q ((q + 1) % u.entries.length) z
          (by rw [hlen2]; exact hpow)
          (by rw [hlen2]; exact hlen1)
          (by
            show u.size - 1 + 1 = liveCount _
            rw [hcnt2]
            omega)
          hwf2 hdist2
          (by
            show u.hash ^^^ tagHash (hashFn ke) ^^^ tagHash (hashFn ke)
              = emptyHash ^^^ xorAll _
            rw [Nat.xor_assoc, Nat.xor_self, Nat.xor_zero, hxor2]
            exact hhash)
          (by rw [hcnt2, hlen2]; exact hup)
          (by rw [hlen2]; exact hq)
          hq2e
          (by rw [hlen2]; exact Nat.mod_lt _ hlen)
          hchain2
          (by
            intro i hi hlivei hlt d' hd'
            exfalso
            rw [hlen2] at hi hlt
            rw [h1cyc] at hlt
            have h0 : cycDist u.entries.length q i = 0 := by omega
            have hiq := ((cycDist_eq_zero_iff _ q i hq hi).1 h0).symm
            rw [hiq] at hlivei
            exact hlivei hq2e)
          (by rw [hlen2]; exact hz)
          (by
            show (((u.entries.set q (emptySlot K V)).set H
              ⟨tagHash (hashFn ke), some ke, some ve⟩).getD z
              (emptySlot K V)).hash1 = 0
            rw [getD_set_ne _ _ _ _ _ (fun h => hzH h.symm),
              getD_set_ne _ _ _ _ _ (fun h => hzq' h.symm)]
            exact hze)
          (by
            rw [hlen2]
            have htot := cycDist_total u.entries.length q
              ((q + 1) % u.entries.length) hq (Nat.mod_lt _ hlen) hqq'
            have hltz := cycDist_lt u.entries.length
              ((q + 1) % u.entries.length) z hlen
            by_contra hcon
            push_neg at hcon
            have heq : cycDist u.entries.length ((q + 1) % u.entries.length) z
                = u.entries.length - 1 := by omega
            have hzeq := cycDist_max_eq u.entries.length
              ((q + 1) % u.entries.length) z hlen (Nat.mod_lt _ hlen) hz heq
            have h2 : ((q + 1) % u.entries.length + (u.entries.length - 1))
                % u.entries.length = q := by
              rw [Nat.mod_add_mod,
                show q + 1 + (u.entries.length - 1) = q + u.entries.length
                  by omega,
                Nat.add_mod_right, Nat.mod_eq_of_lt hq]
            rw [h2] at hzeq
            exact hzq' hzeq)
          (by
            rw [hlen2]
            have hs1 := cycDist_step u.entries.length q z hlen hq hz
              (fun h => hzq' h.symm)
            omega)
        refine ⟨hrec.1, ?_, ?_, ?_, ?_⟩
        · rw [hrec.2.1]
          exact hlen2
        · rw [hrec.2.2.1]
          show u.size - 1 + 1 = u.size
          omega
        · rw [hrec.2.2.2.1]
          show u.hash ^^^ tagHash (hashFn ke) ^^^ tagHash (hashFn ke) = u.hash
          rw [Nat.xor_assoc, Nat.xor_self, Nat.xor_zero]
        · intro k'
          exact (hrec.2.2.2.2 k').trans (hkeys2 k')
      · -- the reinserted entry lands back in its own freed slot: this
        -- iteration is the identity and the scan advances
        have hp : probe (u.entries.set q (emptySlot K V)) (tagHash (hashFn ke)) ke
            (startIndex (u.entries.set q (emptySlot K V)) (tagHash (hashFn ke)))
            (u.entries.set q (emptySlot K V)).length = some (false, q) := by
          rw [hst, List.length_set]
          exact hpr
        have hw := insertH_alloc_write emptyHash fuel
          (⟨u.entries.set q (emptySlot K V), u.size - 1,
            u.hash ^^^ tagHash (hashFn ke)⟩ : Table K V)
          (tagHash (hashFn ke)) ke ve hne q hp hthr
        rw [hw]
        dsimp only
        have hE2 : (u.entries.set q (emptySlot K V)).set q
            ⟨tagHash (hashFn ke), some ke, some ve⟩ = u.entries := by
          rw [List.set_set, ← hsh, set_getD_self u.entries q (emptySlot K V) hq]
        have hu2 : (⟨(u.entries.set q (emptySlot K V)).set q
              ⟨tagHash (hashFn ke), some ke, some ve⟩,
            u.size - 1 + 1, u.hash ^^^ tagHash (hashFn ke) ^^^ tagHash (hashFn ke)⟩
            : Table K V) = u := by
          apply table_eq_of_parts
          · exact hE2
          · show u.size - 1 + 1 = u.size
            omega
          · show u.hash ^^^ tagHash (hashFn ke) ^^^ tagHash (hashFn ke) = u.hash
            rw [Nat.xor_assoc, Nat.xor_self, Nat.xor_zero]
        rw [hu2, hE2, step_mod _ _ hpow]
        have hwalkHq := cycDist_walk u.entries.length H q hH hq
        have htotHq := cycDist_total u.entries.length H q hH hq hHq
        have hstep : (H + (cycDist u.entries.length H q + 1)) % u.entries.length
            = (q + 1) % u.entries.length := by
          rw [show H + (cycDist u.entries.length H q + 1)
            = H + cycDist u.entries.length H q + 1 by omega, ← mod_step, hwalkHq]
        have hcHq' : cycDist u.entries.length H ((q + 1) % u.entries.length)
            = cycDist u.entries.length H q + 1 := by
          rw [← hstep]
          exact cycDist_add _ H _ hH (by omega)
        exact repairWith_restore hashFn emptyHash fuel lf u H
          ((q + 1) % u.entries.length) z hpow hlen1 hsize hslotwf hdist hhash hup
          hH hHe (Nat.mod_lt _ hlen) hchainE
          (by
            intro i hi hlivei hlt d hd
            rw [hcHq'] at hlt
            rcases Nat.lt_or_ge (cycDist u.entries.length H i)
              (cycDist u.entries.length H q) with hc | hc
            · exact hproc i hi hlivei hc d hd
            · have heq : cycDist u.entries.length H i
                  = cycDist u.entries.length H q := by omega
              have hiq : i = q := by
                have h1 := cycDist_walk u.entries.length H i hH hi
                rw [heq, hwalkHq] at h1
                exact h1.symm
              rw [hiq, hsh] at hd ⊢
              dsimp only at hd ⊢
              simp only [homeOf] at hd ⊢
              exact havoid d hd)
          hz hze
          (by
            have hs1 := cycDist_step u.entries.length q z hlen hq hz
              (fun h => hzq' h.symm)
            have hs2 := cycDist_step u.entries.length q H hlen hq hH
              (fun h => hHq h.symm)
            omega)
          (by
            have hs1 := cycDist_step u.entries.length q z hlen hq hz
              (fun h => hzq' h.symm)
            omega)

theorem removeH_not_found (emptyHash : Nat) (er : Bool) (fuel : Nat)
    (t : Table K V) (h1 : Nat) (k : K) (i : Nat)
    (hp : probe t.entries h1 k (startIndex t.entries h1) t.entries.length
      = some (false, i)) :
    removeH emptyHash er fuel t h1 k = t := by
  unfold removeH
  rw [hp]

theorem removeH_found_noshrink (emptyHash : Nat) (er : Bool) (fuel : Nat)
    (t : Table K V) (h1 : Nat) (k : K) (i : Nat)
    (hp : probe t.entries h1 k (startIndex t.entries h1) t.entries.length
      = some (true, i))
    (hthr : ¬(initialCapacity < t.entries.length ∧
      t.size - 1 < t.entries.length / 4)) :
    removeH emptyHash er fuel t h1 k
      = repairWith (insertH emptyHash fuel) t.entries.length
          (⟨t.entries.set i (emptySlot K V), t.size - 1, t.hash ^^^ h1⟩ : Table K V)
          ((i + 1) &&& (t.entries.length - 1)) := by
  unfold removeH
  rw [hp]
  dsimp only
  rw [List.length_set, if_neg hthr]

theorem removeH_found_shrink_early (emptyHash : Nat) (fuel : Nat)
    (t : Table K V) (h1 : Nat) (k : K) (i : Nat)
    (hp : probe t.entries h1 k (startIndex t.entries h1) t.entries.length
      = some (true, i))
    (hthr : initialCapacity < t.entries.length ∧
      t.size - 1 < t.entries.length / 4) :
    removeH emptyHash true fuel t h1 k
      = resizeWith (insertH emptyHash fuel) emptyHash (t.entries.length / 2)
          (⟨t.entries.set i (emptySlot K V), t.size - 1, t.hash ^^^ h1⟩
            : Table K V) := by
  unfold removeH
  rw [hp]
  dsimp only
  rw [List.length_set, if_pos hthr, if_pos rfl]

theorem removeH_found_shrink_repair (emptyHash : Nat) (fuel : Nat)
    (t : Table K V) (h1 : Nat) (k : K) (i : Nat)
    (hp : probe t.entries h1 k (startIndex t.entries h1) t.entries.length
      = some (true, i))
    (hthr : initialCapacity < t.entries.length ∧
      t.size - 1 < t.entries.length / 4) :
    removeH emptyHash false fuel t h1 k
      = repairWith (insertH emptyHash fuel)
          (resizeWith (insertH emptyHash fuel) emptyHash (t.entries.length / 2)
            (⟨t.entries.set i (emptySlot K V), t.size - 1, t.hash ^^^ h1⟩
              : Table K V)).entries.length
          (resizeWith (insertH emptyHash fuel) emptyHash (t.entries.length / 2)
            (⟨t.entries.set i (emptySlot K V), t.size - 1, t.hash ^^^ h1⟩
              : Table K V))
          ((i + 1) &&&
            ((resizeWith (insertH emptyHash fuel) emptyHash (t.entries.length / 2)
              (⟨t.entries.set i (emptySlot K V), t.size - 1, t.hash ^^^ h1⟩
                : Table K V)).entries.length - 1)) := by
  unfold removeH
  rw [hp]
  dsimp only
  rw [List.length_set, if_pos hthr]
  simp only [Bool.false_eq_true, if_false]

theorem repairWith_empty_any (ins : Table K V → Nat → K → V → Table K V)
    (lf : Nat) (t : Table K V) (q : Nat)
    (hqe : (t.entries.getD q (emptySlot K V)).hash1 = 0) :
    repairWith ins lf t q = t := by
  cases lf with
  | zero => rfl
  | succ lf' => exact repairWith_unfold_empty ins lf' t q hqe

theorem tableWF_of_entriesWF (hashFn : K → Nat) (emptyHash : Nat) (t : Table K V)
    (h : EntriesWF hashFn emptyHash t)
    (hcap : ∃ m, t.entries.length = initialCapacity * 2 ^ m)
    (hup : t.size ≤ 3 * t.entries.length / 4)
    (hlow : t.entries.length = initialCapacity ∨ t.entries.length / 4 ≤ t.size) :
    TableWF hashFn emptyHash t :=
  Or.inr ⟨hcap, h.2.2.1, hup, hlow, h.2.2.2.1, h.2.2.2.2.1,
    h.2.2.2.2.2.1, h.2.2.2.2.2.2⟩

theorem repairWith_on_WF (hashFn : K → Nat) (emptyHash fuel : Nat) (u : Table K V)
    (q : Nat) (hwf : EntriesWF hashFn emptyHash u)
    (hlen1 : 1 < u.entries.length)
    (hroom : liveCount u.entries + 1 < u.entries.length)
    (hup : liveCount u.entries < 3 * u.entries.length / 4)
    (hq : q < u.entries.length) :
    EntriesWF hashFn emptyHash
      (repairWith (insertH emptyHash (fuel+1)) u.entries.length u q) ∧
    (repairWith (insertH emptyHash (fuel+1)) u.entries.length u q).entries.length
      = u.entries.length ∧
    (repairWith (insertH emptyHash (fuel+1)) u.entries.length u q).size = u.size ∧
    (repairWith (insertH emptyHash (fuel+1)) u.entries.length u q).hash = u.hash ∧
    (∀ k', hasKey
      (repairWith (insertH emptyHash (fuel+1)) u.entries.length u q).entries k'
      ↔ hasKey u.entries k') := by
  obtain ⟨hpow, hlen, hsize, hslotwf, hdist, hchain, hhash⟩ := hwf
  by_cases hqe : (u.entries.getD q (emptySlot K V)).hash1 = 0
  · rw [repairWith_empty_any _ _ _ _ hqe]
    exact ⟨⟨hpow, hlen, hsize, hslotwf, hdist, hchain, hhash⟩,
      rfl, rfl, rfl, fun _ => Iff.rfl⟩
  · obtain ⟨e1, he1, he1e⟩ := exists_empty_slot u.entries (by omega)
    obtain ⟨e2, he2, he21, he2e⟩ := exists_second_empty u.entries e1 hroom
    have hchainE : ∀ H0, ChainInvExcept u.entries H0 :=
      fun _ i hi hl d hd => Or.inr (hchain i hi hl d hd)
    have hproc : ∀ H0, (u.entries.getD H0 (emptySlot K V)).hash1 = 0 →
        ∀ i, i < u.entries.length →
        (u.entries.getD i (emptySlot K V)).hash1 ≠ 0 →
        cycDist u.entries.length H0 i < cycDist u.entries.length H0 q →
        ∀ d, d < cycDist u.entries.length
            (homeOf u.entries.length (u.entries.getD i (emptySlot K V)).hash1) i →
          (homeOf u.entries.length (u.entries.getD i (emptySlot K V)).hash1 + d)
            % u.entries.length ≠ H0 :=
      fun H0 hH0e i hi hl _ d hd heq => (hchain i hi hl d hd) (heq ▸ hH0e)
    have hdiff : cycDist u.entries.length q e1 ≠ cycDist u.entries.length q e2 := by
      intro h
      have w1 := cycDist_walk u.entries.length q e1 hq he1
      have w2 := cycDist_walk u.entries.length q e2 hq he2
      rw [h, w2] at w1
      exact he21 w1
    rcases Nat.lt_or_ge (cycDist u.entries.length q e1)
        (cycDist u.entries.length q e2) with hc | hc
    · exact repairWith_restore hashFn emptyHash fuel u.entries.length u e2 q e1
        hpow hlen1 hsize hslotwf hdist hhash hup he2 he2e hq (hchainE e2)
        (hproc e2 he2e) he1 he1e hc (cycDist_lt _ _ _ hlen)
    · have hc' : cycDist u.entries.length q e2 < cycDist u.entries.length q e1 := by
        omega
      exact repairWith_restore hashFn emptyHash fuel u.entries.length u e1 q e2
        hpow hlen1 hsize hslotwf hdist hhash hup he1 he1e hq (hchainE e1)
        (hproc e1 he1e) he2 he2e hc' (cycDist_lt _ _ _ hlen)

theorem removeH_WF (hashFn : K → Nat) (emptyHash fuel : Nat) (er : Bool)
    (t : Table K V) (k : K) (hwf : TableWF hashFn emptyHash t) (hsz : t.size ≠ 0) :
    TableWF hashFn emptyHash
      (removeH emptyHash er (fuel+1) t (tagHash (hashFn k)) k) ∧
    (¬hasKey t.entries k →
      removeH emptyHash er (fuel+1) t (tagHash (hashFn k)) k = t) ∧
    (hasKey t.entries k →
      (removeH emptyHash er (fuel+1) t (tagHash (hashFn k)) k).size + 1 = t.size ∧
      (∀ k', hasKey
          (removeH emptyHash er (fuel+1) t (tagHash (hashFn k)) k).entries k'
        ↔ hasKey t.entries k' ∧ k' ≠ k)) := by
  rcases hwf with hz | halloc
  · exfalso
    apply hsz
    rw [hz]
    rfl
  · obtain ⟨⟨m, hm⟩, hsize, hup34, hlow, hslotwf, hdist, hchain, hhash⟩ := halloc
    have hpow : ∃ j, t.entries.length = 2 ^ j := by
      rw [hm]
      exact pow_len_initial m
    obtain ⟨hd34, hd4, hd2⟩ := cap_divs m
    have h2mpos : (0:Nat) < 2 ^ m := Nat.two_pow_pos m
    have hlen : 0 < t.entries.length := by
      rw [hm, initialCapacity]
      omega
    have hlen1 : 1 < t.entries.length := by
      rw [hm, initialCapacity]
      omega
    have hup12 : t.size ≤ 12 * 2 ^ m := by
      have h := hup34
      rw [hm, hd34] at h
      exact h
    have hstart : startIndex t.entries (tagHash (hashFn k)) < t.entries.length := by
      rw [startIndex_mod _ _ hpow]
      exact Nat.mod_lt _ hlen
    have hroom : liveCount t.entries < t.entries.length := by
      rw [← hsize, hm, initialCapacity]
      omega
    obtain ⟨b, i, hp⟩ := probe_total t.entries (tagHash (hashFn k)) k hpow hlen
      (tagHash_ne_zero _) (startIndex t.entries (tagHash (hashFn k)))
      t.entries.length hstart (le_refl _) (exists_empty_slot t.entries hroom)
    cases b
    case false =>
      rw [removeH_not_found emptyHash er (fuel+1) t _ k i hp]
      have hnk : ¬hasKey t.entries k := by
        apply probe_false_not_hasKey hashFn t.entries k hpow hlen hslotwf hchain
          hdist t.entries.length i (le_refl _)
        rw [← startIndex_mod t.entries _ hpow]
        exact hp
      exact ⟨Or.inr ⟨⟨m, hm⟩, hsize, hup34, hlow, hslotwf, hdist, hchain, hhash⟩,
        fun _ => rfl, fun hk => absurd hk hnk⟩
    case true =>
      obtain ⟨d, _, hdi, _, hstop⟩ := probe_sound t.entries _ k hpow hlen
        t.entries.length _ true i hstart hp
      rcases hstop with ⟨hb, _⟩ | ⟨_, hmatch⟩
      · exact absurd hb (by simp)
      have hi : i < t.entries.length := by
        rw [hdi]
        exact Nat.mod_lt _ hlen
      have hmh : (t.entries.getD i (emptySlot K V)).hash1 = tagHash (hashFn k) :=
        hmatch.1
      have hmk : (t.entries.getD i (emptySlot K V)).key = some k := hmatch.2
      have hlivei : (t.entries.getD i (emptySlot K V)).hash1 ≠ 0 := by
        rw [hmh]
        exact tagHash_ne_zero _
      have hhask : hasKey t.entries k := ⟨i, hi, hlivei, hmk⟩
      have hcle := liveCount_set_empty t.entries i hi hlivei
      have hsz1 : 1 ≤ t.size := by omega
      have ht1size : t.size - 1 = liveCount (t.entries.set i (emptySlot K V)) := by
        omega
      have ht1wf : ∀ e ∈ t.entries.set i (emptySlot K V), SlotWF hashFn e :=
        slotwf_clear hashFn t.entries i hslotwf
      have ht1dist : KeysDistinct (t.entries.set i (emptySlot K V)) :=
        dist_clear t.entries i hdist
      have ht1keys := clear_hasKey t.entries i k hi hdist hlivei hmk
      have ht1hash : t.hash ^^^ tagHash (hashFn k)
          = emptyHash ^^^ xorAll (t.entries.set i (emptySlot K V)) := by
        rw [xorAll_set t.entries i (emptySlot K V) hi, hmh]
        show t.hash ^^^ tagHash (hashFn k)
          = emptyHash ^^^ (xorAll t.entries ^^^ tagHash (hashFn k) ^^^ 0)
        rw [Nat.xor_zero, hhash, Nat.xor_assoc]
      by_cases hshr : initialCapacity < t.entries.length ∧
          t.size - 1 < t.entries.length / 4
      · -- the removal crosses the shrink threshold
        have hm1 : 1 ≤ m := by
          by_contra h0
          push_neg at h0
          have hm0 : m = 0 := by omega
          have h := hshr.1
          rw [hm, hm0, pow_zero, Nat.mul_one] at h
          exact lt_irrefl _ h
        have hpow_split : 8 * 2 ^ m = 16 * 2 ^ (m - 1) := by
          have hmm : m - 1 + 1 = m := Nat.sub_add_cancel hm1
          calc 8 * 2 ^ m = 8 * 2 ^ (m - 1 + 1) := by rw [hmm]
          _ = 16 * 2 ^ (m - 1) := by rw [Nat.pow_succ]; ring
        have hcap2 : ∃ j, t.entries.length / 2 = 2 ^ j := by
          rw [hm, hd2]
          exact ⟨m + 3, by rw [Nat.pow_add]; ring⟩
        have hcappos : 0 < t.entries.length / 2 := by
          rw [hm, hd2]
          omega
        have h384 : 3 * (8 * 2 ^ m) / 4 = 6 * 2 ^ m := by
          rw [show 3 * (8 * 2 ^ m) = 4 * (6 * 2 ^ m) by ring]
          exact Nat.mul_div_cancel_left _ (by norm_num)
        have h842 : (8 * 2 ^ m) / 4 = 2 * 2 ^ m := by
          rw [show 8 * 2 ^ m = 4 * (2 * 2 ^ m) by ring]
          exact Nat.mul_div_cancel_left _ (by norm_num)
        have hupshr : t.size - 1 < 4 * 2 ^ m := by
          have h := hshr.2
          rw [hm, hd4] at h
          exact h
        have hq4 : 4 * 2 ^ m ≤ t.size := by
          rcases hlow with h16 | h
          · exfalso
            rw [hm, initialCapacity] at h16
            have h2 : 2 ≤ 2 ^ m := by
              calc (2:Nat) = 2 ^ 1 := rfl
              _ ≤ 2 ^ m := Nat.pow_le_pow_right (by norm_num) hm1
            omega
          · rw [hm, hd4] at h
            exact h
        obtain ⟨hres_wf, hres_len, hres_size, hres_keys⟩ :=
          resizeWith_WF hashFn emptyHash fuel (t.entries.length / 2)
            (⟨t.entries.set i (emptySlot K V), t.size - 1,
              t.hash ^^^ tagHash (hashFn k)⟩ : Table K V)
            hcap2 hcappos ht1wf ht1dist
            (by
              show liveCount (t.entries.set i (emptySlot K V))
                ≤ 3 * (t.entries.length / 2) / 4
              rw [hm, hd2, h384]
              omega)
        have hlc2 : liveCount (resizeWith (insertH emptyHash (fuel+1)) emptyHash
            (t.entries.length / 2)
            (⟨t.entries.set i (emptySlot K V), t.size - 1,
              t.hash ^^^ tagHash (hashFn k)⟩ : Table K V)).entries
            = t.size - 1 := by
          rw [← hres_wf.2.2.1, hres_size]
          show liveCount (t.entries.set i (emptySlot K V)) = t.size - 1
          omega
        have hlen2pos : 0 < (resizeWith (insertH emptyHash (fuel+1)) emptyHash
            (t.entries.length / 2)
            (⟨t.entries.set i (emptySlot K V), t.size - 1,
              t.hash ^^^ tagHash (hashFn k)⟩ : Table K V)).entries.length := by
          rw [hres_len, hm, hd2]
          omega
        have hcap2' : ∃ m', (resizeWith (insertH emptyHash (fuel+1)) emptyHash
            (t.entries.length / 2)
            (⟨t.entries.set i (emptySlot K V), t.size - 1,
              t.hash ^^^ tagHash (hashFn k)⟩ : Table K V)).entries.length
            = initialCapacity * 2 ^ m' := by
          refine ⟨m - 1, ?_⟩
          rw [hres_len, hm, hd2, initialCapacity]
          exact hpow_split
        have hup2' : (resizeWith (insertH emptyHash (fuel+1)) emptyHash
            (t.entries.length / 2)
            (⟨t.entries.set i (emptySlot K V), t.size - 1,
              t.hash ^^^ tagHash (hashFn k)⟩ : Table K V)).size
            ≤ 3 * (resizeWith (insertH emptyHash (fuel+1)) emptyHash
            (t.entries.length / 2)
            (⟨t.entries.set i (emptySlot K V), t.size - 1,
              t.hash ^^^ tagHash (hashFn k)⟩ : Table K V)).entries.length / 4 := by
          rw [hres_wf.2.2.1, hlc2, hres_len, hm, hd2, h384]
          omega
        have hlow2' : (resizeWith (insertH emptyHash (fuel+1)) emptyHash
            (t.entries.length / 2)
            (⟨t.entries.set i (emptySlot K V), t.size - 1,
              t.hash ^^^ tagHash (hashFn k)⟩ : Table K V)).entries.length
              = initialCapacity ∨
            (resizeWith (insertH emptyHash (fuel+1)) emptyHash
            (t.entries.length / 2)
            (⟨t.entries.set i (emptySlot K V), t.size - 1,
              t.hash ^^^ tagHash (hashFn k)⟩ : Table K V)).entries.length / 4
            ≤ (resizeWith (insertH emptyHash (fuel+1)) emptyHash
            (t.entries.length / 2)
            (⟨t.entries.set i (emptySlot K V), t.size - 1,
              t.hash ^^^ tagHash (hashFn k)⟩ : Table K V)).size := by
          right
          rw [hres_wf.2.2.1, hlc2, hres_len, hm, hd2, h842]
          omega
        have hsz_blk : (resizeWith (insertH emptyHash (fuel+1)) emptyHash
            (t.entries.length / 2)
            (⟨t.entries.set i (emptySlot K V), t.size - 1,
              t.hash ^^^ tagHash (hashFn k)⟩ : Table K V)).size + 1 = t.size := by
          rw [hres_wf.2.2.1, hlc2]
          omega
        cases er with
        | true =>
          rw [removeH_found_shrink_early emptyHash (fuel+1) t _ k i hp hshr]
          refine ⟨tableWF_of_entriesWF hashFn emptyHash _ hres_wf hcap2' hup2'
            hlow2', fun hnk => absurd hhask hnk, fun _ => ⟨hsz_blk, ?_⟩⟩
          intro k'
          exact (hres_keys k').trans (ht1keys k')
        | false =>
          rw [removeH_found_shrink_repair emptyHash (fuel+1) t _ k i hp hshr]
          rw [step_mod _ _ hres_wf.1]
          have hOn := repairWith_on_WF hashFn emptyHash fuel
            (resizeWith (insertH emptyHash (fuel+1)) emptyHash
              (t.entries.length / 2)
              (⟨t.entries.set i (emptySlot K V), t.size - 1,
                t.hash ^^^ tagHash (hashFn k)⟩ : Table K V))
            ((i + 1) % (resizeWith (insertH emptyHash (fuel+1)) emptyHash
              (t.entries.length / 2)
              (⟨t.entries.set i (emptySlot K V), t.size - 1,
                t.hash ^^^ tagHash (hashFn k)⟩ : Table K V)).entries.length)
            hres_wf
            (by rw [hres_len, hm, hd2]; omega)
            (by rw [hlc2, hres_len, hm, hd2]; omega)
            (by rw [hlc2, hres_len, hm, hd2, h384]; omega)
            (Nat.mod_lt _ hlen2pos)
          refine ⟨?_, fun hnk => absurd hhask hnk, fun _ => ⟨?_, ?_⟩⟩
          · apply tableWF_of_entriesWF hashFn emptyHash _ hOn.1
            · obtain ⟨m', hm'⟩ := hcap2'
              exact ⟨m', by rw [hOn.2.1]; exact hm'⟩
            · rw [hOn.2.2.1, hOn.2.1]
              exact hup2'
            · rw [hOn.2.2.1, hOn.2.1]
              exact hlow2'
          · rw [hOn.2.2.1]
            exact hsz_blk
          · intro k'
            exact (hOn.2.2.2.2 k').trans ((hres_keys k').trans (ht1keys k'))
      · -- no shrink: clear the slot and repair the cluster in place
        rw [removeH_found_noshrink emptyHash er (fuel+1) t _ k i hp hshr]
        rw [step_mod _ _ hpow]
        obtain ⟨z, hzlen, hzi, hze⟩ := exists_second_empty
          (t.entries.set i (emptySlot K V)) i
          (by rw [List.length_set, hm, initialCapacity]; omega)
        have hzlen' : z < t.entries.length := by
          rw [List.length_set] at hzlen
          exact hzlen
        have hiq' : i ≠ (i + 1) % t.entries.length := by
          intro h
          have h1 : cycDist t.entries.length i ((i + 1) % t.entries.length) = 1 :=
            cycDist_add _ i 1 hi (by omega)
          have h2 := (cycDist_eq_zero_iff _ i i hi hi).2 rfl
          rw [← h] at h1
          omega
        have htot := cycDist_total t.entries.length i ((i + 1) % t.entries.length)
          hi (Nat.mod_lt _ hlen) hiq'
        have h1cyc : cycDist t.entries.length i ((i + 1) % t.entries.length) = 1 :=
          cycDist_add _ i 1 hi (by omega)
        have hrest := repairWith_restore hashFn emptyHash fuel t.entries.length
          (⟨t.entries.set i (emptySlot K V), t.size - 1,
            t.hash ^^^ tagHash (hashFn k)⟩ : Table K V)
          i ((i + 1) % t.entries.length) z
          (by
            show ∃ j, (t.entries.set i (emptySlot K V)).length = 2 ^ j
            rw [List.length_set]
            exact hpow)
          (by
            show 1 < (t.entries.set i (emptySlot K V)).length
            rw [List.length_set]
            exact hlen1)
          ht1size ht1wf ht1dist ht1hash
          (by
            show liveCount (t.entries.set i (emptySlot K V))
              < 3 * (t.entries.set i (emptySlot K V)).length / 4
            rw [List.length_set, hm, hd34]
            omega)
          (by
            show i < (t.entries.set i (emptySlot K V)).length
            rw [List.length_set]
            exact hi)
          (by
            show ((t.entries.set i (emptySlot K V)).getD i
              (emptySlot K V)).hash1 = 0
            rw [getD_set_self _ _ _ _ hi]
            rfl)
          (by
            show (i + 1) % t.entries.length
              < (t.entries.set i (emptySlot K V)).length
            rw [List.length_set]
            exact Nat.mod_lt _ hlen)
          (chainExcept_clear t.entries i hchain)
          (by
            intro i' hi' hl' hlt d' hd'
            exfalso
            rw [List.length_set] at hi' hlt
            rw [h1cyc] at hlt
            have h0 : cycDist t.entries.length i i' = 0 := by omega
            have hii' := ((cycDist_eq_zero_iff _ i i' hi hi').1 h0).symm
            rw [hii', getD_set_self _ _ _ _ hi] at hl'
            exact hl' rfl)
          hzlen hze
          (by
            show cycDist (t.entries.set i (emptySlot K V)).length
                ((i + 1) % t.entries.length) z
              < cycDist (t.entries.set i (emptySlot K V)).length
                ((i + 1) % t.entries.length) i
            rw [List.length_set]
            have hltz := cycDist_lt t.entries.length
              ((i + 1) % t.entries.length) z hlen
            by_contra hcon
            push_neg at hcon
            have heq : cycDist t.entries.length ((i + 1) % t.entries.length) z
                = t.entries.length - 1 := by omega
            have hzeq := cycDist_max_eq t.entries.length
              ((i + 1) % t.entries.length) z hlen (Nat.mod_lt _ hlen) hzlen' heq
            have h2 : ((i + 1) % t.entries.length + (t.entries.length - 1))
                % t.entries.length = i := by
              rw [Nat.mod_add_mod,
                show i + 1 + (t.entries.length - 1) = i + t.entries.length
                  by omega,
                Nat.add_mod_right, Nat.mod_eq_of_lt hi]
            rw [h2] at hzeq
            exact hzi hzeq)
          (by
            show cycDist (t.entries.set i (emptySlot K V)).length
              ((i + 1) % t.entries.length) z < t.entries.length
            rw [List.length_set]
            exact cycDist_lt _ _ _ hlen)
        refine ⟨?_, fun hnk => absurd hhask hnk, fun _ => ⟨?_, ?_⟩⟩
        · apply tableWF_of_entriesWF hashFn emptyHash _ hrest.1
          · refine ⟨m, ?_⟩
            rw [hrest.2.1]
            show (t.entries.set i (emptySlot K V)).length = initialCapacity * 2 ^ m
            rw [List.length_set]
            exact hm
          · rw [hrest.2.2.1, hrest.2.1]
            show t.size - 1
              ≤ 3 * (t.entries.set i (emptySlot K V)).length / 4
            rw [List.length_set, hm, hd34]
            omega
          · rw [hrest.2.2.1, hrest.2.1]
            show (t.entries.set i (emptySlot K V)).length = initialCapacity ∨
              (t.entries.set i (emptySlot K V)).length / 4 ≤ t.size - 1
            rw [List.length_set]
            push_neg at hshr
            rcases Nat.lt_or_ge initialCapacity t.entries.length with hlt | hge
            · right
              exact hshr hlt
            · left
              rw [hm] at hge ⊢
              rw [initialCapacity] at hge ⊢
              omega
        · rw [hrest.2.2.1]
          show t.size - 1 + 1 = t.size
          omega
        · intro k'
          exact (hrest.2.2.2.2 k').trans (ht1keys k')

theorem mapReach_WF (hashFn : K → Nat) (m : Table K V)
    (h : MapReach hashFn m) : TableWF hashFn 0 m := by
  induction h with
  | zero => exact Or.inl rfl
  | put k v _ ih =>
    exact (insertH_WF hashFn 0 2 _ k v ih).1
  | remove k _ ih =>
    rename_i m' _
    unfold Map.Remove
    by_cases h0 : m'.size = 0
    · rw [if_pos h0]
      exact ih
    · rw [if_neg h0]
      exact (removeH_WF hashFn 0 3 true m' k ih h0).1

theorem setReach_WF (hashFn : K → Nat) (emptyHash : Nat) (s : Table K Unit)
    (h : SetReach hashFn emptyHash s) : TableWF hashFn emptyHash s := by
  induction h with
  | zero => exact Or.inl rfl
  | add k _ ih =>
    exact (insertH_WF hashFn emptyHash 2 _ k () ih).1
  | remove k _ ih =>
    rename_i s' _
    unfold HSet.Remove
    by_cases h0 : s'.size = 0
    · rw [if_pos h0]
      exact ih
    · rw [if_neg h0]
      exact (removeH_WF hashFn emptyHash 3 false s' k ih h0).1

theorem size_zero_no_keys (hashFn : K → Nat) (emptyHash : Nat) (t : Table K V)
    (hwf : TableWF hashFn emptyHash t) (h0 : t.size = 0) :
    ∀ k, ¬hasKey t.entries k := by
  intro k hk
  obtain ⟨i, hi, hlive, _⟩ := hk
  rcases hwf with hz | halloc
  · rw [hz] at hi
    simp [Table.zero] at hi
  · obtain ⟨_, hsize, _, _, _, _, _, _⟩ := halloc
    rw [h0] at hsize
    -- liveCount = 0 but slot i is live
    have : liveCount t.entries ≠ 0 := by
      have h1 := liveCount_set_empty t.entries i hi hlive
      omega
    exact this hsize.symm

theorem contains_iff_hasKey (hashFn : K → Nat) (emptyHash : Nat)
    (s : Table K Unit) (hwf : TableWF hashFn emptyHash s) (k : K) :
    HSet.Contains hashFn s k = true ↔ hasKey s.entries k := by
  unfold HSet.Contains
  by_cases h0 : s.size = 0
  · rw [if_pos h0]
    simp only [Bool.false_eq_true, false_iff]
    exact size_zero_no_keys hashFn emptyHash s hwf h0 k
  · rw [if_neg h0]
    rcases hwf with hz | halloc
    · exfalso
      apply h0
      rw [hz]
      rfl
    · obtain ⟨⟨m, hm⟩, hsize, hup34, _, hslotwf, hdist, hchain, hhash⟩ := halloc
      have hpow : ∃ j, s.entries.length = 2 ^ j := by
        rw [hm]
        exact pow_len_initial m
      have h2mpos : (0:Nat) < 2 ^ m := Nat.two_pow_pos m
      have hlen : 0 < s.entries.length := by
        rw [hm, initialCapacity]
        omega
      unfold containsHash1Key
      constructor
      · intro hc
        rcases hpr : probe s.entries (tagHash (hashFn k)) k
            (startIndex s.entries (tagHash (hashFn k))) s.entries.length
          with _ | ⟨b, i⟩
        · rw [hpr] at hc
          simp at hc
        · cases b
          · rw [hpr] at hc
            simp at hc
          · obtain ⟨d, _, hdi, _, hstop⟩ := probe_sound s.entries _ k hpow hlen
              s.entries.length _ true i
              (by rw [startIndex_mod _ _ hpow]; exact Nat.mod_lt _ hlen) hpr
            rcases hstop with ⟨hb, _⟩ | ⟨_, hmatch⟩
            · exact absurd hb (by simp)
            · refine ⟨i, ?_, ?_, hmatch.2⟩
              · rw [hdi]
                exact Nat.mod_lt _ hlen
              · rw [hmatch.1]
                exact tagHash_ne_zero _
      · intro hk
        obtain ⟨i, _, _, _, hpr⟩ := hasKey_probe_true hashFn s.entries k hpow hlen
          hslotwf hchain hdist hk s.entries.length (le_refl _)
        rw [← startIndex_mod s.entries _ hpow] at hpr
        rw [hpr]

theorem tableWF_capacity (hashFn : K → Nat) (emptyHash : Nat) (t : Table K V)
    (hwf : TableWF hashFn emptyHash t) :
    Table.Size t ≤ 3 * t.entries.length / 4 + 1 ∧
    (t.entries = [] ∨ t.entries.length = initialCapacity ∨
      t.entries.length / 4 ≤ Table.Size t) ∧
    (t.entries ≠ [] → ∃ j, t.entries.length = 2 ^ j ∧
      initialCapacity ≤ t.entries.length) := by
  rcases hwf with hz | halloc
  · rw [hz]
    exact ⟨Nat.zero_le _, Or.inl rfl, fun h => absurd rfl h⟩
  · obtain ⟨⟨m', hm'⟩, _, hup, hlow, _, _, _, _⟩ := halloc
    have h2 : (0:Nat) < 2 ^ m' := Nat.two_pow_pos m'
    refine ⟨?_, ?_, ?_⟩
    · show t.size ≤ 3 * t.entries.length / 4 + 1
      omega
    · right
      rcases hlow with h | h
      · exact Or.inl h
      · exact Or.inr h
    · intro _
      refine ⟨m' + 4, ?_, ?_⟩
      · rw [hm', initialCapacity, Nat.pow_add]
        norm_num
        ring
      · rw [hm', initialCapacity]
        omega

theorem tableWF_probe_total (hashFn : K → Nat) (emptyHash : Nat) (t : Table K V)
    (hwf : TableWF hashFn emptyHash t) (hne : t.entries ≠ []) :
    liveCount t.entries < t.entries.length ∧
    (∃ z, z < t.entries.length ∧ (t.entries.getD z (emptySlot K V)).hash1 = 0) ∧
    (∀ k, ∃ b i, probe t.entries (tagHash (hashFn k)) k
      (startIndex t.entries (tagHash (hashFn k))) t.entries.length
        = some (b, i) ∧
      ((b = false ∧ slotEmptyAt t.entries i) ∨
       (b = true ∧ slotMatchAt t.entries (tagHash (hashFn k)) k i))) := by
  rcases hwf with hz | halloc
  · exfalso
    apply hne
    rw [hz]
    rfl
  · obtain ⟨⟨m', hm'⟩, hsize, hup, _, _, _, _, _⟩ := halloc
    have h2 : (0:Nat) < 2 ^ m' := Nat.two_pow_pos m'
    have hlen : 0 < t.entries.length := by
      rw [hm', initialCapacity]
      omega
    have hpow : ∃ j, t.entries.length = 2 ^ j := by
      rw [hm']
      exact pow_len_initial m'
    have hroom : liveCount t.entries < t.entries.length := by
      rw [← hsize]
      have hcd := (cap_divs m').1
      rw [hm'] at hup ⊢
      rw [hcd] at hup
      rw [initialCapacity]
      omega
    refine ⟨hroom, exists_empty_slot t.entries hroom, ?_⟩
    intro k
    obtain ⟨b, i, hp⟩ := probe_total t.entries (tagHash (hashFn k)) k hpow hlen
      (tagHash_ne_zero _) (startIndex t.entries (tagHash (hashFn k)))
      t.entries.length
      (by rw [startIndex_mod _ _ hpow]; exact Nat.mod_lt _ hlen) (le_refl _)
      (exists_empty_slot t.entries hroom)
    obtain ⟨d, _, hdi, _, hstop⟩ := probe_sound t.entries _ k hpow hlen
      t.entries.length _ b i
      (by rw [startIndex_mod _ _ hpow]; exact Nat.mod_lt _ hlen) hp
    exact ⟨b, i, hp, hstop⟩

/-- C3 counterexample: the aggregate hash of a non-empty reachable set is NOT
the plain XOR of the live tagged hashes — set.go initialises the running hash
with `emptySetHash` and that sentinel never cancels out of the aggregate.
With the identity hash function and `emptySetHash = 5`, the one-element set
{1} has `Hash() = 5 ^^^ tagHash 1`, not `tagHash 1 = xorAll`. -/
theorem c3_hash_not_pure_xor :
    SetReach (fun n => n) 5 (buildSet (fun n => n) 5 [1]) ∧
    0 < (buildSet (fun n => n) 5 [1]).size ∧
    HSet.Hash 5 (buildSet (fun n => n) 5 [1])
      ≠ xorAll (buildSet (fun n => n) 5 [1]).entries :=
  ⟨by exact SetReach.add 1 SetReach.zero, by decide, by decide⟩

/-- C3 amended: at every state reachable by set operations, Hash() of a
non-empty set equals `emptySetHash` XORed with the exclusive-or of the tagged
hashes of all live slots (maintained incrementally on every insert and
delete), and Hash() of an empty set equals the fixed sentinel `emptySetHash`
itself. -/
theorem c3_amended_hash_invariant (hashFn : K → Nat) (emptyHash : Nat)
    (s : Table K Unit) (hs : SetReach hashFn emptyHash s) :
    (s.size ≠ 0 → HSet.Hash emptyHash s = emptyHash ^^^ xorAll s.entries) ∧
    (s.size = 0 → HSet.Hash emptyHash s = emptyHash) := by
  have hwf := setReach_WF hashFn emptyHash s hs
  constructor
  · intro h0
    unfold HSet.Hash
    rw [if_neg h0]
    rcases hwf with hz | halloc
    · exfalso
      apply h0
      rw [hz]
      rfl
    · exact halloc.2.2.2.2.2.2.2
  · intro h0
    unfold HSet.Hash
    rw [if_pos h0]

theorem c3_amended_hash_invariant_witness :
    HSet.Hash 5 (buildSet (fun n => n) 5 [1])
      = 5 ^^^ xorAll (buildSet (fun n => n) 5 [1]).entries :=
  (c3_amended_hash_invariant (fun n => n) 5 (buildSet (fun n => n) 5 [1])
    (by exact SetReach.add 1 SetReach.zero)).1 (by decide)

/-- C5: after every public mutation on a Map or Set (that is, at every
reachable state), the count is at most 3·capacity/4 + 1, and either the
backing array is unallocated, or the capacity is the minimum (16), or the
count is at least capacity/4; once allocated the capacity is a power of two
of at least 16. -/
theorem c5_capacity_invariant (hashFn : K → Nat) (emptyHash : Nat)
    (m : Table K V) (s : Table K Unit)
    (hm : MapReach hashFn m) (hs : SetReach hashFn emptyHash s) :
    (Table.Size m ≤ 3 * m.entries.length / 4 + 1 ∧
     (m.entries = [] ∨ m.entries.length = initialCapacity ∨
       m.entries.length / 4 ≤ Table.Size m) ∧
     (m.entries ≠ [] → ∃ j, m.entries.length = 2 ^ j ∧
       initialCapacity ≤ m.entries.length)) ∧
    (Table.Size s ≤ 3 * s.entries.length / 4 + 1 ∧
     (s.entries = [] ∨ s.entries.length = initialCapacity ∨
       s.entries.length / 4 ≤ Table.Size s) ∧
     (s.entries ≠ [] → ∃ j, s.entries.length = 2 ^ j ∧
       initialCapacity ≤ s.entries.length)) :=
  ⟨tableWF_capacity hashFn 0 m (mapReach_WF hashFn m hm),
   tableWF_capacity hashFn emptyHash s (setReach_WF hashFn emptyHash s hs)⟩

theorem c5_capacity_invariant_witness :
    (Table.Size (Map.Put (fun n => n) (Table.zero Nat Nat) 1 10)
        ≤ 3 * (Map.Put (fun n => n) (Table.zero Nat Nat) 1 10).entries.length / 4
          + 1 ∧
     ((Map.Put (fun n => n) (Table.zero Nat Nat) 1 10).entries = [] ∨
       (Map.Put (fun n => n) (Table.zero Nat Nat) 1 10).entries.length
         = initialCapacity ∨
       (Map.Put (fun n => n) (Table.zero Nat Nat) 1 10).entries.length / 4
         ≤ Table.Size (Map.Put (fun n => n) (Table.zero Nat Nat) 1 10)) ∧
     ((Map.Put (fun n => n) (Table.zero Nat Nat) 1 10).entries ≠ [] →
       ∃ j, (Map.Put (fun n => n) (Table.zero Nat Nat) 1 10).entries.length
           = 2 ^ j ∧
         initialCapacity
           ≤ (Map.Put (fun n => n) (Table.zero Nat Nat) 1 10).entries.length)) ∧
    (Table.Size (HSet.Add (fun n => n) 5 (Table.zero Nat Unit) 1)
        ≤ 3 * (HSet.Add (fun n => n) 5
          (Table.zero Nat Unit) 1).entries.length / 4 + 1 ∧
     ((HSet.Add (fun n => n) 5 (Table.zero Nat Unit) 1).entries = [] ∨
       (HSet.Add (fun n => n) 5 (Table.zero Nat Unit) 1).entries.length
         = initialCapacity ∨
       (HSet.Add (fun n => n) 5 (Table.zero Nat Unit) 1).entries.length / 4
         ≤ Table.Size (HSet.Add (fun n => n) 5 (Table.zero Nat Unit) 1)) ∧
     ((HSet.Add (fun n => n) 5 (Table.zero Nat Unit) 1).entries ≠ [] →
       ∃ j, (HSet.Add (fun n => n) 5
           (Table.zero Nat Unit) 1).entries.length = 2 ^ j ∧
         initialCapacity ≤ (HSet.Add (fun n => n) 5
           (Table.zero Nat Unit) 1).entries.length)) :=
  c5_capacity_invariant (fun n => n) 5 _ _
    (MapReach.put 1 10 MapReach.zero) (SetReach.add 1 SetReach.zero)

/-- C10 (implicit): at every reachable state with an allocated backing array,
the live count is strictly below the capacity, so the array holds at least
one EMPTY slot and every linear probe with the tagged hash of any key,
started at its home slot with fuel equal to the capacity, terminates with a
result — stopping at a matching slot (`true`) or an EMPTY slot (`false`) —
for both the Map and the Set engine. -/
theorem c10_probe_terminates (hashFn : K → Nat) (emptyHash : Nat)
    (m : Table K V) (s : Table K Unit)
    (hm : MapReach hashFn m) (hs : SetReach hashFn emptyHash s)
    (hmne : m.entries ≠ []) (hsne : s.entries ≠ []) :
    (liveCount m.entries < m.entries.length ∧
     (∃ z, z < m.entries.length ∧
       (m.entries.getD z (emptySlot K V)).hash1 = 0) ∧
     (∀ k, ∃ b i, probe m.entries (tagHash (hashFn k)) k
        (startIndex m.entries (tagHash (hashFn k))) m.entries.length
          = some (b, i) ∧
        ((b = false ∧ slotEmptyAt m.entries i) ∨
         (b = true ∧ slotMatchAt m.entries (tagHash (hashFn k)) k i)))) ∧
    (liveCount s.entries < s.entries.length ∧
     (∃ z, z < s.entries.length ∧
       (s.entries.getD z (emptySlot K Unit)).hash1 = 0) ∧
     (∀ k, ∃ b i, probe s.entries (tagHash (hashFn k)) k
        (startIndex s.entries (tagHash (hashFn k))) s.entries.length
          = some (b, i) ∧
        ((b = false ∧ slotEmptyAt s.entries i) ∨
         (b = true ∧ slotMatchAt s.entries (tagHash (hashFn k)) k i)))) :=
  ⟨tableWF_probe_total hashFn 0 m (mapReach_WF hashFn m hm) hmne,
   tableWF_probe_total hashFn emptyHash s
     (setReach_WF hashFn emptyHash s hs) hsne⟩

theorem tableWF_slots (hashFn : K → Nat) (emptyHash : Nat) (t : Table K V)
    (hwf : TableWF hashFn emptyHash t) : ∀ e ∈ t.entries, SlotWF hashFn e := by
  rcases hwf with hz | hA
  · rw [hz]
    intro e he
    simp [Table.zero] at he
  · exact hA.2.2.2.2.1

theorem tableWF_dist (hashFn : K → Nat) (emptyHash : Nat) (t : Table K V)
    (hwf : TableWF hashFn emptyHash t) : KeysDistinct t.entries := by
  rcases hwf with hz | hA
  · rw [hz]
    intro i j hi
    simp [Table.zero] at hi
  · exact hA.2.2.2.2.2.1

theorem tableWF_size_keys (hashFn : K → Nat) (emptyHash : Nat) (t : Table K V)
    (hwf : TableWF hashFn emptyHash t) :
    t.size = (liveKeys t.entries).length := by
  rcases hwf with hz | hA
  · rw [hz]
    rfl
  · rw [hA.2.1, ← liveEntries_length hashFn t.entries hA.2.2.2.2.1]
    show (liveEntries t.entries).length
      = ((liveEntries t.entries).map fun e => e.2.1).length
    rw [List.length_map]

theorem liveKeys_cons_empty (rest : List (Slot K V)) :
    liveKeys (emptySlot K V :: rest) = liveKeys rest := by
  show ((liveEntries (emptySlot K V :: rest)).map fun e => e.2.1) = _
  rw [liveEntries_cons_empty]
  rfl

theorem liveKeys_cons_live (h1 : Nat) (k : K) (v : V) (rest : List (Slot K V))
    (hne : h1 ≠ 0) :
    liveKeys ((⟨h1, some k, some v⟩ : Slot K V) :: rest) = k :: liveKeys rest := by
  show ((liveEntries ((⟨h1, some k, some v⟩ : Slot K V) :: rest)).map
    fun e => e.2.1) = _
  rw [liveEntries_cons_live _ _ _ _ hne, List.map_cons]
  rfl

theorem xorAll_liveKeys (hashFn : K → Nat) :
    ∀ entries : List (Slot K V), (∀ e ∈ entries, SlotWF hashFn e) →
      xorAll entries
        = (liveKeys entries).foldr (fun k a => tagHash (hashFn k) ^^^ a) 0
  | [], _ => rfl
  | e :: rest, hwf => by
    have hrest := xorAll_liveKeys hashFn rest (fun x hx => hwf x (by simp [hx]))
    rcases hwf e (by simp) with hempty | ⟨k0, v0, hshape⟩
    · rw [hempty, xorAll_cons, hrest, liveKeys_cons_empty]
      show 0 ^^^ _ = _
      rw [Nat.zero_xor]
    · rw [hshape, xorAll_cons, hrest,
        liveKeys_cons_live _ _ _ _ (tagHash_ne_zero _), List.foldr_cons]

theorem containsHash1Key_iff_hasKey (hashFn : K → Nat) (emptyHash : Nat)
    (s : Table K Unit) (hwf : TableWF hashFn emptyHash s) (hs0 : s.size ≠ 0)
    (k : K) :
    containsHash1Key s (tagHash (hashFn k)) k = true ↔ hasKey s.entries k := by
  rcases hwf with hz | halloc
  · exfalso
    apply hs0
    rw [hz]
    rfl
  · obtain ⟨⟨m, hm⟩, _, _, _, hslotwf, hdist, hchain, _⟩ := halloc
    have hpow : ∃ j, s.entries.length = 2 ^ j := by
      rw [hm]
      exact pow_len_initial m
    have h2mpos : (0:Nat) < 2 ^ m := Nat.two_pow_pos m
    have hlen : 0 < s.entries.length := by
      rw [hm, initialCapacity]
      omega
    unfold containsHash1Key
    constructor
    · intro hc
      rcases hpr : probe s.entries (tagHash (hashFn k)) k
          (startIndex s.entries (tagHash (hashFn k))) s.entries.length
        with _ | ⟨b, i⟩
      · rw [hpr] at hc
        simp at hc
      · cases b
        · rw [hpr] at hc
          simp at hc
        · obtain ⟨d, _, hdi, _, hstop⟩ := probe_sound s.entries _ k hpow hlen
            s.entries.length _ true i
            (by rw [startIndex_mod _ _ hpow]; exact Nat.mod_lt _ hlen) hpr
          rcases hstop with ⟨hb, _⟩ | ⟨_, hmatch⟩
          · exact absurd hb (by simp)
          · refine ⟨i, ?_, ?_, hmatch.2⟩
            · rw [hdi]
              exact Nat.mod_lt _ hlen
            · rw [hmatch.1]
              exact tagHash_ne_zero _
    · intro hk
      obtain ⟨i, _, _, _, hpr⟩ := hasKey_probe_true hashFn s.entries k hpow hlen
        hslotwf hchain hdist hk s.entries.length (le_refl _)
      rw [← startIndex_mod s.entries _ hpow] at hpr
      rw [hpr]

theorem scan_true_iff (hashFn : K → Nat) (emptyHash : Nat) (a b : Table K Unit)
    (hawf : TableWF hashFn emptyHash a) (hbwf : TableWF hashFn emptyHash b)
    (hb0 : b.size ≠ 0) :
    ((liveEntries a.entries).all fun e => containsHash1Key b e.1 e.2.1) = true
      ↔ ∀ k, hasKey a.entries k → hasKey b.entries k := by
  have haslots := tableWF_slots hashFn emptyHash a hawf
  rw [List.all_eq_true]
  constructor
  · intro hall k hk
    have hkl : k ∈ (liveEntries a.entries).map (fun e => e.2.1) :=
      (liveKeys_mem hashFn a.entries haslots k).2 hk
    obtain ⟨e, he, hek⟩ := List.mem_map.1 hkl
    have htag := liveEntries_mem_tag hashFn a.entries haslots e he
    have hc := hall e he
    rw [htag, hek] at hc
    exact (containsHash1Key_iff_hasKey hashFn emptyHash b hbwf hb0 k).1 hc
  · intro hsub e he
    have htag := liveEntries_mem_tag hashFn a.entries haslots e he
    have hkl : e.2.1 ∈ liveKeys a.entries :=
      List.mem_map_of_mem (fun e => e.2.1) he
    have hk := (liveKeys_mem hashFn a.entries haslots e.2.1).1 hkl
    rw [htag]
    exact (containsHash1Key_iff_hasKey hashFn emptyHash b hbwf hb0 e.2.1).2
      (hsub e.2.1 hk)

theorem keys_perm (hashFn : K → Nat) (emptyHash : Nat) (s t : Table K Unit)
    (hswf : TableWF hashFn emptyHash s) (htwf : TableWF hashFn emptyHash t)
    (hkeys : ∀ k, hasKey s.entries k ↔ hasKey t.entries k) :
    (liveKeys s.entries).Perm (liveKeys t.entries) := by
  have hsslots := tableWF_slots hashFn emptyHash s hswf
  have htslots := tableWF_slots hashFn emptyHash t htwf
  refine (List.perm_ext_iff_of_nodup
    (liveKeys_nodup hashFn s.entries hsslots (tableWF_dist hashFn emptyHash s hswf))
    (liveKeys_nodup hashFn t.entries htslots
      (tableWF_dist hashFn emptyHash t htwf))).2 ?_
  intro k
  rw [liveKeys_mem hashFn s.entries hsslots k,
    liveKeys_mem hashFn t.entries htslots k]
  exact hkeys k

theorem equals_of_same_keys (hashFn : K → Nat) (emptyHash : Nat)
    (s t : Table K Unit)
    (hswf : TableWF hashFn emptyHash s) (htwf : TableWF hashFn emptyHash t)
    (hkeys : ∀ k, hasKey s.entries k ↔ hasKey t.entries k) :
    HSet.Equals emptyHash s t = true := by
  have hperm := keys_perm hashFn emptyHash s t hswf htwf hkeys
  have hsz : s.size = t.size := by
    rw [tableWF_size_keys hashFn emptyHash s hswf,
      tableWF_size_keys hashFn emptyHash t htwf]
    exact hperm.length_eq
  unfold HSet.Equals
  rw [if_neg (fun h => h hsz)]
  by_cases h0 : s.size = 0
  · rw [if_pos h0]
  · rw [if_neg h0]
    have ht0 : t.size ≠ 0 := by
      rw [← hsz]
      exact h0
    have hsA : s.hash = emptyHash ^^^ xorAll s.entries := by
      rcases hswf with hz | hA
      · exfalso
        apply h0
        rw [hz]
        rfl
      · exact hA.2.2.2.2.2.2.2
    have htA : t.hash = emptyHash ^^^ xorAll t.entries := by
      rcases htwf with hz | hA
      · exfalso
        apply ht0
        rw [hz]
        rfl
      · exact hA.2.2.2.2.2.2.2
    haveI : LeftCommutative (fun (k : K) (a : Nat) => tagHash (hashFn k) ^^^ a) :=
      ⟨fun a b c => by
        show tagHash (hashFn a) ^^^ (tagHash (hashFn b) ^^^ c)
          = tagHash (hashFn b) ^^^ (tagHash (hashFn a) ^^^ c)
        ac_rfl⟩
    have hhash_eq : HSet.Hash emptyHash s = HSet.Hash emptyHash t := by
      unfold HSet.Hash
      rw [if_neg h0, if_neg ht0, hsA, htA]
      congr 1
      rw [xorAll_liveKeys hashFn s.entries (tableWF_slots hashFn emptyHash s hswf),
        xorAll_liveKeys hashFn t.entries (tableWF_slots hashFn emptyHash t htwf)]
      exact hperm.foldr_eq 0
    rw [if_neg (fun h => h hhash_eq)]
    dsimp only
    by_cases hc : t.entries.length < s.entries.length
    · rw [if_pos hc]
      exact (scan_true_iff hashFn emptyHash t s htwf hswf h0 |>.2
        (fun k hk => (hkeys k).2 hk))
    · rw [if_neg hc]
      exact (scan_true_iff hashFn emptyHash s t hswf htwf ht0 |>.2
        (fun k hk => (hkeys k).1 hk))

theorem keys_subset_flip (hashFn : K → Nat) (emptyHash : Nat) (s t : Table K Unit)
    (hswf : TableWF hashFn emptyHash s) (htwf : TableWF hashFn emptyHash t)
    (hsz : s.size = t.size)
    (hsub : ∀ k, hasKey s.entries k → hasKey t.entries k) :
    ∀ k, hasKey t.entries k → hasKey s.entries k := by
  have hsslots := tableWF_slots hashFn emptyHash s hswf
  have htslots := tableWF_slots hashFn emptyHash t htwf
  have hsnodup := liveKeys_nodup hashFn s.entries hsslots
    (tableWF_dist hashFn emptyHash s hswf)
  have htnodup := liveKeys_nodup hashFn t.entries htslots
    (tableWF_dist hashFn emptyHash t htwf)
  have hfsub : (liveKeys s.entries).toFinset ⊆ (liveKeys t.entries).toFinset := by
    intro x hx
    exact List.mem_toFinset.2 ((liveKeys_mem hashFn t.entries htslots x).2
      (hsub x ((liveKeys_mem hashFn s.entries hsslots x).1
        (List.mem_toFinset.1 hx))))
  have hcard : ((liveKeys t.entries).toFinset).card
      ≤ ((liveKeys s.entries).toFinset).card := by
    rw [List.toFinset_card_of_nodup htnodup, List.toFinset_card_of_nodup hsnodup,
      ← tableWF_size_keys hashFn emptyHash s hswf,
      ← tableWF_size_keys hashFn emptyHash t htwf]
    omega
  have heq := Finset.eq_of_subset_of_card_le hfsub hcard
  intro k hk
  have hmem : k ∈ (liveKeys t.entries).toFinset :=
    List.mem_toFinset.2 ((liveKeys_mem hashFn t.entries htslots k).2 hk)
  rw [← heq] at hmem
  exact (liveKeys_mem hashFn s.entries hsslots k).1 (List.mem_toFinset.1 hmem)

theorem equals_symm (hashFn : K → Nat) (emptyHash : Nat) (s t : Table K Unit)
    (hswf : TableWF hashFn emptyHash s) (htwf : TableWF hashFn emptyHash t) :
    HSet.Equals emptyHash s t = HSet.Equals emptyHash t s := by
  unfold HSet.Equals
  by_cases hsz : s.size = t.size
  · rw [if_neg (show ¬(s.size ≠ t.size) from fun h => h hsz),
      if_neg (show ¬(t.size ≠ s.size) from fun h => h hsz.symm)]
    by_cases h0 : s.size = 0
    · rw [if_pos h0, if_pos (show t.size = 0 by rw [← hsz]; exact h0)]
    · have ht0 : ¬t.size = 0 := by
        rw [← hsz]
        exact h0
      rw [if_neg h0, if_neg ht0]
      by_cases hH : HSet.Hash emptyHash s = HSet.Hash emptyHash t
      · rw [if_neg (show ¬(HSet.Hash emptyHash s ≠ HSet.Hash emptyHash t)
            from fun h => h hH),
          if_neg (show ¬(HSet.Hash emptyHash t ≠ HSet.Hash emptyHash s)
            from fun h => h hH.symm)]
        dsimp only
        rcases Nat.lt_trichotomy s.entries.length t.entries.length
          with hlt | heq | hgt
        · rw [if_neg (show ¬(t.entries.length < s.entries.length) by omega),
            if_pos hlt]
        · rw [if_neg (show ¬(t.entries.length < s.entries.length) by omega),
            if_neg (show ¬(s.entries.length < t.entries.length) by omega)]
          dsimp only
          rw [Bool.eq_iff_iff,
            scan_true_iff hashFn emptyHash s t hswf htwf ht0,
            scan_true_iff hashFn emptyHash t s htwf hswf h0]
          constructor
          · intro hsub
            exact keys_subset_flip hashFn emptyHash s t hswf htwf hsz hsub
          · intro hsub
            exact keys_subset_flip hashFn emptyHash t s htwf hswf hsz.symm hsub
        · rw [if_pos hgt,
            if_neg (show ¬(s.entries.length < t.entries.length) by omega)]
      · rw [if_pos (show HSet.Hash emptyHash s ≠ HSet.Hash emptyHash t from hH),
          if_pos (show HSet.Hash emptyHash t ≠ HSet.Hash emptyHash s
            from fun h => hH h.symm)]
  · rw [if_pos (show s.size ≠ t.size from hsz),
      if_pos (show t.size ≠ s.size from fun h => hsz h.symm)]

theorem add_hasKey (hashFn : K → Nat) (emptyHash : Nat) (s : Table K Unit)
    (x : K) (hwf : TableWF hashFn emptyHash s) :
    ∀ k', hasKey (HSet.Add hashFn emptyHash s x).entries k'
      ↔ (hasKey s.entries k' ∨ k' = x) := by
  classical
  intro k'
  have h := insertH_WF hashFn emptyHash 2 s x () hwf
  by_cases hx : hasKey s.entries x
  · rw [show HSet.Add hashFn emptyHash s x = s from h.2.1 hx]
    constructor
    · exact Or.inl
    · rintro (hk | rfl)
      · exact hk
      · exact hx
  · exact (h.2.2 hx).2 k'

theorem foldl_add_reach (hashFn : K → Nat) (emptyHash : Nat) :
    ∀ (l : List K) (s : Table K Unit), SetReach hashFn emptyHash s →
      SetReach hashFn emptyHash (l.foldl (HSet.Add hashFn emptyHash) s)
  | [], _, hs => hs
  | x :: rest, s, hs =>
    foldl_add_reach hashFn emptyHash rest (HSet.Add hashFn emptyHash s x)
      (SetReach.add x hs)

theorem foldl_add_hasKey (hashFn : K → Nat) (emptyHash : Nat) :
    ∀ (l : List K) (s : Table K Unit), SetReach hashFn emptyHash s → ∀ k,
      hasKey (l.foldl (HSet.Add hashFn emptyHash) s).entries k
        ↔ (hasKey s.entries k ∨ k ∈ l)
  | [], _, _, k => by simp
  | x :: rest, s, hs, k => by
    have hrec := foldl_add_hasKey hashFn emptyHash rest
      (HSet.Add hashFn emptyHash s x) (SetReach.add x hs) k
    have hadd := add_hasKey hashFn emptyHash s x
      (setReach_WF hashFn emptyHash s hs) k
    show hasKey (rest.foldl (HSet.Add hashFn emptyHash)
      (HSet.Add hashFn emptyHash s x)).entries k ↔ _
    rw [hrec, hadd]
    simp [List.mem_cons]
    tauto

theorem buildSet_reach (hashFn : K → Nat) (emptyHash : Nat) (l : List K) :
    SetReach hashFn emptyHash (buildSet hashFn emptyHash l) :=
  foldl_add_reach hashFn emptyHash l (Table.zero K Unit) SetReach.zero

theorem buildSet_hasKey (hashFn : K → Nat) (emptyHash : Nat) (l : List K)
    (k : K) : hasKey (buildSet hashFn emptyHash l).entries k ↔ k ∈ l := by
  have h := foldl_add_hasKey hashFn emptyHash l (Table.zero K Unit)
    SetReach.zero k
  show hasKey (l.foldl (HSet.Add hashFn emptyHash) (Table.zero K Unit)).entries k
    ↔ k ∈ l
  rw [h]
  constructor
  · rintro (⟨i, hi, _, _⟩ | hmem)
    · simp [Table.zero] at hi
    · exact hmem
  · exact Or.inr

/-- C6: set equality is insensitive to insertion order (two sets built by
adding element lists with the same membership test equal), reflexive on every
reachable set, and symmetric on reachable sets; in particular the set built
from 1,2,3 equals the set built from 3,2,1. -/
theorem c6_equals_order_insensitive (hashFn : K → Nat) (emptyHash : Nat) :
    (∀ l1 l2 : List K, (∀ x, x ∈ l1 ↔ x ∈ l2) →
      HSet.Equals emptyHash (buildSet hashFn emptyHash l1)
        (buildSet hashFn emptyHash l2) = true) ∧
    (∀ s : Table K Unit, SetReach hashFn emptyHash s →
      HSet.Equals emptyHash s s = true) ∧
    (∀ s t : Table K Unit, SetReach hashFn emptyHash s →
      SetReach hashFn emptyHash t →
      HSet.Equals emptyHash s t = HSet.Equals emptyHash t s) ∧
    HSet.Equals 0 (buildSet (fun n : Nat => n) 0 [1, 2, 3])
      (buildSet (fun n : Nat => n) 0 [3, 2, 1]) = true := by
  refine ⟨?_, ?_, ?_, by decide⟩
  · intro l1 l2 hmem
    apply equals_of_same_keys hashFn emptyHash _ _
      (setReach_WF hashFn emptyHash _ (buildSet_reach hashFn emptyHash l1))
      (setReach_WF hashFn emptyHash _ (buildSet_reach hashFn emptyHash l2))
    intro k
    rw [buildSet_hasKey, buildSet_hasKey]
    exact hmem k
  · intro s hs
    exact equals_of_same_keys hashFn emptyHash s s
      (setReach_WF hashFn emptyHash s hs) (setReach_WF hashFn emptyHash s hs)
      (fun _ => Iff.rfl)
  · intro s t hs ht
    exact equals_symm hashFn emptyHash s t
      (setReach_WF hashFn emptyHash s hs) (setReach_WF hashFn emptyHash t ht)

theorem c6_equals_order_insensitive_witness :
    HSet.Equals 0 (buildSet (fun n : Nat => n) 0 [1, 2])
      (buildSet (fun n : Nat => n) 0 [2, 1]) = true ∧
    HSet.Equals 0 (buildSet (fun n : Nat => n) 0 [1])
      (buildSet (fun n : Nat => n) 0 [1]) = true ∧
    HSet.Equals 0 (buildSet (fun n : Nat => n) 0 [1])
      (buildSet (fun n : Nat => n) 0 [2])
      = HSet.Equals 0 (buildSet (fun n : Nat => n) 0 [2])
        (buildSet (fun n : Nat => n) 0 [1]) :=
  ⟨(c6_equals_order_insensitive (fun n => n) 0).1 [1, 2] [2, 1]
      (by intro x; constructor <;> intro h <;> simp_all [List.mem_cons] <;> tauto),
   (c6_equals_order_insensitive (fun n => n) 0).2.1 _
      (buildSet_reach (fun n => n) 0 [1]),
   (c6_equals_order_insensitive (fun n => n) 0).2.2.1 _ _
      (buildSet_reach (fun n => n) 0 [1]) (buildSet_reach (fun n => n) 0 [2])⟩

theorem c10_probe_terminates_witness :
    liveCount (Map.Put (fun n => n) (Table.zero Nat Nat) 1 10).entries
      < (Map.Put (fun n => n) (Table.zero Nat Nat) 1 10).entries.length ∧
    (∃ z, z < (Map.Put (fun n => n) (Table.zero Nat Nat) 1 10).entries.length ∧
      ((Map.Put (fun n => n) (Table.zero Nat Nat) 1 10).entries.getD z
        (emptySlot Nat Nat)).hash1 = 0) ∧
    (∀ k, ∃ b i, probe (Map.Put (fun n => n) (Table.zero Nat Nat) 1 10).entries
        (tagHash k) k
        (startIndex (Map.Put (fun n => n) (Table.zero Nat Nat) 1 10).entries
          (tagHash k))
        (Map.Put (fun n => n) (Table.zero Nat Nat) 1 10).entries.length
          = some (b, i) ∧
      ((b = false ∧ slotEmptyAt
          (Map.Put (fun n => n) (Table.zero Nat Nat) 1 10).entries i) ∨
       (b = true ∧ slotMatchAt
          (Map.Put (fun n => n) (Table.zero Nat Nat) 1 10).entries
          (tagHash k) k i))) :=
  (c10_probe_terminates (fun n => n) 5 _ _
    (MapReach.put 1 10 MapReach.zero) (SetReach.add 1 SetReach.zero)
    (by decide) (by decide)).1

end Hashmap
